import Mathlib

/-!
# Graph search of mpel (lib/builtins/graph_search.cpp, lib/viz.cpp)

A shallow embedding of the graph-search functors of the motion-planning
library: `default_search`, `dijkstra_search`, `breadth_first_search` and the
two unimplemented variants, and of `View::add_layer(PathRef)`, followed by
theorems about them. Further embeddings of the same source are compared
with the first: `breadth_first_search` with a record of the pushes and pops of
its queue, `dijkstra_search` with every index checked, and both searches with
the largest double as an ordinary value (the definitions named `_dbl`).

Conventions of the embedding
* `double` values are exact rationals. In the first embedding
  `std::numeric_limits<double>::max()` is the top element of `WithTop ℚ`: an
  initial distance that no sum reaches. In the definitions named `_dbl` it is
  the rational `max_double`, which a sum of weights can equal, and the top
  element is `+infinity`, the value of a sum above `max_double`. The two agree
  on every graph whose walks from the start stay below `max_double`
  (`dijkstra_fuel_agree`, `bfs_fuel_agree`) and differ on the others.
* `std::vector` is a `List`; `v[i]` is `List.getD`, `v[i] = x` is `List.set`. An index
  outside the vector (undefined behaviour in the source) reads the default value and
  writes nothing; the theorems assume the descriptors they need to be valid indices.
* `while` loops take a fuel argument and yield `none` when it runs out; one unit of
  fuel is one evaluation of the loop condition.
* A result `some p` is the `Path` returned by the function.
-/

namespace mpel

/-- A 2D point with integer coordinates (`Point` of `types.hpp`, a `cv::Point`). -/
abbrev Point := ℤ × ℤ

/-- A path is a sequence of points (`Path` of `types.hpp`); the empty one means that no
path was found. -/
abbrev Path := List Point

/-- A `double`: an exact rational, or `⊤`. In the first embedding `⊤` stands for the
largest double, taken as infinite; in the definitions named `_dbl` the largest double is
the rational `max_double` and `⊤` is `+infinity`. -/
abbrev Dist := WithTop ℚ

/-- Modelled from the spec: the class `Graph`, declared in `types.hpp`, of which the
searches use four member functions: the number of vertices, the point of a vertex, the
weight of a pair of vertices (negative: not connected) and the vertex index of a point. -/
structure Graph where
  num_vertices : ℕ
  vertex : ℕ → Point
  weight : ℕ → ℕ → ℚ
  descriptor : Point → ℕ

/-- Modelled from the spec: the failure of a strategy variant that has no algorithmic
body, `UnimplementedException` of `common.hpp`. -/
inductive MpelException where
  | UnimplementedException
  deriving DecidableEq, Repr

/-! ## default_search -/

/-- The body of `default_search::operator()`: push `a`, push `b`. -/
def default_search (_g : Graph) (a b : Point) : Path :=
  let path : Path := []
  let path := path ++ [a]
  let path := path ++ [b]
  path

/-! ## a_star_search and depth_first_search -/

/-- The functor object of A* search: it has no data members. -/
structure a_star_search where
  deriving DecidableEq, Repr

/-- The functor object of depth first search: it has no data members. -/
structure depth_first_search where
  deriving DecidableEq, Repr

/-- The constructor `a_star_search::a_star_search()`: its body is a `throw`. -/
def a_star_search.ctor : Except MpelException a_star_search :=
  Except.error MpelException.UnimplementedException

/-- The constructor `depth_first_search::depth_first_search()`: its body is a `throw`. -/
def depth_first_search.ctor : Except MpelException depth_first_search :=
  Except.error MpelException.UnimplementedException

/-! ## Path reconstruction (shared by both searches) -/

/-- The loop `while (parent[curr] != curr) { path.push_back(g.vertex(curr)); curr = parent[curr]; }`
followed by the last `push_back`, `std::reverse` and `return path`.
One unit of fuel is spent per evaluation of the loop condition. -/
def reconstruct (g : Graph) (parent : List ℕ) : ℕ → ℕ → Path → Option Path
  | 0, _, _ => none
  | f + 1, curr, path =>
    if parent.getD curr 0 ≠ curr then
      reconstruct g parent f (parent.getD curr 0) (path ++ [g.vertex curr])
    else
      some (path ++ [g.vertex curr]).reverse

/-! ## dijkstra_search -/

/-- One iteration of the selection loop of `dijkstra_search`; the state is
`(curr, min_dist)`. -/
def select_step (dist : List Dist) (st : ℕ × Dist) (i : ℕ) : ℕ × Dist :=
  if dist.getD i ⊤ < 0 then st
  else if dist.getD i ⊤ < st.2 then (i, dist.getD i ⊤)
  else st

/-- The selection loop: `curr = num_vertices; min_dist = max; for (i ...) ...`. -/
def select_min (g : Graph) (dist : List Dist) : ℕ :=
  ((List.range g.num_vertices).foldl (select_step dist) (g.num_vertices, ⊤)).1

/-- One iteration of the relaxation loop; the state is `(dist, parent)`. The sum is exact
and never equals the initial distance `⊤`; `relax_step_dbl` is the loop in which it can. -/
def relax_step (g : Graph) (curr : ℕ) (st : List Dist × List ℕ) (i : ℕ) :
    List Dist × List ℕ :=
  if g.weight curr i < 0 then st
  else
    let d : Dist := st.1.getD curr ⊤ + (g.weight curr i : ℚ)
    if d < st.1.getD i ⊤ then (st.1.set i d, st.2.set i curr)
    else st

/-- The relaxation loop over all vertices `i`. -/
def relax (g : Graph) (curr : ℕ) (dist : List Dist) (parent : List ℕ) :
    List Dist × List ℕ :=
  (List.range g.num_vertices).foldl (relax_step g curr) (dist, parent)

/-- The `while (true)` loop of `dijkstra_search`, one unit of fuel per iteration;
`rfuel` is the fuel of the reconstruction loop. -/
def dijkstra_loop (g : Graph) (out rfuel : ℕ) : ℕ → List Dist → List ℕ → Option Path
  | 0, _, _ => none
  | f + 1, dist, parent =>
    let curr := select_min g dist
    if curr = g.num_vertices then some []
    else if curr = out then reconstruct g parent rfuel curr []
    else
      let st := relax g curr dist parent
      dijkstra_loop g out rfuel f (st.1.set curr ((-1 : ℚ) : Dist)) st.2

/-- The function `dijkstra_search::operator()` with `lfuel` iterations allowed to the
outer loop and `rfuel` to the reconstruction loop. -/
def dijkstra_fuel (lfuel rfuel : ℕ) (g : Graph) (a b : Point) : Option Path :=
  let src := g.descriptor a
  let out := g.descriptor b
  let dist : List Dist := (List.replicate g.num_vertices ⊤).set src 0
  let parent : List ℕ := (List.replicate g.num_vertices 0).set src src
  dijkstra_loop g out rfuel lfuel dist parent

/-- The function `dijkstra_search::operator()`; `num_vertices + 1` iterations of the outer
loop and `num_vertices` of the reconstruction loop are enough (`dijkstra_fuel_enough`). -/
def dijkstra_search (g : Graph) (a b : Point) : Option Path :=
  dijkstra_fuel (g.num_vertices + 1) g.num_vertices g a b

/-! ## breadth_first_search -/

/-- The `for` loop of `breadth_first_search` over the vertices `i` still to scan while
`curr` is expanded: `Sum.inl r` when the loop returned `r` from the function,
`Sum.inr (Q, dist, parent)` when it ran to its end. The test `dist[i] == max_dist` reads
`dist[i] = ⊤` and an exact sum never equals `⊤`; `bfs_scan_dbl` is the loop in which the
sum can equal `max_dist`. -/
def bfs_scan (g : Graph) (out rfuel curr : ℕ) :
    List ℕ → List ℕ → List Dist → List ℕ → Option Path ⊕ (List ℕ × List Dist × List ℕ)
  | [], Q, dist, parent => Sum.inr (Q, dist, parent)
  | i :: rest, Q, dist, parent =>
    if g.weight curr i < 0 then bfs_scan g out rfuel curr rest Q dist parent
    else if dist.getD i ⊤ = ⊤ then
      let dist1 := dist.set i (dist.getD curr ⊤ + (g.weight curr i : ℚ))
      let parent1 := parent.set i curr
      let Q1 := Q ++ [i]
      if curr = out then Sum.inl (reconstruct g parent1 rfuel curr [])
      else bfs_scan g out rfuel curr rest Q1 dist1 parent1
    else bfs_scan g out rfuel curr rest Q dist parent

/-- The loop `while (not Q.empty())` of `breadth_first_search` and the final
`return path`, one unit of fuel per evaluation of the loop condition. -/
def bfs_loop (g : Graph) (out rfuel : ℕ) : ℕ → List ℕ → List Dist → List ℕ → Option Path
  | 0, _, _, _ => none
  | _ + 1, [], _, _ => some []
  | f + 1, curr :: Q, dist, parent =>
    match bfs_scan g out rfuel curr (List.range g.num_vertices) Q dist parent with
    | Sum.inl r => r
    | Sum.inr (Q1, dist1, parent1) => bfs_loop g out rfuel f Q1 dist1 parent1

/-- The function `breadth_first_search::operator()` with `lfuel` iterations allowed to the
queue loop and `rfuel` to the reconstruction loop. -/
def bfs_fuel (lfuel rfuel : ℕ) (g : Graph) (a b : Point) : Option Path :=
  let src := g.descriptor a
  let out := g.descriptor b
  let dist : List Dist := List.replicate g.num_vertices ⊤
  let parent : List ℕ := List.replicate g.num_vertices 0
  let Q : List ℕ := [src]
  let dist := dist.set src 0
  let parent := parent.set src src
  bfs_loop g out rfuel lfuel Q dist parent

/-- The function `breadth_first_search::operator()`: every vertex is queued at most once,
so `num_vertices + 1` evaluations of the loop condition are enough. -/
def breadth_first_search (g : Graph) (a b : Point) : Option Path :=
  bfs_fuel (g.num_vertices + 1) g.num_vertices g a b

/-! ## Walks -/

/-- Vertex `v` is a neighbour of `u`: the weight of the pair is not negative. -/
def Graph.edge (g : Graph) (u v : ℕ) : Prop := 0 ≤ g.weight u v

instance (g : Graph) (u v : ℕ) : Decidable (g.edge u v) := by
  unfold Graph.edge; infer_instance

/-- The list of vertex indices `p` is a walk of `g` that starts at `s`: its vertices are
vertices of `g` and consecutive ones are joined by an edge. -/
def Graph.walkFrom (g : Graph) : ℕ → List ℕ → Prop
  | _, [] => False
  | s, [u] => u = s ∧ u < g.num_vertices
  | s, u :: v :: rest => u = s ∧ u < g.num_vertices ∧ g.edge u v ∧ g.walkFrom v (v :: rest)

/-- The list `p` is a walk of `g` from `s` to `t`. -/
def Graph.isWalk (g : Graph) (s t : ℕ) (p : List ℕ) : Prop :=
  g.walkFrom s p ∧ p.getLast? = some t

/-- The sum of the weights of the edges along a list of vertex indices. -/
def Graph.walkWeight (g : Graph) : List ℕ → ℚ
  | [] => 0
  | [_] => 0
  | u :: v :: rest => g.weight u v + g.walkWeight (v :: rest)

/-- Vertex `t` can be reached from `s` along edges of non-negative weight. -/
def Graph.reachable (g : Graph) (s t : ℕ) : Prop := ∃ p, g.isWalk s t p

/-! ## Definitions used to state and prove the properties -/

/-- Vertex `i` is deleted: `dist[i]` is negative. -/
def deleted (dist : List Dist) (i : ℕ) : Prop := dist.getD i ⊤ < 0

instance (dist : List Dist) (i : ℕ) : Decidable (deleted dist i) := by
  unfold deleted; infer_instance

/-- The number of deleted vertices. -/
def numDeleted (g : Graph) (dist : List Dist) : ℕ :=
  ((Finset.range g.num_vertices).filter (fun i => deleted dist i)).card

/-- The invariant of the `while (true)` loop of `dijkstra_search`, with two ghost
values: the label `L i` of a vertex (its tentative distance, kept when the vertex is
deleted) and the position `rank i` of a deleted vertex in the order of deletion. -/
structure DijkstraInv (g : Graph) (s : ℕ) (dist : List Dist) (parent : List ℕ)
    (L : ℕ → Dist) (rank : ℕ → ℕ) : Prop where
  dlen : dist.length = g.num_vertices
  plen : parent.length = g.num_vertices
  hs : s < g.num_vertices
  lab : ∀ i < g.num_vertices,
    (dist.getD i ⊤ = ((-1 : ℚ) : Dist) ∧ L i ≠ ⊤) ∨ dist.getD i ⊤ = L i
  nonneg : ∀ i < g.num_vertices, 0 ≤ L i
  src0 : L s = 0
  psrc : parent.getD s 0 = s
  settled : ∀ i < g.num_vertices, ∀ j < g.num_vertices,
    deleted dist i → ¬ deleted dist j → L i ≤ L j
  relaxed : ∀ i < g.num_vertices, ∀ j < g.num_vertices,
    deleted dist i → g.edge i j → L j ≤ L i + (g.weight i j : ℚ)
  par : ∀ i < g.num_vertices, i ≠ s → L i ≠ ⊤ →
    parent.getD i 0 < g.num_vertices ∧ deleted dist (parent.getD i 0) ∧
    g.edge (parent.getD i 0) i ∧
    L (parent.getD i 0) + (g.weight (parent.getD i 0) i : ℚ) = L i
  rankPar : ∀ i < g.num_vertices, i ≠ s → deleted dist i →
    rank (parent.getD i 0) < rank i
  rankLt : ∀ i < g.num_vertices, deleted dist i → rank i < numDeleted g dist

/-- Vertex `i` has been discovered: `dist[i]` is no longer the initial value. -/
def discovered (dist : List Dist) (i : ℕ) : Prop := dist.getD i ⊤ ≠ ⊤

instance (dist : List Dist) (i : ℕ) : Decidable (discovered dist i) := by
  unfold discovered; infer_instance

/-- The number of discovered vertices. -/
def numDiscovered (g : Graph) (dist : List Dist) : ℕ :=
  ((Finset.range g.num_vertices).filter (fun i => discovered dist i)).card

/-- The invariant of `breadth_first_search` while vertex `curr` is expanded, the vertices
of `rest` are still to be scanned and the queue is `Q`, with two ghost values: the number
of hops `lev i` from the start to a discovered vertex and the position `rank i` of a
discovered vertex in the order of discovery. -/
structure BfsInv (g : Graph) (s curr : ℕ) (rest Q : List ℕ) (dist : List Dist)
    (parent : List ℕ) (lev rank : ℕ → ℕ) : Prop where
  dlen : dist.length = g.num_vertices
  plen : parent.length = g.num_vertices
  hs : s < g.num_vertices
  hcurr : curr < g.num_vertices
  dcurr : discovered dist curr
  curr_notin : curr ∉ Q
  qdisc : ∀ q ∈ Q, q < g.num_vertices ∧ discovered dist q
  qnodup : Q.Nodup
  dsrc : discovered dist s
  psrc : parent.getD s 0 = s
  lsrc : lev s = 0
  par : ∀ i < g.num_vertices, i ≠ s → discovered dist i →
    parent.getD i 0 < g.num_vertices ∧ discovered dist (parent.getD i 0) ∧
    g.edge (parent.getD i 0) i ∧ lev i = lev (parent.getD i 0) + 1 ∧
    rank (parent.getD i 0) < rank i
  rankLt : ∀ i < g.num_vertices, discovered dist i → rank i < numDiscovered g dist
  qsorted : ∀ q ∈ Q, lev curr ≤ lev q
  qpair : Q.Pairwise (fun x y => lev x ≤ lev y)
  qbound : ∀ q ∈ Q, lev q ≤ lev curr + 1
  procEdge : ∀ u < g.num_vertices, discovered dist u → u ∉ Q → u ≠ curr →
    ∀ v < g.num_vertices, g.edge u v → discovered dist v ∧ lev v ≤ lev u + 1
  procLe : ∀ u < g.num_vertices, discovered dist u → u ∉ Q → u ≠ curr → lev u ≤ lev curr
  scanned : ∀ v < g.num_vertices, v ∉ rest → g.edge curr v →
    discovered dist v ∧ lev v ≤ lev curr + 1

/-- A decision procedure for `Graph.walkFrom`. -/
instance Graph.decWalkFrom (g : Graph) : ∀ (s : ℕ) (p : List ℕ), Decidable (g.walkFrom s p)
  | _, [] => isFalse (fun h => h)
  | s, [u] => inferInstanceAs (Decidable (u = s ∧ u < g.num_vertices))
  | s, u :: v :: rest =>
    have := Graph.decWalkFrom g v (v :: rest)
    inferInstanceAs
      (Decidable (u = s ∧ u < g.num_vertices ∧ g.edge u v ∧ g.walkFrom v (v :: rest)))

instance (g : Graph) (s t : ℕ) (p : List ℕ) : Decidable (g.isWalk s t p) := by
  unfold Graph.isWalk; infer_instance

/-- The total accumulated edge weight of a path of points, each point standing for the
vertex `descriptor` gives it. -/
def Graph.pathWeight (g : Graph) (p : Path) : ℚ := g.walkWeight (p.map g.descriptor)

/-! ## Test graphs -/

/-- Two vertices `(0,0)` and `(1,0)` joined by an edge of weight 1. -/
def twoLine : Graph where
  num_vertices := 2
  vertex := fun i => ((i : ℤ), 0)
  weight := fun i j => if i = j then 0 else if i < 2 ∧ j < 2 then 1 else -1
  descriptor := fun p => p.1.toNat

/-- Four vertices `(0,0)`, `(1,0)`, `(2,0)`, `(3,0)`: edges 0-1, 1-2 and 2-3 of weight 1
and an edge 0-2 of weight 5. -/
def kite : Graph where
  num_vertices := 4
  vertex := fun i => ((i : ℤ), 0)
  weight := fun i j =>
    if i = j then 0
    else if (i = 0 ∧ j = 1) ∨ (i = 1 ∧ j = 0) then 1
    else if (i = 1 ∧ j = 2) ∨ (i = 2 ∧ j = 1) then 1
    else if (i = 2 ∧ j = 3) ∨ (i = 3 ∧ j = 2) then 1
    else if (i = 0 ∧ j = 2) ∨ (i = 2 ∧ j = 0) then 5
    else -1
  descriptor := fun p => p.1.toNat

/-- Two vertices `(0,0)` and `(1,0)` and no edge between them. -/
def twoApart : Graph where
  num_vertices := 2
  vertex := fun i => ((i : ℤ), 0)
  weight := fun i j => if i = j then 0 else -1
  descriptor := fun p => p.1.toNat

/-! ## View::add_layer(PathRef) (lib/viz.cpp) -/

/-- The colour constants that `View::add_layer(PathRef)` passes to the drawing functions;
they are declared in a header that is not among the sources. -/
inductive Color where
  | COLOR_GREEN
  | COLOR_DARK_GREEN
  deriving DecidableEq, Repr

/-- A call of one of the drawing functions of OpenCV on the image of a view, with its
arguments after the image. -/
inductive DrawOp where
  | line (a b : Point) (color : Color) (thickness : ℤ)
  | circle (center : Point) (radius : ℤ) (color : Color) (thickness : ℤ)
  deriving DecidableEq, Repr

/-- The part of a `View` that `add_layer` changes: the drawing calls made on `_img`, in
order, and the number of calls of `update()`. -/
structure View where
  img : List DrawOp
  updates : ℕ
  deriving DecidableEq, Repr

/-- Subtraction of `size_t` values (64 bits): it wraps around below zero. -/
def size_t_sub (x y : ℕ) : ℕ := (x + (2 ^ 64 - y % 2 ^ 64)) % 2 ^ 64

/-- The body of the loop of `View::add_layer(PathRef)` for index `i`: a line from
`path[i]` to `path[i + 1]` and a circle at `path[i]`. -/
def add_layer_step (path : Path) (img : List DrawOp) (i : ℕ) : List DrawOp :=
  let img := img ++ [DrawOp.line (path.getD i (0, 0)) (path.getD (i + 1) (0, 0))
    Color.COLOR_GREEN 2]
  let img := img ++ [DrawOp.circle (path.getD i (0, 0)) 2 Color.COLOR_DARK_GREEN (-1)]
  img

/-- The function `View::add_layer(PathRef path)`: return at once on an empty path,
otherwise run the loop `for (size_t i = 0; i < path.size() - 1; ++i)` and call
`update()`. -/
def View.add_layer (v : View) (path : Path) : View :=
  if path.length = 0 then v
  else
    let img := (List.range (size_t_sub path.length 1)).foldl (add_layer_step path) v.img
    { img := img, updates := v.updates + 1 }

/-- The line segments among a sequence of drawing calls, in order. -/
def segments (ops : List DrawOp) : List (Point × Point) :=
  ops.filterMap (fun op =>
    match op with
    | DrawOp.line a b _ _ => some (a, b)
    | DrawOp.circle _ _ _ _ => none)

/-! ## breadth_first_search with a record of the queue operations -/

/-- The loop `bfs_scan` with one more value carried along: `pushed`, the vertices given to
`Q.push` so far, in order. As in `bfs_scan` a sum never equals the initial distance;
`bfs_scan_dbl` is the loop in which it can. -/
def bfs_scan_log (g : Graph) (out rfuel curr : ℕ) :
    List ℕ → List ℕ → List Dist → List ℕ → List ℕ →
      (Option Path ⊕ (List ℕ × List Dist × List ℕ)) × List ℕ
  | [], Q, dist, parent, pushed => (Sum.inr (Q, dist, parent), pushed)
  | i :: rest, Q, dist, parent, pushed =>
    if g.weight curr i < 0 then bfs_scan_log g out rfuel curr rest Q dist parent pushed
    else if dist.getD i ⊤ = ⊤ then
      let dist1 := dist.set i (dist.getD curr ⊤ + (g.weight curr i : ℚ))
      let parent1 := parent.set i curr
      let Q1 := Q ++ [i]
      let pushed1 := pushed ++ [i]
      if curr = out then (Sum.inl (reconstruct g parent1 rfuel curr []), pushed1)
      else bfs_scan_log g out rfuel curr rest Q1 dist1 parent1 pushed1
    else bfs_scan_log g out rfuel curr rest Q dist parent pushed

/-- The loop `bfs_loop` with two more values carried along: `pushed`, the vertices given
to `Q.push` so far, and `popped`, the vertices taken by `Q.front(); Q.pop()` so far. The
result is the result of the search with the two records. -/
def bfs_loop_log (g : Graph) (out rfuel : ℕ) :
    ℕ → List ℕ → List Dist → List ℕ → List ℕ → List ℕ → Option Path × List ℕ × List ℕ
  | 0, _, _, _, pushed, popped => (none, pushed, popped)
  | _ + 1, [], _, _, pushed, popped => (some [], pushed, popped)
  | f + 1, curr :: Q, dist, parent, pushed, popped =>
    let res := bfs_scan_log g out rfuel curr (List.range g.num_vertices) Q dist parent pushed
    match res.1 with
    | Sum.inl r => (r, res.2, popped ++ [curr])
    | Sum.inr (Q1, dist1, parent1) =>
      bfs_loop_log g out rfuel f Q1 dist1 parent1 res.2 (popped ++ [curr])

/-- The function `bfs_fuel` with the records of the queue operations: the start is pushed
before the loop. -/
def bfs_fuel_log (lfuel rfuel : ℕ) (g : Graph) (a b : Point) :
    Option Path × List ℕ × List ℕ :=
  let src := g.descriptor a
  let out := g.descriptor b
  let dist : List Dist := List.replicate g.num_vertices ⊤
  let parent : List ℕ := List.replicate g.num_vertices 0
  let Q : List ℕ := [src]
  let dist := dist.set src 0
  let parent := parent.set src src
  bfs_loop_log g out rfuel lfuel Q dist parent [src] []

/-! ## dijkstra_search with checked indices -/

/-- The ways in which a run with checked indices can stop without a result. -/
inductive Fault where
  | outOfBounds
  | uninitialised
  | fuel
  deriving DecidableEq, Repr

/-- A checked read `v[i]`: a fault when `i` is not less than the size of `v`. -/
def read_chk {α : Type} (v : List α) (i : ℕ) : Except Fault α :=
  match v[i]? with
  | some x => Except.ok x
  | none => Except.error Fault.outOfBounds

/-- A checked write `v[i] = x`: a fault when `i` is not less than the size of `v`. -/
def write_chk {α : Type} (v : List α) (i : ℕ) (x : α) : Except Fault (List α) :=
  if i < v.length then Except.ok (v.set i x) else Except.error Fault.outOfBounds

/-- A checked call `g.vertex(i)`: a fault when `i` is not less than `num_vertices`. -/
def Graph.vertex_chk (g : Graph) (i : ℕ) : Except Fault Point :=
  if i < g.num_vertices then Except.ok (g.vertex i) else Except.error Fault.outOfBounds

/-- The selection loop of `dijkstra_search` over the vertices `i` still to visit, with
every read of `dist` checked. -/
def select_chk (dist : List Dist) : List ℕ → ℕ × Dist → Except Fault (ℕ × Dist)
  | [], st => Except.ok st
  | i :: rest, st =>
    match read_chk dist i with
    | Except.error e => Except.error e
    | Except.ok di =>
      if di < 0 then select_chk dist rest st
      else if di < st.2 then select_chk dist rest (i, di)
      else select_chk dist rest st

/-- The relaxation loop of `dijkstra_search` over the vertices `i` still to visit, with
every read and write of `dist` and `parent` checked. An entry of `parent` is `none` until
it is written. -/
def relax_chk (g : Graph) (curr : ℕ) :
    List ℕ → List Dist × List (Option ℕ) → Except Fault (List Dist × List (Option ℕ))
  | [], st => Except.ok st
  | i :: rest, st =>
    if g.weight curr i < 0 then relax_chk g curr rest st
    else
      match read_chk st.1 curr with
      | Except.error e => Except.error e
      | Except.ok dc =>
        match read_chk st.1 i with
        | Except.error e => Except.error e
        | Except.ok di =>
          if dc + (g.weight curr i : ℚ) < di then
            match write_chk st.2 i (some curr) with
            | Except.error e => Except.error e
            | Except.ok parent1 =>
              match write_chk st.1 i (dc + (g.weight curr i : ℚ)) with
              | Except.error e => Except.error e
              | Except.ok dist1 => relax_chk g curr rest (dist1, parent1)
          else relax_chk g curr rest st

/-- The reconstruction loop with every read of `parent` and every call of `vertex`
checked; following an entry of `parent` that was never written is a fault. -/
def reconstruct_chk (g : Graph) (parent : List (Option ℕ)) : ℕ → ℕ → Path → Except Fault Path
  | 0, _, _ => Except.error Fault.fuel
  | f + 1, curr, path =>
    match read_chk parent curr with
    | Except.error e => Except.error e
    | Except.ok none => Except.error Fault.uninitialised
    | Except.ok (some pc) =>
      match g.vertex_chk curr with
      | Except.error e => Except.error e
      | Except.ok vc =>
        if pc ≠ curr then reconstruct_chk g parent f pc (path ++ [vc])
        else Except.ok (path ++ [vc]).reverse

/-- The `while (true)` loop of `dijkstra_search` with checked indices. -/
def dijkstra_loop_chk (g : Graph) (out rfuel : ℕ) :
    ℕ → List Dist → List (Option ℕ) → Except Fault Path
  | 0, _, _ => Except.error Fault.fuel
  | f + 1, dist, parent =>
    match select_chk dist (List.range g.num_vertices) (g.num_vertices, ⊤) with
    | Except.error e => Except.error e
    | Except.ok sel =>
      if sel.1 = g.num_vertices then Except.ok []
      else if sel.1 = out then reconstruct_chk g parent rfuel sel.1 []
      else
        match relax_chk g sel.1 (List.range g.num_vertices) (dist, parent) with
        | Except.error e => Except.error e
        | Except.ok st =>
          match write_chk st.1 sel.1 ((-1 : ℚ) : Dist) with
          | Except.error e => Except.error e
          | Except.ok dist2 => dijkstra_loop_chk g out rfuel f dist2 st.2

/-- The function `dijkstra_search::operator()` with checked indices, with the fuel of
`dijkstra_search`. -/
def dijkstra_checked (g : Graph) (a b : Point) : Except Fault Path :=
  let src := g.descriptor a
  let out := g.descriptor b
  match write_chk (List.replicate g.num_vertices (⊤ : Dist)) src 0 with
  | Except.error e => Except.error e
  | Except.ok dist =>
    match write_chk (List.replicate g.num_vertices (none : Option ℕ)) src (some src) with
    | Except.error e => Except.error e
    | Except.ok parent =>
      dijkstra_loop_chk g out g.num_vertices (g.num_vertices + 1) dist parent

/-- The entries of the checked `parent` agree with the unchecked ones wherever the
distance is no longer the initial value: those entries have been written. -/
def Written (g : Graph) (dist : List Dist) (parent : List ℕ) (parentO : List (Option ℕ)) :
    Prop :=
  dist.length = g.num_vertices ∧ parent.length = g.num_vertices ∧
  parentO.length = g.num_vertices ∧
  ∀ i < g.num_vertices, dist.getD i ⊤ ≠ ⊤ → parentO.getD i none = some (parent.getD i 0)

deriving instance DecidableEq for Except

/-! ## The searches with the largest double as a value -/

/-- The value of `std::numeric_limits<double>::max()`, the largest finite double. -/
def max_double : ℚ := (2 ^ 53 - 1) * 2 ^ 971

/-- The value `max_dist` of the source as a distance. In the definitions of this section
`⊤` is the double `+infinity` and `max_dist` is an ordinary value. -/
def max_dist : Dist := (max_double : ℚ)

/-- The sum `x + w` of doubles, taken exactly, with overflow: a sum above the largest
double is `+infinity`. -/
def dbl_add (x : Dist) (w : ℚ) : Dist :=
  if max_dist < x + (w : ℚ) then ⊤ else x + (w : ℚ)

/-- The selection loop with `min_dist` starting at the largest double. -/
def select_min_dbl (g : Graph) (dist : List Dist) : ℕ :=
  ((List.range g.num_vertices).foldl (select_step dist) (g.num_vertices, max_dist)).1

/-- One iteration of the relaxation loop, the sum being a sum of doubles. -/
def relax_step_dbl (g : Graph) (curr : ℕ) (st : List Dist × List ℕ) (i : ℕ) :
    List Dist × List ℕ :=
  if g.weight curr i < 0 then st
  else
    let d : Dist := dbl_add (st.1.getD curr ⊤) (g.weight curr i)
    if d < st.1.getD i ⊤ then (st.1.set i d, st.2.set i curr)
    else st

/-- The relaxation loop over all vertices `i`, the sums being sums of doubles. -/
def relax_dbl (g : Graph) (curr : ℕ) (dist : List Dist) (parent : List ℕ) :
    List Dist × List ℕ :=
  (List.range g.num_vertices).foldl (relax_step_dbl g curr) (dist, parent)

/-- The `while (true)` loop of `dijkstra_search` with the largest double as a value. -/
def dijkstra_loop_dbl (g : Graph) (out rfuel : ℕ) : ℕ → List Dist → List ℕ → Option Path
  | 0, _, _ => none
  | f + 1, dist, parent =>
    let curr := select_min_dbl g dist
    if curr = g.num_vertices then some []
    else if curr = out then reconstruct g parent rfuel curr []
    else
      let st := relax_dbl g curr dist parent
      dijkstra_loop_dbl g out rfuel f (st.1.set curr ((-1 : ℚ) : Dist)) st.2

/-- The function `dijkstra_search::operator()` with the largest double as a value:
`dist` is filled with `max_dist`. -/
def dijkstra_fuel_dbl (lfuel rfuel : ℕ) (g : Graph) (a b : Point) : Option Path :=
  let src := g.descriptor a
  let out := g.descriptor b
  let dist : List Dist := (List.replicate g.num_vertices max_dist).set src 0
  let parent : List ℕ := (List.replicate g.num_vertices 0).set src src
  dijkstra_loop_dbl g out rfuel lfuel dist parent

/-- The function `dijkstra_search::operator()` with the largest double as a value and
the fuel of `dijkstra_search`. -/
def dijkstra_search_dbl (g : Graph) (a b : Point) : Option Path :=
  dijkstra_fuel_dbl (g.num_vertices + 1) g.num_vertices g a b

/-- The `for` loop of `breadth_first_search` with the largest double as a value: a vertex
is undiscovered when `dist[i] == max_dist`. The vertices given to `Q.push` are recorded
in `pushed`. -/
def bfs_scan_dbl (g : Graph) (out rfuel curr : ℕ) :
    List ℕ → List ℕ → List Dist → List ℕ → List ℕ →
      (Option Path ⊕ (List ℕ × List Dist × List ℕ)) × List ℕ
  | [], Q, dist, parent, pushed => (Sum.inr (Q, dist, parent), pushed)
  | i :: rest, Q, dist, parent, pushed =>
    if g.weight curr i < 0 then bfs_scan_dbl g out rfuel curr rest Q dist parent pushed
    else if dist.getD i ⊤ = max_dist then
      let dist1 := dist.set i (dbl_add (dist.getD curr ⊤) (g.weight curr i))
      let parent1 := parent.set i curr
      let Q1 := Q ++ [i]
      let pushed1 := pushed ++ [i]
      if curr = out then (Sum.inl (reconstruct g parent1 rfuel curr []), pushed1)
      else bfs_scan_dbl g out rfuel curr rest Q1 dist1 parent1 pushed1
    else bfs_scan_dbl g out rfuel curr rest Q dist parent pushed

/-- The loop `while (not Q.empty())` of `breadth_first_search` with the largest double as
a value, with the records `pushed` and `popped` of the queue operations. -/
def bfs_loop_dbl (g : Graph) (out rfuel : ℕ) :
    ℕ → List ℕ → List Dist → List ℕ → List ℕ → List ℕ → Option Path × List ℕ × List ℕ
  | 0, _, _, _, pushed, popped => (none, pushed, popped)
  | _ + 1, [], _, _, pushed, popped => (some [], pushed, popped)
  | f + 1, curr :: Q, dist, parent, pushed, popped =>
    let res := bfs_scan_dbl g out rfuel curr (List.range g.num_vertices) Q dist parent pushed
    match res.1 with
    | Sum.inl r => (r, res.2, popped ++ [curr])
    | Sum.inr (Q1, dist1, parent1) =>
      bfs_loop_dbl g out rfuel f Q1 dist1 parent1 res.2 (popped ++ [curr])

/-- The function `breadth_first_search::operator()` with the largest double as a value:
its result and the records of the pushes and of the pops of the queue. -/
def bfs_fuel_dbl (lfuel rfuel : ℕ) (g : Graph) (a b : Point) :
    Option Path × List ℕ × List ℕ :=
  let src := g.descriptor a
  let out := g.descriptor b
  let dist : List Dist := List.replicate g.num_vertices max_dist
  let parent : List ℕ := List.replicate g.num_vertices 0
  let Q : List ℕ := [src]
  let dist := dist.set src 0
  let parent := parent.set src src
  bfs_loop_dbl g out rfuel lfuel Q dist parent [src] []

/-- The function `breadth_first_search::operator()` with the largest double as a value
and the fuel of `breadth_first_search`. -/
def breadth_first_search_dbl (g : Graph) (a b : Point) : Option Path :=
  (bfs_fuel_dbl (g.num_vertices + 1) g.num_vertices g a b).1

/-- Every walk from `s` that repeats no vertex has a total weight below the largest
double. -/
def Graph.walksBelowMax (g : Graph) (s : ℕ) : Prop :=
  ∀ p : List ℕ, g.walkFrom s p → p.Nodup → g.walkWeight p < max_double

/-- Two vertices `(0,0)` and `(1,0)` joined by an edge whose weight is the largest
double. -/
def maxEdge : Graph where
  num_vertices := 2
  vertex := fun i => ((i : ℤ), 0)
  weight := fun i j => if i = j then 0 else if i < 2 ∧ j < 2 then max_double else -1
  descriptor := fun p => p.1.toNat

/-- Three vertices `(0,0)`, `(1,0)`, `(2,0)`: an edge 0-1 whose weight is the largest
double, and vertex 2 joined to nothing. -/
def maxEdgeApart : Graph where
  num_vertices := 3
  vertex := fun i => ((i : ℤ), 0)
  weight := fun i j => if i = j then 0 else if i < 2 ∧ j < 2 then max_double else -1
  descriptor := fun p => p.1.toNat

/-- How a distance of the searches in which the largest double is infinite reads in the
searches in which it is a value: `⊤` reads `max_dist`. -/
def enc (x : Dist) : Dist := if x = ⊤ then max_dist else x

/-- A distance that is the initial value or lies below the largest double. -/
def belowMax (x : Dist) : Prop := x = ⊤ ∨ x < max_dist

/-- The vector `dist2` of a search with the largest double as a value holds the values
of the vector `dist1` of the search in which it is infinite, all of them the initial
value or below the largest double. -/
def Sim (g : Graph) (dist1 dist2 : List Dist) : Prop :=
  dist1.length = g.num_vertices ∧ dist2.length = g.num_vertices ∧
  ∀ i < g.num_vertices, belowMax (dist1.getD i ⊤) ∧ dist2.getD i ⊤ = enc (dist1.getD i ⊤)

/-- In `breadth_first_search` the distance of the start is 0 and the distance of every
other discovered vertex is that of its parent plus the weight of the edge from it. -/
def BfsDist (g : Graph) (s : ℕ) (dist : List Dist) (parent : List ℕ) : Prop :=
  dist.getD s ⊤ = 0 ∧
  ∀ i < g.num_vertices, i ≠ s → discovered dist i →
    dist.getD i ⊤ = dist.getD (parent.getD i 0) ⊤ + ((g.weight (parent.getD i 0) i : ℚ) : Dist)

/-! ## Reading and writing vectors -/

theorem getD_set_eq {α : Type} (l : List α) (i : ℕ) (x d : α) (h : i < l.length) :
    (l.set i x).getD i d = x := by
  rw [List.getD_eq_getElem?_getD, List.getElem?_set_self h]; rfl

theorem getD_set_ne {α : Type} (l : List α) (i j : ℕ) (x d : α) (h : i ≠ j) :
    (l.set i x).getD j d = l.getD j d := by
  simp [List.getD_eq_getElem?_getD, List.getElem?_set, h]

theorem getD_set {α : Type} (l : List α) (i j : ℕ) (x d : α) (h : i < l.length) :
    (l.set i x).getD j d = if i = j then x else l.getD j d := by
  by_cases hij : i = j
  · subst hij; rw [if_pos rfl]; exact getD_set_eq l i x d h
  · rw [if_neg hij]; exact getD_set_ne l i j x d hij

theorem getD_replicate {α : Type} (n i : ℕ) (x : α) : (List.replicate n x).getD i x = x := by
  by_cases h : i < n
  · simp [List.getD_eq_getElem?_getD, List.getElem?_replicate, h]
  · simp [List.getD_eq_getElem?_getD, List.getElem?_replicate, h]

/-! ## The selection step -/

/-- The state of the selection loop after the first `k` vertices, started from
`(c0, ⊤)`. -/
theorem select_fold_spec (dist : List Dist) (c0 : ℕ) (k : ℕ) :
    let st := (List.range k).foldl (select_step dist) (c0, ⊤)
    (st.1 = c0 ∧ st.2 = ⊤ ∧ ∀ i < k, ¬ dist.getD i ⊤ < 0 → dist.getD i ⊤ = ⊤) ∨
    (st.1 < k ∧ st.2 = dist.getD st.1 ⊤ ∧ ¬ dist.getD st.1 ⊤ < 0 ∧ dist.getD st.1 ⊤ < ⊤ ∧
      (∀ i < k, ¬ dist.getD i ⊤ < 0 → dist.getD st.1 ⊤ ≤ dist.getD i ⊤) ∧
      (∀ i < st.1, ¬ dist.getD i ⊤ < 0 → dist.getD st.1 ⊤ < dist.getD i ⊤)) := by
  induction k with
  | zero => left; simp
  | succ k ih =>
    simp only [List.range_succ, List.foldl_append, List.foldl_cons, List.foldl_nil]
    generalize (List.range k).foldl (select_step dist) (c0, ⊤) = st at ih ⊢
    obtain ⟨c, m⟩ := st
    simp only at ih
    unfold select_step
    by_cases hneg : dist.getD k ⊤ < 0
    · simp only [hneg, if_true]
      rcases ih with ⟨h1, h2, h3⟩ | ⟨h1, h2, h3, h4, h5, h6⟩
      · left
        refine ⟨h1, h2, fun i hi hn => ?_⟩
        rcases Nat.lt_succ_iff_lt_or_eq.mp hi with h | h
        · exact h3 i h hn
        · subst h; exact absurd hneg hn
      · right
        refine ⟨Nat.lt_succ_of_lt h1, h2, h3, h4, fun i hi hn => ?_, h6⟩
        rcases Nat.lt_succ_iff_lt_or_eq.mp hi with h | h
        · exact h5 i h hn
        · subst h; exact absurd hneg hn
    · simp only [hneg, if_false]
      by_cases hlt : dist.getD k ⊤ < m
      · simp only [hlt, if_true]
        right
        refine ⟨Nat.lt_succ_self k, trivial, hneg, lt_of_lt_of_le hlt le_top, fun i hi hn => ?_,
          fun i hi hn => ?_⟩
        · rcases Nat.lt_succ_iff_lt_or_eq.mp hi with h | h
          · rcases ih with ⟨_, h2, h3⟩ | ⟨_, h2, _, _, h5, _⟩
            · rw [h3 i h hn]; exact le_top
            · exact le_trans (le_of_lt (h2 ▸ hlt)) (h5 i h hn)
          · subst h; exact le_refl _
        · rcases ih with ⟨_, h2, h3⟩ | ⟨_, h2, _, _, h5, _⟩
          · rw [h3 i hi hn]; exact lt_of_lt_of_le hlt le_top
          · exact lt_of_lt_of_le (h2 ▸ hlt) (h5 i hi hn)
      · simp only [hlt, if_false]
        rcases ih with ⟨h1, h2, h3⟩ | ⟨h1, h2, h3, h4, h5, h6⟩
        · left
          refine ⟨h1, h2, fun i hi hn => ?_⟩
          rcases Nat.lt_succ_iff_lt_or_eq.mp hi with h | h
          · exact h3 i h hn
          · subst h
            rw [h2] at hlt
            exact not_lt_top_iff.mp hlt
        · right
          refine ⟨Nat.lt_succ_of_lt h1, h2, h3, h4, fun i hi hn => ?_, h6⟩
          rcases Nat.lt_succ_iff_lt_or_eq.mp hi with h | h
          · exact h5 i h hn
          · subst h
            rw [← h2]; exact not_lt.mp hlt

/-- The selection yields `num_vertices` exactly when no vertex is both not deleted and
of finite distance. -/
theorem select_min_none_iff (g : Graph) (dist : List Dist) :
    select_min g dist = g.num_vertices ↔
      ∀ i < g.num_vertices, ¬ dist.getD i ⊤ < 0 → dist.getD i ⊤ = ⊤ := by
  have h := select_fold_spec dist g.num_vertices g.num_vertices
  unfold select_min
  simp only at h
  constructor
  · intro hc
    rcases h with ⟨_, _, h3⟩ | ⟨h1, _⟩
    · exact h3
    · omega
  · intro hall
    rcases h with ⟨h1, _, _⟩ | ⟨h1, _, h3, h4, _⟩
    · exact h1
    · exact absurd (hall _ h1 h3) (ne_of_lt h4)

/-- When the selection yields a vertex, it is a vertex that is not deleted, of finite
distance, of minimum distance among those not deleted, and the first such. -/
theorem select_min_some (g : Graph) (dist : List Dist)
    (h : select_min g dist ≠ g.num_vertices) :
    select_min g dist < g.num_vertices ∧
    ¬ dist.getD (select_min g dist) ⊤ < 0 ∧
    dist.getD (select_min g dist) ⊤ < ⊤ ∧
    (∀ i < g.num_vertices, ¬ dist.getD i ⊤ < 0 →
      dist.getD (select_min g dist) ⊤ ≤ dist.getD i ⊤) ∧
    (∀ i < select_min g dist, ¬ dist.getD i ⊤ < 0 →
      dist.getD (select_min g dist) ⊤ < dist.getD i ⊤) := by
  have hs := select_fold_spec dist g.num_vertices g.num_vertices
  unfold select_min at h ⊢
  simp only at hs
  rcases hs with ⟨h1, _, _⟩ | ⟨h1, _, h3, h4, h5, h6⟩
  · exact absurd h1 h
  · exact ⟨h1, h3, h4, h5, h6⟩

/-! ## The relaxation loop -/

theorem not_add_lt_self (a : Dist) (w : ℚ) (hw : ¬ w < 0) : ¬ a + (w : Dist) < a := by
  have h0 : (0 : Dist) ≤ (w : Dist) := by exact_mod_cast not_lt.mp hw
  exact not_lt.mpr (le_add_of_nonneg_right h0)

/-- The state of the relaxation loop after the first `k` vertices, in closed form. -/
theorem relax_fold_spec (g : Graph) (curr : ℕ) (dist : List Dist) (parent : List ℕ) (k : ℕ)
    (hk : k ≤ dist.length) (hk2 : k ≤ parent.length) :
    let st := (List.range k).foldl (relax_step g curr) (dist, parent)
    st.1.length = dist.length ∧ st.2.length = parent.length ∧
    (∀ j, st.1.getD j ⊤ =
      if j < k ∧ ¬ g.weight curr j < 0 ∧
          dist.getD curr ⊤ + (g.weight curr j : ℚ) < dist.getD j ⊤
      then dist.getD curr ⊤ + (g.weight curr j : ℚ) else dist.getD j ⊤) ∧
    (∀ j, st.2.getD j 0 =
      if j < k ∧ ¬ g.weight curr j < 0 ∧
          dist.getD curr ⊤ + (g.weight curr j : ℚ) < dist.getD j ⊤
      then curr else parent.getD j 0) := by
  induction k with
  | zero => simp
  | succ k ih =>
    have ih := ih (Nat.le_of_succ_le hk) (Nat.le_of_succ_le hk2)
    simp only [List.range_succ, List.foldl_append, List.foldl_cons, List.foldl_nil]
    generalize (List.range k).foldl (relax_step g curr) (dist, parent) = st at ih ⊢
    obtain ⟨d1, p1⟩ := st
    simp only at ih
    obtain ⟨hl1, hl2, hd, hp⟩ := ih
    have hcurr : d1.getD curr ⊤ = dist.getD curr ⊤ := by
      rw [hd curr]
      split_ifs with h
      · exact absurd h.2.2 (not_add_lt_self _ _ h.2.1)
      · rfl
    have hkk : d1.getD k ⊤ = dist.getD k ⊤ := by
      rw [hd k, if_neg (fun h => (lt_irrefl _ h.1))]
    have hk1 : k < d1.length := by omega
    have hk3 : k < p1.length := by omega
    unfold relax_step
    by_cases hw : g.weight curr k < 0
    · simp only [hw, if_true]
      refine ⟨hl1, hl2, fun j => ?_, fun j => ?_⟩
      · rw [hd j]
        by_cases hjk : j = k
        · subst hjk
          rw [if_neg (fun h => (lt_irrefl _ h.1)), if_neg (fun h => h.2.1 hw)]
        · have : j < k + 1 ↔ j < k := by omega
          simp only [this]
      · rw [hp j]
        by_cases hjk : j = k
        · subst hjk
          rw [if_neg (fun h => (lt_irrefl _ h.1)), if_neg (fun h => h.2.1 hw)]
        · have : j < k + 1 ↔ j < k := by omega
          simp only [this]
    · simp only [hw, if_false, hcurr, hkk]
      by_cases hlt : dist.getD curr ⊤ + (g.weight curr k : ℚ) < dist.getD k ⊤
      · simp only [hlt, if_true]
        refine ⟨by simp [hl1], by simp [hl2], fun j => ?_, fun j => ?_⟩
        · rw [getD_set _ _ _ _ _ hk1]
          by_cases hjk : k = j
          · subst hjk; rw [if_pos rfl, if_pos ⟨Nat.lt_succ_self _, hw, hlt⟩]
          · have : j < k + 1 ↔ j < k := by omega
            simp only [hjk, if_false, hd j, this]
        · rw [getD_set _ _ _ _ _ hk3]
          by_cases hjk : k = j
          · subst hjk; rw [if_pos rfl, if_pos ⟨Nat.lt_succ_self _, hw, hlt⟩]
          · have : j < k + 1 ↔ j < k := by omega
            simp only [hjk, if_false, hp j, this]
      · simp only [hlt, if_false]
        refine ⟨hl1, hl2, fun j => ?_, fun j => ?_⟩
        · rw [hd j]
          by_cases hjk : j = k
          · subst hjk
            rw [if_neg (fun h => (lt_irrefl _ h.1)), if_neg (fun h => hlt h.2.2)]
          · have : j < k + 1 ↔ j < k := by omega
            simp only [this]
        · rw [hp j]
          by_cases hjk : j = k
          · subst hjk
            rw [if_neg (fun h => (lt_irrefl _ h.1)), if_neg (fun h => hlt h.2.2)]
          · have : j < k + 1 ↔ j < k := by omega
            simp only [this]

/-! ## Walks: basic facts -/

theorem walkFrom_cons_cons (g : Graph) (s u v : ℕ) (rest : List ℕ) :
    g.walkFrom s (u :: v :: rest) ↔
      u = s ∧ u < g.num_vertices ∧ g.edge u v ∧ g.walkFrom v (v :: rest) := by
  simp [Graph.walkFrom]

theorem walkFrom_head (g : Graph) (s : ℕ) (p : List ℕ) (h : g.walkFrom s p) :
    p.head? = some s ∧ s < g.num_vertices := by
  match p, h with
  | [u], h => obtain ⟨h1, h2⟩ := h; subst h1; exact ⟨rfl, h2⟩
  | u :: v :: rest, h =>
    obtain ⟨h1, h2, _⟩ := (walkFrom_cons_cons g s u v rest).mp h
    subst h1; exact ⟨rfl, h2⟩

theorem walkFrom_ne_nil (g : Graph) (s : ℕ) (p : List ℕ) (h : g.walkFrom s p) : p ≠ [] := by
  intro hp; subst hp; exact h

theorem walkFrom_snoc (g : Graph) (v : ℕ) (hv : v < g.num_vertices) :
    ∀ (p : List ℕ) (s u : ℕ), g.walkFrom s p → p.getLast? = some u → g.edge u v →
      g.walkFrom s (p ++ [v])
  | [], _, _, h, _, _ => absurd h (by simp [Graph.walkFrom])
  | [x], s, u, h, hl, he => by
    obtain ⟨h1, h2⟩ := h
    simp only [List.getLast?_singleton, Option.some.injEq] at hl
    subst hl
    exact (walkFrom_cons_cons g s x v []).mpr ⟨h1, h2, he, rfl, hv⟩
  | x :: y :: rest, s, u, h, hl, he => by
    obtain ⟨h1, h2, h3, h4⟩ := (walkFrom_cons_cons g s x y rest).mp h
    have hl2 : (y :: rest).getLast? = some u := by
      rw [List.getLast?_cons_cons] at hl; exact hl
    have ih := walkFrom_snoc g v hv (y :: rest) y u h4 hl2 he
    exact (walkFrom_cons_cons g s x y (rest ++ [v])).mpr ⟨h1, h2, h3, ih⟩

theorem walkWeight_snoc (g : Graph) (v : ℕ) :
    ∀ (p : List ℕ) (u : ℕ), p.getLast? = some u →
      g.walkWeight (p ++ [v]) = g.walkWeight p + g.weight u v
  | [], _, hl => by simp at hl
  | [x], u, hl => by
    simp only [List.getLast?_singleton, Option.some.injEq] at hl
    subst hl
    simp [Graph.walkWeight]
  | x :: y :: rest, u, hl => by
    have hl2 : (y :: rest).getLast? = some u := by
      rw [List.getLast?_cons_cons] at hl; exact hl
    have ih := walkWeight_snoc g v (y :: rest) u hl2
    simp only [List.cons_append] at ih ⊢
    simp only [Graph.walkWeight, ih]
    ring

theorem walkWeight_nonneg (g : Graph) :
    ∀ (p : List ℕ) (s : ℕ), g.walkFrom s p → 0 ≤ g.walkWeight p
  | [], _, h => absurd h (by simp [Graph.walkFrom])
  | [x], _, _ => by simp [Graph.walkWeight]
  | x :: y :: rest, s, h => by
    obtain ⟨_, _, h3, h4⟩ := (walkFrom_cons_cons g s x y rest).mp h
    have ih := walkWeight_nonneg g (y :: rest) y h4
    simp only [Graph.walkWeight]
    exact add_nonneg h3 ih

theorem isWalk_single (g : Graph) (s : ℕ) (hs : s < g.num_vertices) : g.isWalk s s [s] :=
  ⟨⟨rfl, hs⟩, rfl⟩

theorem isWalk_snoc (g : Graph) (s u v : ℕ) (p : List ℕ) (h : g.isWalk s u p)
    (he : g.edge u v) (hv : v < g.num_vertices) : g.isWalk s v (p ++ [v]) :=
  ⟨walkFrom_snoc g v hv p s u h.1 h.2 he, by simp⟩

/-- A property of vertices that holds at the start of a walk and is carried along every
edge between vertices of the graph holds at its end. -/
theorem walk_induction (g : Graph) (Q : ℕ → Prop)
    (hstep : ∀ u v, u < g.num_vertices → v < g.num_vertices → g.edge u v → Q u → Q v) :
    ∀ (p : List ℕ) (s t : ℕ), g.walkFrom s p → p.getLast? = some t → Q s → Q t
  | [], _, _, h, _, _ => absurd h (by simp [Graph.walkFrom])
  | [x], s, t, h, hl, hq => by
    obtain ⟨h1, _⟩ := h
    simp only [List.getLast?_singleton, Option.some.injEq] at hl
    subst hl; subst h1; exact hq
  | x :: y :: rest, s, t, h, hl, hq => by
    obtain ⟨h1, h2, h3, h4⟩ := (walkFrom_cons_cons g s x y rest).mp h
    have hl2 : (y :: rest).getLast? = some t := by
      rw [List.getLast?_cons_cons] at hl; exact hl
    have hy := (walkFrom_head g y (y :: rest) h4).2
    subst h1
    exact walk_induction g Q hstep (y :: rest) y t h4 hl2 (hstep x y h2 hy h3 hq)

/-- A bound `B u a` that holds at the start of a walk with `a = c` and is carried along
every edge `u v` from `a` to `a + weight u v` holds at its end with
`a = c + walkWeight`. -/
theorem walk_weight_induction (g : Graph) (Q : ℕ → ℚ → Prop)
    (hstep : ∀ u v a, u < g.num_vertices → v < g.num_vertices → g.edge u v → Q u a →
      Q v (a + g.weight u v)) :
    ∀ (p : List ℕ) (s t : ℕ) (c : ℚ), g.walkFrom s p → p.getLast? = some t → Q s c →
      Q t (c + g.walkWeight p)
  | [], _, _, _, h, _, _ => absurd h (by simp [Graph.walkFrom])
  | [x], s, t, c, h, hl, hq => by
    obtain ⟨h1, _⟩ := h
    simp only [List.getLast?_singleton, Option.some.injEq] at hl
    subst hl; subst h1
    simpa [Graph.walkWeight] using hq
  | x :: y :: rest, s, t, c, h, hl, hq => by
    obtain ⟨h1, h2, h3, h4⟩ := (walkFrom_cons_cons g s x y rest).mp h
    have hl2 : (y :: rest).getLast? = some t := by
      rw [List.getLast?_cons_cons] at hl; exact hl
    have hy := (walkFrom_head g y (y :: rest) h4).2
    subst h1
    have ih := walk_weight_induction g Q hstep (y :: rest) y t (c + g.weight x y) h4 hl2
      (hstep x y c h2 hy h3 hq)
    have e : c + g.walkWeight (x :: y :: rest) = c + g.weight x y + g.walkWeight (y :: rest) := by
      simp only [Graph.walkWeight]; ring
    rw [e]; exact ih

/-! ## The invariant of the loop of dijkstra_search -/

theorem neg_one_lt_zero_dist : (((-1 : ℚ) : Dist)) < 0 := by
  exact_mod_cast (by norm_num : (-1 : ℚ) < 0)

theorem DijkstraInv.deleted_iff {g : Graph} {s : ℕ} {dist : List Dist} {parent : List ℕ}
    {L : ℕ → Dist} {rank : ℕ → ℕ} (h : DijkstraInv g s dist parent L rank)
    {i : ℕ} (hi : i < g.num_vertices) :
    deleted dist i ↔ dist.getD i ⊤ = ((-1 : ℚ) : Dist) ∧ L i ≠ ⊤ := by
  constructor
  · intro hd
    rcases h.lab i hi with h1 | h1
    · exact h1
    · unfold deleted at hd
      rw [h1] at hd
      exact absurd hd (not_lt.mpr (h.nonneg i hi))
  · intro h1
    unfold deleted
    rw [h1.1]; exact neg_one_lt_zero_dist

theorem DijkstraInv.label_of_not_deleted {g : Graph} {s : ℕ} {dist : List Dist}
    {parent : List ℕ} {L : ℕ → Dist} {rank : ℕ → ℕ} (h : DijkstraInv g s dist parent L rank)
    {i : ℕ} (hi : i < g.num_vertices) (hd : ¬ deleted dist i) : dist.getD i ⊤ = L i := by
  rcases h.lab i hi with h1 | h1
  · exact absurd ((h.deleted_iff hi).mpr h1) hd
  · exact h1

/-- The invariant holds when the loop is entered. -/
theorem dijkstraInv_init (g : Graph) (s : ℕ) (hs : s < g.num_vertices) :
    DijkstraInv g s ((List.replicate g.num_vertices (⊤ : Dist)).set s 0)
      ((List.replicate g.num_vertices 0).set s s)
      (fun i => if i = s then 0 else ⊤) (fun _ => 0) ∧
    ∀ i, ¬ deleted ((List.replicate g.num_vertices (⊤ : Dist)).set s 0) i := by
  have hlen : s < (List.replicate g.num_vertices (⊤ : Dist)).length := by simpa using hs
  have hlen2 : s < (List.replicate g.num_vertices 0).length := by simpa using hs
  have hget : ∀ i, ((List.replicate g.num_vertices (⊤ : Dist)).set s 0).getD i ⊤ =
      if i = s then 0 else ⊤ := by
    intro i
    rw [getD_set _ _ _ _ _ hlen, getD_replicate]
    by_cases h : s = i
    · subst h; simp
    · have h2 : ¬ i = s := fun e => h e.symm
      simp [h, h2]
  have hnd : ∀ i, ¬ deleted ((List.replicate g.num_vertices (⊤ : Dist)).set s 0) i := by
    intro i
    unfold deleted
    rw [hget i]
    split_ifs <;> simp
  refine ⟨?_, hnd⟩
  refine
    { dlen := by simp
      plen := by simp
      hs := hs
      lab := fun i _ => Or.inr (hget i)
      nonneg := fun i _ => by
        show (0 : Dist) ≤ if i = s then 0 else ⊤
        split_ifs <;> simp
      src0 := by simp
      psrc := getD_set_eq _ _ _ _ hlen2
      settled := fun i _ j _ hd _ => absurd hd (hnd i)
      relaxed := fun i _ j _ hd _ => absurd hd (hnd i)
      par := fun i _ his hl => by simp [his] at hl
      rankPar := fun i _ _ hd => absurd hd (hnd i)
      rankLt := fun i _ hd => absurd hd (hnd i) }

/-- One iteration of the loop that does not return keeps the invariant and deletes
exactly the selected vertex. -/
theorem dijkstraInv_step {g : Graph} {s : ℕ} {dist : List Dist} {parent : List ℕ}
    {L : ℕ → Dist} {rank : ℕ → ℕ} (h : DijkstraInv g s dist parent L rank)
    (hc : select_min g dist ≠ g.num_vertices) :
    ∃ L1 rank1,
      DijkstraInv g s
        ((relax g (select_min g dist) dist parent).1.set (select_min g dist) ((-1 : ℚ) : Dist))
        (relax g (select_min g dist) dist parent).2 L1 rank1 ∧
      (∀ j < g.num_vertices,
        deleted ((relax g (select_min g dist) dist parent).1.set (select_min g dist)
          ((-1 : ℚ) : Dist)) j ↔ deleted dist j ∨ j = select_min g dist) ∧
      numDeleted g ((relax g (select_min g dist) dist parent).1.set (select_min g dist)
          ((-1 : ℚ) : Dist)) = numDeleted g dist + 1 := by
  obtain ⟨hcn, hcnd, hcfin, hmin, _⟩ := select_min_some g dist hc
  generalize select_min g dist = c at hcn hcnd hcfin hmin ⊢
  have hr := relax_fold_spec g c dist parent g.num_vertices (le_of_eq h.dlen.symm)
    (le_of_eq h.plen.symm)
  unfold relax
  generalize List.foldl (relax_step g c) (dist, parent) (List.range g.num_vertices) = st
    at hr ⊢
  obtain ⟨d1, p1⟩ := st
  simp only at hr
  obtain ⟨hl1, hl2, hd, hp⟩ := hr
  have hcnd2 : ¬ deleted dist c := hcnd
  have hLc : dist.getD c ⊤ = L c := h.label_of_not_deleted hcn hcnd2
  have hc0 : (0 : Dist) ≤ dist.getD c ⊤ := not_lt.mp hcnd
  have hx0 : ∀ j, ¬ g.weight c j < 0 → (0 : Dist) ≤ dist.getD c ⊤ + (g.weight c j : ℚ) :=
    fun j hw => add_nonneg hc0 (by exact_mod_cast not_lt.mp hw)
  have hxc : ∀ j, ¬ g.weight c j < 0 → dist.getD c ⊤ ≤ dist.getD c ⊤ + (g.weight c j : ℚ) :=
    fun j hw => not_lt.mp (not_add_lt_self _ _ hw)
  have hcl : c < d1.length := by rw [hl1, h.dlen]; exact hcn
  obtain ⟨L1, hL1⟩ : ∃ L1 : ℕ → Dist, ∀ j, L1 j =
      if j < g.num_vertices ∧ ¬ g.weight c j < 0 ∧
          dist.getD c ⊤ + (g.weight c j : ℚ) < dist.getD j ⊤
      then dist.getD c ⊤ + (g.weight c j : ℚ) else L j := ⟨_, fun _ => rfl⟩
  obtain ⟨rank1, hrank1⟩ : ∃ rank1 : ℕ → ℕ, ∀ j, rank1 j =
      if j = c then numDeleted g dist else rank j := ⟨_, fun _ => rfl⟩
  -- the two cases of a vertex: relaxed or unchanged
  have hcase : ∀ j < g.num_vertices,
      (¬ g.weight c j < 0 ∧ dist.getD c ⊤ + (g.weight c j : ℚ) < dist.getD j ⊤ ∧
        d1.getD j ⊤ = dist.getD c ⊤ + (g.weight c j : ℚ) ∧ p1.getD j 0 = c ∧
        L1 j = dist.getD c ⊤ + (g.weight c j : ℚ) ∧ ¬ deleted dist j ∧ j ≠ c) ∨
      (¬ (¬ g.weight c j < 0 ∧ dist.getD c ⊤ + (g.weight c j : ℚ) < dist.getD j ⊤) ∧
        d1.getD j ⊤ = dist.getD j ⊤ ∧ p1.getD j 0 = parent.getD j 0 ∧ L1 j = L j) := by
    intro j hj
    by_cases hcond : ¬ g.weight c j < 0 ∧ dist.getD c ⊤ + (g.weight c j : ℚ) < dist.getD j ⊤
    · left
      refine ⟨hcond.1, hcond.2, ?_, ?_, ?_, ?_, ?_⟩
      · rw [hd j, if_pos ⟨hj, hcond⟩]
      · rw [hp j, if_pos ⟨hj, hcond⟩]
      · rw [hL1 j, if_pos ⟨hj, hcond⟩]
      · intro hdj
        exact absurd (lt_trans hcond.2 hdj) (not_lt.mpr (hx0 j hcond.1))
      · intro e; subst e; exact not_add_lt_self _ _ hcond.1 hcond.2
    · right
      refine ⟨hcond, ?_, ?_, ?_⟩
      · rw [hd j, if_neg (fun hh => hcond hh.2)]
      · rw [hp j, if_neg (fun hh => hcond hh.2)]
      · rw [hL1 j, if_neg (fun hh => hcond hh.2)]
  have hdist1 : ∀ j, (d1.set c ((-1 : ℚ) : Dist)).getD j ⊤ =
      if c = j then ((-1 : ℚ) : Dist) else d1.getD j ⊤ := fun j => getD_set _ _ _ _ _ hcl
  have hdel : ∀ j < g.num_vertices,
      deleted (d1.set c ((-1 : ℚ) : Dist)) j ↔ deleted dist j ∨ j = c := by
    intro j hj
    unfold deleted
    rw [hdist1 j]
    by_cases hcj : c = j
    · rw [if_pos hcj]
      exact ⟨fun _ => Or.inr hcj.symm, fun _ => neg_one_lt_zero_dist⟩
    · rw [if_neg hcj]
      rcases hcase j hj with ⟨hw, _, e, _, _, hnd, _⟩ | ⟨_, e, _, _⟩
      · rw [e]
        constructor
        · intro hlt; exact absurd hlt (not_lt.mpr (hx0 j hw))
        · rintro (hdj | e2)
          · exact absurd hdj hnd
          · exact absurd e2.symm hcj
      · rw [e]
        constructor
        · intro hlt; exact Or.inl hlt
        · rintro (hdj | e2)
          · exact hdj
          · exact absurd e2.symm hcj
  have hkeep : ∀ j < g.num_vertices, deleted dist j ∨ j = c →
      L1 j = L j ∧ p1.getD j 0 = parent.getD j 0 := by
    intro j hj hor
    rcases hcase j hj with ⟨_, _, _, _, _, hnd, hne⟩ | ⟨_, _, e2, e3⟩
    · rcases hor with hdj | e
      · exact absurd hdj hnd
      · exact absurd e hne
    · exact ⟨e3, e2⟩
  have hle : ∀ j < g.num_vertices, L1 j ≤ L j := by
    intro j hj
    rcases hcase j hj with ⟨_, hlt, _, _, e, hnd, _⟩ | ⟨_, _, _, e3⟩
    · rw [e, ← h.label_of_not_deleted hj hnd]; exact le_of_lt hlt
    · exact le_of_eq e3
  have hge : ∀ j < g.num_vertices, ¬ deleted dist j → L c ≤ L1 j := by
    intro j hj hnd
    rcases hcase j hj with ⟨hw, _, _, _, e, _, _⟩ | ⟨_, _, _, e3⟩
    · rw [e, ← hLc]; exact hxc j hw
    · rw [e3, ← hLc, ← h.label_of_not_deleted hj hnd]; exact hmin j hj hnd
  have hcount : numDeleted g (d1.set c ((-1 : ℚ) : Dist)) = numDeleted g dist + 1 := by
    unfold numDeleted
    have hset : (Finset.range g.num_vertices).filter
        (fun i => deleted (d1.set c ((-1 : ℚ) : Dist)) i) =
        insert c ((Finset.range g.num_vertices).filter (fun i => deleted dist i)) := by
      ext j
      simp only [Finset.mem_filter, Finset.mem_range, Finset.mem_insert]
      constructor
      · rintro ⟨hj, hdj⟩
        rcases (hdel j hj).mp hdj with h1 | h1
        · exact Or.inr ⟨hj, h1⟩
        · exact Or.inl h1
      · rintro (h1 | ⟨hj, h1⟩)
        · subst h1; exact ⟨hcn, (hdel j hcn).mpr (Or.inr rfl)⟩
        · exact ⟨hj, (hdel j hj).mpr (Or.inl h1)⟩
    rw [hset, Finset.card_insert_of_not_mem]
    simp only [Finset.mem_filter, Finset.mem_range, not_and]
    exact fun _ => hcnd2
  refine ⟨L1, rank1, ?_, hdel, hcount⟩
  refine
    { dlen := by simp [hl1, h.dlen]
      plen := by rw [hl2, h.plen]
      hs := h.hs
      lab := ?_
      nonneg := ?_
      src0 := ?_
      psrc := ?_
      settled := ?_
      relaxed := ?_
      par := ?_
      rankPar := ?_
      rankLt := ?_ }
  · -- lab
    intro j hj
    rw [hdist1 j]
    by_cases hcj : c = j
    · subst hcj
      rw [if_pos rfl]
      left
      refine ⟨rfl, ?_⟩
      rw [(hkeep c hj (Or.inr rfl)).1, ← hLc]
      exact ne_of_lt hcfin
    · rw [if_neg hcj]
      rcases hcase j hj with ⟨_, _, e, _, e2, _, _⟩ | ⟨_, e, _, e3⟩
      · right; rw [e, e2]
      · rw [e, e3]; exact h.lab j hj
  · -- nonneg
    intro j hj
    rcases hcase j hj with ⟨hw, _, _, _, e, _, _⟩ | ⟨_, _, _, e3⟩
    · rw [e]; exact hx0 j hw
    · rw [e3]; exact h.nonneg j hj
  · -- src0
    have h1 := hle s h.hs
    rw [h.src0] at h1
    have h2 : (0 : Dist) ≤ L1 s := by
      rcases hcase s h.hs with ⟨hw, _, _, _, e, _, _⟩ | ⟨_, _, _, e3⟩
      · rw [e]; exact hx0 s hw
      · rw [e3]; exact h.nonneg s h.hs
    exact le_antisymm h1 h2
  · -- psrc
    rcases hcase s h.hs with ⟨hw, hlt, _, _, _, hnd, _⟩ | ⟨_, _, e2, _⟩
    · rw [h.label_of_not_deleted h.hs hnd, h.src0] at hlt
      exact absurd hlt (not_lt.mpr (hx0 s hw))
    · rw [e2]; exact h.psrc
  · -- settled
    intro i hi j hj hdi hndj
    have hndj2 : ¬ deleted dist j ∧ j ≠ c := by
      constructor
      · exact fun hh => hndj ((hdel j hj).mpr (Or.inl hh))
      · exact fun hh => hndj ((hdel j hj).mpr (Or.inr hh))
    have h1 : L1 i = L i := (hkeep i hi ((hdel i hi).mp hdi)).1
    rw [h1]
    refine le_trans ?_ (hge j hj hndj2.1)
    rcases (hdel i hi).mp hdi with hdi2 | e
    · exact h.settled i hi c hcn hdi2 hcnd2
    · rw [e]
  · -- relaxed
    intro i hi j hj hdi he
    have h1 : L1 i = L i := (hkeep i hi ((hdel i hi).mp hdi)).1
    rw [h1]
    rcases (hdel i hi).mp hdi with hdi2 | e
    · exact le_trans (hle j hj) (h.relaxed i hi j hj hdi2 he)
    · subst e
      have hw : ¬ g.weight i j < 0 := not_lt.mpr he
      rw [← hLc]
      rcases hcase j hj with ⟨_, _, _, _, e, _, _⟩ | ⟨hncond, _, _, e3⟩
      · rw [e]
      · rw [e3]
        have hnlt : ¬ dist.getD i ⊤ + (g.weight i j : ℚ) < dist.getD j ⊤ :=
          fun hh => hncond ⟨hw, hh⟩
        by_cases hdj : deleted dist j
        · refine le_trans (h.settled j hj i hi hdj hcnd2) ?_
          rw [← hLc]; exact hxc j hw
        · rw [← h.label_of_not_deleted hj hdj]; exact not_lt.mp hnlt
  · -- par
    intro i hi his hfin
    rcases hcase i hi with ⟨hw, _, _, e1, e, _, _⟩ | ⟨_, _, e2, e3⟩
    · rw [e1]
      refine ⟨hcn, (hdel c hcn).mpr (Or.inr rfl), not_lt.mp hw, ?_⟩
      rw [(hkeep c hcn (Or.inr rfl)).1, ← hLc, e]
    · rw [e2]
      rw [e3] at hfin
      obtain ⟨p1n, p2, p3, p4⟩ := h.par i hi his hfin
      refine ⟨p1n, (hdel _ p1n).mpr (Or.inl p2), p3, ?_⟩
      rw [(hkeep _ p1n (Or.inl p2)).1, e3]; exact p4
  · -- rankPar
    intro i hi his hdi
    have hk := hkeep i hi ((hdel i hi).mp hdi)
    rw [hk.2]
    have hLi : L i ≠ ⊤ := by
      rcases (hdel i hi).mp hdi with hdi2 | e
      · exact ((h.deleted_iff hi).mp hdi2).2
      · rw [e, ← hLc]; exact ne_of_lt hcfin
    obtain ⟨p1n, p2, _, _⟩ := h.par i hi his hLi
    have hpc : parent.getD i 0 ≠ c := fun e => hcnd2 (e ▸ p2)
    rw [hrank1 (parent.getD i 0), if_neg hpc, hrank1 i]
    rcases (hdel i hi).mp hdi with hdi2 | e
    · have hic : i ≠ c := fun e => hcnd2 (e ▸ hdi2)
      rw [if_neg hic]
      exact h.rankPar i hi his hdi2
    · rw [if_pos e]
      exact h.rankLt _ p1n p2
  · -- rankLt
    intro i hi hdi
    rw [hcount, hrank1 i]
    rcases (hdel i hi).mp hdi with hdi2 | e
    · have hic : i ≠ c := fun e => hcnd2 (e ▸ hdi2)
      rw [if_neg hic]
      exact Nat.lt_succ_of_lt (h.rankLt i hi hdi2)
    · rw [if_pos e]; exact Nat.lt_succ_self _

/-! ## Reconstruction along the parent pointers -/

theorem numDeleted_lt {g : Graph} {dist : List Dist} {v : ℕ} (hv : v < g.num_vertices)
    (hnd : ¬ deleted dist v) : numDeleted g dist < g.num_vertices := by
  unfold numDeleted
  have hss : (Finset.range g.num_vertices).filter (fun i => deleted dist i) ⊂
      Finset.range g.num_vertices :=
    Finset.filter_ssubset.mpr ⟨v, Finset.mem_range.mpr hv, hnd⟩
  simpa using Finset.card_lt_card hss

/-- From the start vertex or a deleted vertex `v` the reconstruction loop, given more
fuel than the rank of `v`, returns a walk from the start to `v` whose weight is the
label of `v`, followed by what was pushed before. -/
theorem reconstruct_deleted {g : Graph} {s : ℕ} {dist : List Dist} {parent : List ℕ}
    {L : ℕ → Dist} {rank : ℕ → ℕ} (h : DijkstraInv g s dist parent L rank) :
    ∀ (f v : ℕ) (acc : Path), v < g.num_vertices → (v = s ∨ deleted dist v) →
      (v ≠ s → rank v < f) → 0 < f →
      ∃ ip : List ℕ, reconstruct g parent f v acc = some (ip.map g.vertex ++ acc.reverse) ∧
        g.isWalk s v ip ∧ L v = ((g.walkWeight ip : ℚ) : Dist) ∧ ip.Nodup ∧
        ∀ x ∈ ip, x = s ∨ (deleted dist x ∧ rank x ≤ rank v)
  | 0, _, _, _, _, _, hf => absurd hf (lt_irrefl 0)
  | f + 1, v, acc, hv, hor, hrk, _ => by
    unfold reconstruct
    by_cases hvs : v = s
    · subst hvs
      rw [if_neg (not_not.mpr h.psrc)]
      refine ⟨[v], by simp, isWalk_single g v hv, ?_, List.nodup_singleton v, ?_⟩
      · rw [h.src0]; simp [Graph.walkWeight]
      · intro x hx
        exact Or.inl (List.mem_singleton.mp hx)
    · have hdv : deleted dist v := hor.resolve_left hvs
      have hfin : L v ≠ ⊤ := ((h.deleted_iff hv).mp hdv).2
      obtain ⟨hu, hdu, heu, hLu⟩ := h.par v hv hvs hfin
      have hrku := h.rankPar v hv hvs hdv
      have hrkv := hrk hvs
      have hne : parent.getD v 0 ≠ v := fun e => by rw [e] at hrku; exact lt_irrefl _ hrku
      rw [if_pos hne]
      obtain ⟨ip, hrec, hwalk, hLip, hnodup, hmem⟩ :=
        reconstruct_deleted h f (parent.getD v 0) (acc ++ [g.vertex v]) hu (Or.inr hdu)
          (fun _ => by omega) (by omega)
      refine ⟨ip ++ [v], ?_, isWalk_snoc g s _ v ip hwalk heu hv, ?_, ?_, ?_⟩
      · rw [hrec]; simp
      · rw [walkWeight_snoc g v ip _ hwalk.2, ← hLu, hLip]
        push_cast; rfl
      · rw [List.nodup_append]
        refine ⟨hnodup, List.nodup_singleton v, ?_⟩
        intro x hx1 hx2
        rw [List.mem_singleton] at hx2
        subst hx2
        rcases hmem x hx1 with e | ⟨_, hle⟩
        · exact hvs e
        · omega
      · intro x hx
        rw [List.mem_append, List.mem_singleton] at hx
        rcases hx with hx | e
        · rcases hmem x hx with e | ⟨hdx, hle⟩
          · exact Or.inl e
          · exact Or.inr ⟨hdx, by omega⟩
        · exact Or.inr ⟨e ▸ hdv, by rw [e]⟩

/-- From a vertex `v` of finite label that is not deleted the reconstruction loop, given
`num_vertices` units of fuel or more, returns a walk from the start to `v` whose weight
is the label of `v`. -/
theorem reconstruct_selected {g : Graph} {s : ℕ} {dist : List Dist} {parent : List ℕ}
    {L : ℕ → Dist} {rank : ℕ → ℕ} (h : DijkstraInv g s dist parent L rank)
    (rfuel v : ℕ) (hrf : g.num_vertices ≤ rfuel) (hv : v < g.num_vertices)
    (hnd : ¬ deleted dist v) (hfin : L v ≠ ⊤) :
    ∃ ip : List ℕ, reconstruct g parent rfuel v [] = some (ip.map g.vertex) ∧
      g.isWalk s v ip ∧ L v = ((g.walkWeight ip : ℚ) : Dist) ∧ ip.Nodup := by
  have hnum := numDeleted_lt hv hnd
  by_cases hvs : v = s
  · obtain ⟨ip, h1, h2, h3, h4, _⟩ := reconstruct_deleted h rfuel v [] hv (Or.inl hvs)
      (fun hh => absurd hvs hh) (by omega)
    exact ⟨ip, by simpa using h1, h2, h3, h4⟩
  · obtain ⟨hu, hdu, heu, hLu⟩ := h.par v hv hvs hfin
    have hrku := h.rankLt _ hu hdu
    have hne : parent.getD v 0 ≠ v := fun e => hnd (e ▸ hdu)
    obtain ⟨f, hf⟩ : ∃ f, rfuel = f + 1 := ⟨rfuel - 1, by omega⟩
    subst hf
    unfold reconstruct
    rw [if_pos hne]
    obtain ⟨ip, hrec, hwalk, hLip, hnodup, hmem⟩ :=
      reconstruct_deleted h f (parent.getD v 0) ([] ++ [g.vertex v]) hu (Or.inr hdu)
        (fun _ => by omega) (by omega)
    refine ⟨ip ++ [v], ?_, isWalk_snoc g s _ v ip hwalk heu hv, ?_, ?_⟩
    · rw [hrec]; simp
    · rw [walkWeight_snoc g v ip _ hwalk.2, ← hLu, hLip]
      push_cast; rfl
    · rw [List.nodup_append]
      refine ⟨hnodup, List.nodup_singleton v, ?_⟩
      intro x hx1 hx2
      rw [List.mem_singleton] at hx2
      subst hx2
      rcases hmem x hx1 with e | ⟨hdx, _⟩
      · exact hvs e
      · exact hnd hdx

/-! ## Lower bound on the weight of walks -/

/-- Under the invariant, the label of a vertex that is not deleted and has the least
label among those is a lower bound of the weight of every walk from the start to it. -/
theorem dijkstra_lower_bound {g : Graph} {s : ℕ} {dist : List Dist} {parent : List ℕ}
    {L : ℕ → Dist} {rank : ℕ → ℕ} (h : DijkstraInv g s dist parent L rank)
    (c : ℕ) (hnd : ¬ deleted dist c)
    (hmin : ∀ j < g.num_vertices, ¬ deleted dist j → L c ≤ L j)
    (w : List ℕ) (hw : g.isWalk s c w) : L c ≤ ((g.walkWeight w : ℚ) : Dist) := by
  have key := walk_weight_induction g
    (fun x a => x < g.num_vertices ∧ (deleted dist x → L x ≤ ((a : ℚ) : Dist)) ∧
      (¬ deleted dist x → ∃ y < g.num_vertices, ¬ deleted dist y ∧ L y ≤ ((a : ℚ) : Dist)))
    (by
      intro u v a hu hv he ⟨_, h1, h2⟩
      have hW : (0 : Dist) ≤ ((g.weight u v : ℚ) : Dist) := by exact_mod_cast he
      have hmono : ((a : ℚ) : Dist) ≤ ((a + g.weight u v : ℚ) : Dist) := by
        push_cast; exact le_add_of_nonneg_right hW
      refine ⟨hv, ?_, ?_⟩
      · intro hdv
        by_cases hdu : deleted dist u
        · refine le_trans (h.relaxed u hu v hv hdu he) ?_
          push_cast
          exact add_le_add_right (h1 hdu) _
        · obtain ⟨y, hy, hndy, hLy⟩ := h2 hdu
          exact le_trans (h.settled v hv y hy hdv hndy) (le_trans hLy hmono)
      · intro hndv
        by_cases hdu : deleted dist u
        · refine ⟨v, hv, hndv, le_trans (h.relaxed u hu v hv hdu he) ?_⟩
          push_cast
          exact add_le_add_right (h1 hdu) _
        · obtain ⟨y, hy, hndy, hLy⟩ := h2 hdu
          exact ⟨y, hy, hndy, le_trans hLy hmono⟩)
    w s c 0 hw.1 hw.2
    ⟨h.hs, fun _ => by rw [h.src0]; simp, fun hnds => ⟨s, h.hs, hnds, by rw [h.src0]; simp⟩⟩
  obtain ⟨_, _, k2⟩ := key
  obtain ⟨y, hy, hndy, hLy⟩ := k2 hnd
  rw [zero_add] at hLy
  exact le_trans (hmin y hy hndy) hLy

/-- Under the invariant, when no vertex can be selected, every vertex that can be
reached from the start is deleted. -/
theorem dijkstra_closed {g : Graph} {s : ℕ} {dist : List Dist} {parent : List ℕ}
    {L : ℕ → Dist} {rank : ℕ → ℕ} (h : DijkstraInv g s dist parent L rank)
    (hnone : select_min g dist = g.num_vertices) (t : ℕ) (hr : g.reachable s t) :
    deleted dist t := by
  have hall := (select_min_none_iff g dist).mp hnone
  have hfin_del : ∀ i < g.num_vertices, L i ≠ ⊤ → deleted dist i := by
    intro i hi hfin
    by_contra hnd
    have e := h.label_of_not_deleted hi hnd
    exact hfin (e ▸ hall i hi hnd)
  obtain ⟨p, hp⟩ := hr
  refine walk_induction g (fun x => deleted dist x) ?_ p s t hp.1 hp.2 ?_
  · intro u v hu hv he hdu
    apply hfin_del v hv
    have hLu : L u ≠ ⊤ := ((h.deleted_iff hu).mp hdu).2
    have hlt : L u + ((g.weight u v : ℚ) : Dist) < ⊤ :=
      WithTop.add_lt_top.mpr ⟨lt_top_iff_ne_top.mpr hLu, WithTop.coe_lt_top _⟩
    exact ne_of_lt (lt_of_le_of_lt (h.relaxed u hu v hv hdu he) hlt)
  · apply hfin_del s h.hs
    rw [h.src0]; simp

/-! ## The loop of dijkstra_search -/

/-- What the loop of `dijkstra_search` returns from a state that satisfies the invariant
with enough fuel: the empty path when the goal cannot be reached, and otherwise the
points of a walk from the start to the goal of least weight. -/
theorem dijkstra_loop_spec (g : Graph) (s out rfuel : ℕ) (hout : out < g.num_vertices)
    (hrf : g.num_vertices ≤ rfuel) :
    ∀ (f : ℕ) (dist : List Dist) (parent : List ℕ) (L : ℕ → Dist) (rank : ℕ → ℕ),
      DijkstraInv g s dist parent L rank → ¬ deleted dist out →
      g.num_vertices + 1 ≤ f + numDeleted g dist →
      ∃ p, dijkstra_loop g out rfuel f dist parent = some p ∧
        ((p = [] ∧ ¬ g.reachable s out) ∨
         (∃ ip : List ℕ, p = ip.map g.vertex ∧ g.isWalk s out ip ∧ ip.Nodup ∧
            ∀ w, g.isWalk s out w → g.walkWeight ip ≤ g.walkWeight w))
  | 0, dist, _, _, _, _, hnd, hfuel => by
    have := numDeleted_lt hout hnd
    omega
  | f + 1, dist, parent, L, rank, h, hnd, hfuel => by
    unfold dijkstra_loop
    simp only
    by_cases hc : select_min g dist = g.num_vertices
    · rw [if_pos hc]
      exact ⟨[], rfl, Or.inl ⟨rfl, fun hr => hnd (dijkstra_closed h hc out hr)⟩⟩
    · rw [if_neg hc]
      obtain ⟨hcn, hcnd, hcfin, hmin, _⟩ := select_min_some g dist hc
      by_cases hco : select_min g dist = out
      · rw [if_pos hco]
        rw [hco] at hcfin hmin
        have hLo : dist.getD out ⊤ = L out := h.label_of_not_deleted hout hnd
        have hfin : L out ≠ ⊤ := by rw [← hLo]; exact ne_of_lt hcfin
        obtain ⟨ip, hrec, hwalk, hLip, hnodup⟩ :=
          reconstruct_selected h rfuel out hrf hout hnd hfin
        refine ⟨ip.map g.vertex, by rw [hco]; exact hrec,
          Or.inr ⟨ip, rfl, hwalk, hnodup, ?_⟩⟩
        intro w hw
        have hmin2 : ∀ j < g.num_vertices, ¬ deleted dist j → L out ≤ L j := by
          intro j hj hndj
          rw [← hLo, ← h.label_of_not_deleted hj hndj]
          exact hmin j hj hndj
        have hb := dijkstra_lower_bound h out hnd hmin2 w hw
        rw [hLip] at hb
        exact_mod_cast hb
      · rw [if_neg hco]
        obtain ⟨L1, rank1, hinv, hdel, hcount⟩ := dijkstraInv_step h hc
        have hnd1 : ¬ deleted ((relax g (select_min g dist) dist parent).1.set
            (select_min g dist) ((-1 : ℚ) : Dist)) out := by
          intro hh
          rcases (hdel out hout).mp hh with h1 | h1
          · exact hnd h1
          · exact hco h1.symm
        exact dijkstra_loop_spec g s out rfuel hout hrf f _ _ L1 rank1 hinv hnd1
          (by rw [hcount]; omega)

/-- More fuel does not change a result of the reconstruction loop. -/
theorem reconstruct_fuel_mono (g : Graph) (parent : List ℕ) :
    ∀ (f f2 curr : ℕ) (acc p : Path), f ≤ f2 → reconstruct g parent f curr acc = some p →
      reconstruct g parent f2 curr acc = some p
  | 0, _, _, _, _, _, h => by simp [reconstruct] at h
  | f + 1, 0, _, _, _, hle, _ => by omega
  | f + 1, f2 + 1, curr, acc, p, hle, h => by
    unfold reconstruct at h ⊢
    by_cases hp : parent.getD curr 0 ≠ curr
    · rw [if_pos hp] at h ⊢
      exact reconstruct_fuel_mono g parent f f2 _ _ p (by omega) h
    · rw [if_neg hp] at h ⊢
      exact h

/-- More fuel does not change a result of the loop of `dijkstra_search`. -/
theorem dijkstra_loop_fuel_mono (g : Graph) (out rf rf2 : ℕ) (hrf : rf ≤ rf2) :
    ∀ (f f2 : ℕ) (dist : List Dist) (parent : List ℕ) (p : Path), f ≤ f2 →
      dijkstra_loop g out rf f dist parent = some p →
      dijkstra_loop g out rf2 f2 dist parent = some p
  | 0, _, _, _, _, _, h => by simp [dijkstra_loop] at h
  | f + 1, 0, _, _, _, hle, _ => by omega
  | f + 1, f2 + 1, dist, parent, p, hle, h => by
    unfold dijkstra_loop at h ⊢
    simp only at h ⊢
    by_cases hc : select_min g dist = g.num_vertices
    · rw [if_pos hc] at h ⊢; exact h
    · rw [if_neg hc] at h ⊢
      by_cases hco : select_min g dist = out
      · rw [if_pos hco] at h ⊢
        exact reconstruct_fuel_mono g parent rf rf2 _ _ p hrf h
      · rw [if_neg hco] at h ⊢
        exact dijkstra_loop_fuel_mono g out rf rf2 hrf f f2 _ _ p (by omega) h

/-- What `dijkstra_search` returns for valid descriptors. -/
theorem dijkstra_search_spec (g : Graph) (a b : Point)
    (ha : g.descriptor a < g.num_vertices) (hb : g.descriptor b < g.num_vertices) :
    ∃ p, dijkstra_search g a b = some p ∧
      ((p = [] ∧ ¬ g.reachable (g.descriptor a) (g.descriptor b)) ∨
       (∃ ip : List ℕ, p = ip.map g.vertex ∧ g.isWalk (g.descriptor a) (g.descriptor b) ip ∧
          ip.Nodup ∧
          ∀ w, g.isWalk (g.descriptor a) (g.descriptor b) w →
            g.walkWeight ip ≤ g.walkWeight w)) := by
  obtain ⟨hinv, hnd⟩ := dijkstraInv_init g (g.descriptor a) ha
  unfold dijkstra_search dijkstra_fuel
  exact dijkstra_loop_spec g (g.descriptor a) (g.descriptor b) g.num_vertices hb (le_refl _)
    (g.num_vertices + 1) _ _ _ _ hinv (hnd _) (by omega)

/-! ## The invariant of breadth_first_search -/

theorem numDiscovered_le (g : Graph) (dist : List Dist) :
    numDiscovered g dist ≤ g.num_vertices := by
  unfold numDiscovered
  simpa using Finset.card_filter_le (Finset.range g.num_vertices) (fun i => discovered dist i)

/-- The invariant holds when the queue loop is entered and the start vertex is taken
from the queue. -/
theorem bfsInv_init (g : Graph) (s : ℕ) (hs : s < g.num_vertices) :
    BfsInv g s s (List.range g.num_vertices) []
      ((List.replicate g.num_vertices (⊤ : Dist)).set s 0)
      ((List.replicate g.num_vertices 0).set s s) (fun _ => 0) (fun _ => 0) ∧
    numDiscovered g ((List.replicate g.num_vertices (⊤ : Dist)).set s 0) = 1 := by
  have hlen : s < (List.replicate g.num_vertices (⊤ : Dist)).length := by simpa using hs
  have hlen2 : s < (List.replicate g.num_vertices 0).length := by simpa using hs
  have hdisc : ∀ i, discovered ((List.replicate g.num_vertices (⊤ : Dist)).set s 0) i ↔
      i = s := by
    intro i
    unfold discovered
    rw [getD_set _ _ _ _ _ hlen, getD_replicate]
    by_cases h : s = i
    · subst h; simp
    · have h2 : ¬ i = s := fun e => h e.symm
      simp [h, h2]
  have hnum : numDiscovered g ((List.replicate g.num_vertices (⊤ : Dist)).set s 0) = 1 := by
    unfold numDiscovered
    have : (Finset.range g.num_vertices).filter
        (fun i => discovered ((List.replicate g.num_vertices (⊤ : Dist)).set s 0) i) = {s} := by
      ext j
      simp only [Finset.mem_filter, Finset.mem_range, Finset.mem_singleton, hdisc]
      constructor
      · exact fun hh => hh.2
      · intro e; subst e; exact ⟨hs, rfl⟩
    rw [this, Finset.card_singleton]
  refine ⟨?_, hnum⟩
  refine
    { dlen := by simp
      plen := by simp
      hs := hs
      hcurr := hs
      dcurr := (hdisc s).mpr rfl
      curr_notin := by simp
      qdisc := by simp
      qnodup := List.nodup_nil
      dsrc := (hdisc s).mpr rfl
      psrc := getD_set_eq _ _ _ _ hlen2
      lsrc := rfl
      par := fun i _ his hd => absurd ((hdisc i).mp hd) his
      rankLt := fun i _ _ => by rw [hnum]; exact Nat.zero_lt_one
      qsorted := by simp
      qpair := List.Pairwise.nil
      qbound := by simp
      procEdge := fun u _ hd _ hne => absurd ((hdisc u).mp hd) hne
      procLe := fun u _ hd _ hne => absurd ((hdisc u).mp hd) hne
      scanned := fun v hv hnot => absurd (List.mem_range.mpr hv) hnot }

/-- A bound `Q u a` that holds at the start of a walk with `a = c` and is carried along
every edge from `a` to `a + 1` holds at its end with `a + 1 = c + length`. -/
theorem walk_length_induction (g : Graph) (Q : ℕ → ℕ → Prop)
    (hstep : ∀ u v a, u < g.num_vertices → v < g.num_vertices → g.edge u v → Q u a →
      Q v (a + 1)) :
    ∀ (p : List ℕ) (s t : ℕ) (c : ℕ), g.walkFrom s p → p.getLast? = some t → Q s c →
      Q t (c + p.length - 1)
  | [], _, _, _, h, _, _ => absurd h (by simp [Graph.walkFrom])
  | [x], s, t, c, h, hl, hq => by
    obtain ⟨h1, _⟩ := h
    simp only [List.getLast?_singleton, Option.some.injEq] at hl
    subst hl; subst h1
    simpa using hq
  | x :: y :: rest, s, t, c, h, hl, hq => by
    obtain ⟨h1, h2, h3, h4⟩ := (walkFrom_cons_cons g s x y rest).mp h
    have hl2 : (y :: rest).getLast? = some t := by
      rw [List.getLast?_cons_cons] at hl; exact hl
    have hy := (walkFrom_head g y (y :: rest) h4).2
    subst h1
    have ih := walk_length_induction g Q hstep (y :: rest) y t (c + 1) h4 hl2
      (hstep x y c h2 hy h3 hq)
    have e : c + (x :: y :: rest).length - 1 = c + 1 + (y :: rest).length - 1 := by
      simp only [List.length_cons]; omega
    rw [e]; exact ih

/-- From a discovered vertex `v` the reconstruction loop, given more fuel than the rank
of `v`, returns a walk from the start to `v` of `lev v` edges, followed by what was
pushed before. -/
theorem reconstruct_discovered {g : Graph} {s curr : ℕ} {rest Q : List ℕ} {dist : List Dist}
    {parent : List ℕ} {lev rank : ℕ → ℕ} (h : BfsInv g s curr rest Q dist parent lev rank) :
    ∀ (f v : ℕ) (acc : Path), v < g.num_vertices → discovered dist v → rank v < f →
      ∃ ip : List ℕ, reconstruct g parent f v acc = some (ip.map g.vertex ++ acc.reverse) ∧
        g.isWalk s v ip ∧ ip.length = lev v + 1
  | 0, _, _, _, _, hf => absurd hf (Nat.not_lt_zero _)
  | f + 1, v, acc, hv, hd, hrk => by
    unfold reconstruct
    by_cases hvs : v = s
    · subst hvs
      rw [if_neg (not_not.mpr h.psrc)]
      exact ⟨[v], by simp, isWalk_single g v hv, by simp [h.lsrc]⟩
    · obtain ⟨hu, hdu, heu, hlev, hrku⟩ := h.par v hv hvs hd
      have hne : parent.getD v 0 ≠ v := fun e => by rw [e] at hrku; exact lt_irrefl _ hrku
      rw [if_pos hne]
      obtain ⟨ip, hrec, hwalk, hlen⟩ :=
        reconstruct_discovered h f (parent.getD v 0) (acc ++ [g.vertex v]) hu hdu (by omega)
      refine ⟨ip ++ [v], ?_, isWalk_snoc g s _ v ip hwalk heu hv, ?_⟩
      · rw [hrec]; simp
      · rw [List.length_append, hlen, hlev]; rfl

/-- Under the invariant, every walk from the start to the vertex being expanded has at
least `lev curr` edges. -/
theorem bfs_lower_bound {g : Graph} {s curr : ℕ} {rest Q : List ℕ} {dist : List Dist}
    {parent : List ℕ} {lev rank : ℕ → ℕ} (h : BfsInv g s curr rest Q dist parent lev rank)
    (w : List ℕ) (hw : g.isWalk s curr w) : lev curr + 1 ≤ w.length := by
  have hfront : ∀ x < g.num_vertices, discovered dist x → (x ∈ Q ∨ x = curr) →
      lev curr ≤ lev x := by
    intro x _ _ hor
    rcases hor with hq | e
    · exact h.qsorted x hq
    · rw [e]
  have key := walk_length_induction g
    (fun x a => x < g.num_vertices ∧
      ((discovered dist x ∧ x ∉ Q ∧ x ≠ curr) → lev x ≤ a) ∧
      (¬ (discovered dist x ∧ x ∉ Q ∧ x ≠ curr) → lev curr ≤ a))
    (by
      intro u v a hu hv he ⟨_, h1, h2⟩
      refine ⟨hv, ?_, ?_⟩
      · intro hpv
        by_cases hpu : discovered dist u ∧ u ∉ Q ∧ u ≠ curr
        · have := (h.procEdge u hu hpu.1 hpu.2.1 hpu.2.2 v hv he).2
          have := h1 hpu
          omega
        · have := h.procLe v hv hpv.1 hpv.2.1 hpv.2.2
          have := h2 hpu
          omega
      · intro hnpv
        by_cases hpu : discovered dist u ∧ u ∉ Q ∧ u ≠ curr
        · obtain ⟨hdv, hlv⟩ := h.procEdge u hu hpu.1 hpu.2.1 hpu.2.2 v hv he
          have hor : v ∈ Q ∨ v = curr := by
            by_contra hcon
            push_neg at hcon
            exact hnpv ⟨hdv, hcon.1, hcon.2⟩
          have := hfront v hv hdv hor
          have := h1 hpu
          omega
        · have := h2 hpu
          omega)
    w s curr 0 hw.1 hw.2
    ⟨h.hs, fun _ => by rw [h.lsrc], fun hnp => by
      have hor : s ∈ Q ∨ s = curr := by
        by_contra hcon
        push_neg at hcon
        exact hnp ⟨h.dsrc, hcon.1, hcon.2⟩
      have := hfront s h.hs h.dsrc hor
      rw [h.lsrc] at this
      exact this⟩
  obtain ⟨_, _, k2⟩ := key
  have hnp : ¬ (discovered dist curr ∧ curr ∉ Q ∧ curr ≠ curr) := fun hh => hh.2.2 rfl
  have := k2 hnp
  have hne := walkFrom_ne_nil g s w hw.1
  have : 0 < w.length := List.length_pos.mpr hne
  omega

/-- Scanning a vertex `i` that is not a neighbour of `curr`, or is already discovered,
keeps the invariant. -/
theorem bfsInv_skip {g : Graph} {s curr i : ℕ} {rest Q : List ℕ} {dist : List Dist}
    {parent : List ℕ} {lev rank : ℕ → ℕ}
    (h : BfsInv g s curr (i :: rest) Q dist parent lev rank) (hi : i < g.num_vertices)
    (hskip : g.weight curr i < 0 ∨ discovered dist i) :
    BfsInv g s curr rest Q dist parent lev rank := by
  refine { h with scanned := ?_ }
  intro v hv hnot he
  by_cases hvi : v = i
  · subst hvi
    rcases hskip with hneg | hd
    · exact absurd he (not_le.mpr hneg)
    · refine ⟨hd, ?_⟩
      by_cases hq : v ∈ Q
      · exact h.qbound v hq
      · by_cases hvc : v = curr
        · rw [hvc]; exact Nat.le_succ _
        · exact le_trans (h.procLe v hv hd hq hvc) (Nat.le_succ _)
  · exact h.scanned v hv (by simp [hvi, hnot]) he

/-- Discovering a new neighbour `i` of `curr` keeps the invariant for the updated
`dist`, `parent` and queue, and there is one more discovered vertex. -/
theorem bfsInv_discover {g : Graph} {s curr i : ℕ} {rest Q : List ℕ} {dist : List Dist}
    {parent : List ℕ} {lev rank : ℕ → ℕ}
    (h : BfsInv g s curr (i :: rest) Q dist parent lev rank) (hi : i < g.num_vertices)
    (hw : ¬ g.weight curr i < 0) (hnew : dist.getD i ⊤ = ⊤) :
    ∃ lev1 rank1,
      BfsInv g s curr rest (Q ++ [i])
        (dist.set i (dist.getD curr ⊤ + (g.weight curr i : ℚ))) (parent.set i curr)
        lev1 rank1 ∧
      numDiscovered g (dist.set i (dist.getD curr ⊤ + (g.weight curr i : ℚ))) =
        numDiscovered g dist + 1 := by
  have hil : i < dist.length := by rw [h.dlen]; exact hi
  have hil2 : i < parent.length := by rw [h.plen]; exact hi
  have hnd : ¬ discovered dist i := fun hh => hh hnew
  have hold : ∀ j, discovered dist j → j ≠ i := fun j hd e => hnd (e ▸ hd)
  have hx : dist.getD curr ⊤ + ((g.weight curr i : ℚ) : Dist) ≠ ⊤ :=
    ne_of_lt (WithTop.add_lt_top.mpr ⟨lt_top_iff_ne_top.mpr h.dcurr, WithTop.coe_lt_top _⟩)
  have hdisc : ∀ j, discovered (dist.set i (dist.getD curr ⊤ + (g.weight curr i : ℚ))) j ↔
      discovered dist j ∨ j = i := by
    intro j
    unfold discovered
    rw [getD_set _ _ _ _ _ hil]
    by_cases hij : i = j
    · rw [if_pos hij]; exact ⟨fun _ => Or.inr hij.symm, fun _ => hx⟩
    · rw [if_neg hij]
      exact ⟨fun hh => Or.inl hh, fun hh => hh.resolve_right (fun e => hij e.symm)⟩
  have hpar : ∀ j, j ≠ i → (parent.set i curr).getD j 0 = parent.getD j 0 :=
    fun j hj => getD_set_ne _ _ _ _ _ (fun e => hj e.symm)
  have hpari : (parent.set i curr).getD i 0 = curr := getD_set_eq _ _ _ _ hil2
  obtain ⟨lev1, hlev1⟩ : ∃ lev1 : ℕ → ℕ, ∀ j, lev1 j =
      if j = i then lev curr + 1 else lev j := ⟨_, fun _ => rfl⟩
  obtain ⟨rank1, hrank1⟩ : ∃ rank1 : ℕ → ℕ, ∀ j, rank1 j =
      if j = i then numDiscovered g dist else rank j := ⟨_, fun _ => rfl⟩
  have hlev : ∀ j, j ≠ i → lev1 j = lev j := fun j hj => by rw [hlev1 j, if_neg hj]
  have hlevi : lev1 i = lev curr + 1 := by rw [hlev1 i, if_pos rfl]
  have hrank : ∀ j, j ≠ i → rank1 j = rank j := fun j hj => by rw [hrank1 j, if_neg hj]
  have hranki : rank1 i = numDiscovered g dist := by rw [hrank1 i, if_pos rfl]
  have hci : curr ≠ i := hold curr h.dcurr
  have hsi : s ≠ i := hold s h.dsrc
  have hiQ : i ∉ Q := fun hq => hnd (h.qdisc i hq).2
  have hQi : ∀ q ∈ Q, q ≠ i := fun q hq => hold q (h.qdisc q hq).2
  have hcount : numDiscovered g (dist.set i (dist.getD curr ⊤ + (g.weight curr i : ℚ))) =
      numDiscovered g dist + 1 := by
    unfold numDiscovered
    have hset : (Finset.range g.num_vertices).filter
        (fun j => discovered (dist.set i (dist.getD curr ⊤ + (g.weight curr i : ℚ))) j) =
        insert i ((Finset.range g.num_vertices).filter (fun j => discovered dist j)) := by
      ext j
      simp only [Finset.mem_filter, Finset.mem_range, Finset.mem_insert, hdisc]
      constructor
      · rintro ⟨hj, h1 | h1⟩
        · exact Or.inr ⟨hj, h1⟩
        · exact Or.inl h1
      · rintro (h1 | ⟨hj, h1⟩)
        · subst h1; exact ⟨hi, Or.inr rfl⟩
        · exact ⟨hj, Or.inl h1⟩
    rw [hset, Finset.card_insert_of_not_mem]
    simp only [Finset.mem_filter, Finset.mem_range, not_and]
    exact fun _ => hnd
  refine ⟨lev1, rank1, ?_, hcount⟩
  refine
    { dlen := by simp [h.dlen]
      plen := by simp [h.plen]
      hs := h.hs
      hcurr := h.hcurr
      dcurr := (hdisc curr).mpr (Or.inl h.dcurr)
      curr_notin := by
        simp only [List.mem_append, List.mem_singleton, not_or]
        exact ⟨h.curr_notin, hci⟩
      qdisc := ?_
      qnodup := ?_
      dsrc := (hdisc s).mpr (Or.inl h.dsrc)
      psrc := by rw [hpar s hsi]; exact h.psrc
      lsrc := by rw [hlev s hsi]; exact h.lsrc
      par := ?_
      rankLt := ?_
      qsorted := ?_
      qpair := ?_
      qbound := ?_
      procEdge := ?_
      procLe := ?_
      scanned := ?_ }
  · -- qdisc
    intro q hq
    simp only [List.mem_append, List.mem_singleton] at hq
    rcases hq with hq | e
    · exact ⟨(h.qdisc q hq).1, (hdisc q).mpr (Or.inl (h.qdisc q hq).2)⟩
    · rw [e]; exact ⟨hi, (hdisc i).mpr (Or.inr rfl)⟩
  · -- qnodup
    rw [List.nodup_append]
    refine ⟨h.qnodup, List.nodup_singleton i, ?_⟩
    intro x hx1 hx2
    simp only [List.mem_singleton] at hx2
    exact hiQ (hx2 ▸ hx1)
  · -- par
    intro j hj hjs hdj
    rcases (hdisc j).mp hdj with hdj0 | e
    · have hji := hold j hdj0
      obtain ⟨p1, p2, p3, p4, p5⟩ := h.par j hj hjs hdj0
      have hpi := hold _ p2
      rw [hpar j hji, hlev j hji, hlev _ hpi, hrank j hji, hrank _ hpi]
      exact ⟨p1, (hdisc _).mpr (Or.inl p2), p3, p4, p5⟩
    · subst e
      rw [hpari, hlevi, hlev curr hci, hranki, hrank curr hci]
      exact ⟨h.hcurr, (hdisc curr).mpr (Or.inl h.dcurr), not_lt.mp hw, rfl,
        h.rankLt curr h.hcurr h.dcurr⟩
  · -- rankLt
    intro j hj hdj
    rw [hcount]
    rcases (hdisc j).mp hdj with hdj0 | e
    · rw [hrank j (hold j hdj0)]
      exact Nat.lt_succ_of_lt (h.rankLt j hj hdj0)
    · rw [e, hranki]; exact Nat.lt_succ_self _
  · -- qsorted
    intro q hq
    simp only [List.mem_append, List.mem_singleton] at hq
    rw [hlev curr hci]
    rcases hq with hq | e
    · rw [hlev q (hQi q hq)]; exact h.qsorted q hq
    · rw [e, hlevi]; exact Nat.le_succ _
  · -- qpair
    rw [List.pairwise_append]
    refine ⟨?_, List.pairwise_singleton _ _, ?_⟩
    · refine h.qpair.imp_of_mem ?_
      intro x y hx hy hxy
      rw [hlev x (hQi x hx), hlev y (hQi y hy)]; exact hxy
    · intro x hx y hy
      simp only [List.mem_singleton] at hy
      rw [hy, hlevi, hlev x (hQi x hx)]
      exact h.qbound x hx
  · -- qbound
    intro q hq
    simp only [List.mem_append, List.mem_singleton] at hq
    rw [hlev curr hci]
    rcases hq with hq | e
    · rw [hlev q (hQi q hq)]; exact h.qbound q hq
    · rw [e, hlevi]
  · -- procEdge
    intro u hu hdu huQ huc v hv he
    simp only [List.mem_append, List.mem_singleton, not_or] at huQ
    have hdu0 : discovered dist u := ((hdisc u).mp hdu).resolve_right huQ.2
    obtain ⟨hdv, hlv⟩ := h.procEdge u hu hdu0 huQ.1 huc v hv he
    rw [hlev v (hold v hdv), hlev u huQ.2]
    exact ⟨(hdisc v).mpr (Or.inl hdv), hlv⟩
  · -- procLe
    intro u hu hdu huQ huc
    simp only [List.mem_append, List.mem_singleton, not_or] at huQ
    have hdu0 : discovered dist u := ((hdisc u).mp hdu).resolve_right huQ.2
    rw [hlev u huQ.2, hlev curr hci]
    exact h.procLe u hu hdu0 huQ.1 huc
  · -- scanned
    intro v hv hnot he
    rw [hlev curr hci]
    by_cases hvi : v = i
    · rw [hvi, hlevi]; exact ⟨(hdisc i).mpr (Or.inr rfl), le_refl _⟩
    · obtain ⟨hdv, hlv⟩ := h.scanned v hv (by simp [hvi, hnot]) he
      rw [hlev v hvi]
      exact ⟨(hdisc v).mpr (Or.inl hdv), hlv⟩

/-- When the scan of `curr` is over and the next vertex is taken from the queue, the
invariant holds for that vertex. -/
theorem bfsInv_next {g : Graph} {s curr c2 : ℕ} {Q2 : List ℕ} {dist : List Dist}
    {parent : List ℕ} {lev rank : ℕ → ℕ}
    (h : BfsInv g s curr [] (c2 :: Q2) dist parent lev rank) :
    BfsInv g s c2 (List.range g.num_vertices) Q2 dist parent lev rank := by
  have hc2 := h.qdisc c2 (List.mem_cons_self _ _)
  have hnd := List.nodup_cons.mp h.qnodup
  have hpw := List.pairwise_cons.mp h.qpair
  have hle : lev curr ≤ lev c2 := h.qsorted c2 (List.mem_cons_self _ _)
  refine
    { dlen := h.dlen
      plen := h.plen
      hs := h.hs
      hcurr := hc2.1
      dcurr := hc2.2
      curr_notin := hnd.1
      qdisc := fun q hq => h.qdisc q (List.mem_cons_of_mem _ hq)
      qnodup := hnd.2
      dsrc := h.dsrc
      psrc := h.psrc
      lsrc := h.lsrc
      par := h.par
      rankLt := h.rankLt
      qsorted := fun q hq => hpw.1 q hq
      qpair := hpw.2
      qbound := fun q hq => le_trans (h.qbound q (List.mem_cons_of_mem _ hq))
        (Nat.succ_le_succ hle)
      procEdge := ?_
      procLe := ?_
      scanned := fun v hv hnot => absurd (List.mem_range.mpr hv) hnot }
  · intro u hu hdu huQ huc v hv he
    by_cases huc0 : u = curr
    · subst huc0; exact h.scanned v hv (List.not_mem_nil v) he
    · have huQ0 : u ∉ c2 :: Q2 := by
        simp only [List.mem_cons, not_or]; exact ⟨huc, huQ⟩
      exact h.procEdge u hu hdu huQ0 huc0 v hv he
  · intro u hu hdu huQ huc
    by_cases huc0 : u = curr
    · rw [huc0]; exact hle
    · have huQ0 : u ∉ c2 :: Q2 := by
        simp only [List.mem_cons, not_or]; exact ⟨huc, huQ⟩
      exact le_trans (h.procLe u hu hdu huQ0 huc0) hle

/-! ## The loops of breadth_first_search -/

/-- The scan of the neighbours of `curr`: either it returns, `curr` is the goal and the
result is the points of a walk from the start to the goal with the least number of
vertices, or it runs to its end and the invariant holds with every neighbour scanned. -/
theorem bfs_scan_spec (g : Graph) (s out rfuel curr : ℕ) (hrf : g.num_vertices ≤ rfuel) :
    ∀ (rest Q : List ℕ) (dist : List Dist) (parent : List ℕ) (lev rank : ℕ → ℕ),
      (∀ i ∈ rest, i < g.num_vertices) → BfsInv g s curr rest Q dist parent lev rank →
      (∃ ip : List ℕ,
        bfs_scan g out rfuel curr rest Q dist parent = Sum.inl (some (ip.map g.vertex)) ∧
        g.isWalk s out ip ∧ ∀ w, g.isWalk s out w → ip.length ≤ w.length) ∨
      (∃ Q1 d1 p1 lev1 rank1,
        bfs_scan g out rfuel curr rest Q dist parent = Sum.inr (Q1, d1, p1) ∧
        BfsInv g s curr [] Q1 d1 p1 lev1 rank1 ∧
        Q1.length + numDiscovered g dist = Q.length + numDiscovered g d1)
  | [], Q, dist, parent, lev, rank, _, h =>
    Or.inr ⟨Q, dist, parent, lev, rank, rfl, h, rfl⟩
  | i :: rest, Q, dist, parent, lev, rank, hrest, h => by
    have hi : i < g.num_vertices := hrest i (List.mem_cons_self _ _)
    have hrest2 : ∀ j ∈ rest, j < g.num_vertices :=
      fun j hj => hrest j (List.mem_cons_of_mem _ hj)
    unfold bfs_scan
    by_cases hw : g.weight curr i < 0
    · rw [if_pos hw]
      exact bfs_scan_spec g s out rfuel curr hrf rest Q dist parent lev rank hrest2
        (bfsInv_skip h hi (Or.inl hw))
    · rw [if_neg hw]
      by_cases hnew : dist.getD i ⊤ = ⊤
      · rw [if_pos hnew]
        simp only
        obtain ⟨lev1, rank1, h1, hcount⟩ := bfsInv_discover h hi hw hnew
        by_cases hco : curr = out
        · rw [if_pos hco]
          left
          have hrk := h1.rankLt curr h1.hcurr h1.dcurr
          have hnum := numDiscovered_le g
            (dist.set i (dist.getD curr ⊤ + (g.weight curr i : ℚ)))
          obtain ⟨ip, hrec, hwalk, hlen⟩ :=
            reconstruct_discovered h1 rfuel curr [] h1.hcurr h1.dcurr (by omega)
          subst hco
          refine ⟨ip, ?_, hwalk, ?_⟩
          · rw [hrec]; simp
          · intro w hw2
            have := bfs_lower_bound h1 w hw2
            omega
        · rw [if_neg hco]
          rcases bfs_scan_spec g s out rfuel curr hrf rest (Q ++ [i]) _ _ lev1 rank1 hrest2 h1
            with ⟨ip, e, hwalk, hmin⟩ | ⟨Q1, d1, p1, lev2, rank2, e, h2, hlen⟩
          · exact Or.inl ⟨ip, e, hwalk, hmin⟩
          · refine Or.inr ⟨Q1, d1, p1, lev2, rank2, e, h2, ?_⟩
            rw [hcount, List.length_append] at hlen
            simp only [List.length_singleton] at hlen
            omega
      · rw [if_neg hnew]
        exact bfs_scan_spec g s out rfuel curr hrf rest Q dist parent lev rank hrest2
          (bfsInv_skip h hi (Or.inr hnew))

/-- What the queue loop of `breadth_first_search` returns from a state that satisfies the
invariant with enough fuel: the empty path, or the points of a walk from the start to
the goal with the least number of vertices. -/
theorem bfs_loop_spec (g : Graph) (s out rfuel : ℕ) (hrf : g.num_vertices ≤ rfuel) :
    ∀ (f curr : ℕ) (Q : List ℕ) (dist : List Dist) (parent : List ℕ) (lev rank : ℕ → ℕ),
      BfsInv g s curr (List.range g.num_vertices) Q dist parent lev rank →
      Q.length + 1 + g.num_vertices + 1 ≤ f + numDiscovered g dist →
      ∃ p, bfs_loop g out rfuel f (curr :: Q) dist parent = some p ∧
        (p = [] ∨
         (∃ ip : List ℕ, p = ip.map g.vertex ∧ g.isWalk s out ip ∧
            ∀ w, g.isWalk s out w → ip.length ≤ w.length))
  | 0, _, Q, dist, _, _, _, _, hfuel => by
    have := numDiscovered_le g dist
    omega
  | f + 1, curr, Q, dist, parent, lev, rank, h, hfuel => by
    unfold bfs_loop
    rcases bfs_scan_spec g s out rfuel curr hrf (List.range g.num_vertices) Q dist parent
        lev rank (fun i hi => List.mem_range.mp hi) h
      with ⟨ip, e, hwalk, hmin⟩ | ⟨Q1, d1, p1, lev1, rank1, e, h1, hlen⟩
    · rw [e]
      exact ⟨ip.map g.vertex, rfl, Or.inr ⟨ip, rfl, hwalk, hmin⟩⟩
    · rw [e]
      simp only
      have hnum := numDiscovered_le g d1
      match Q1, h1, hlen with
      | [], _, hlen =>
        simp only [List.length_nil] at hlen
        obtain ⟨f2, hf2⟩ : ∃ f2, f = f2 + 1 := ⟨f - 1, by omega⟩
        subst hf2
        exact ⟨[], by simp [bfs_loop], Or.inl rfl⟩
      | c2 :: Q2, h1, hlen =>
        simp only [List.length_cons] at hlen
        exact bfs_loop_spec g s out rfuel hrf f c2 Q2 d1 p1 lev1 rank1 (bfsInv_next h1)
          (by omega)

/-- What `breadth_first_search` returns when the descriptor of the start is valid. -/
theorem breadth_first_search_spec (g : Graph) (a b : Point)
    (ha : g.descriptor a < g.num_vertices) :
    ∃ p, breadth_first_search g a b = some p ∧
      (p = [] ∨
       (∃ ip : List ℕ, p = ip.map g.vertex ∧ g.isWalk (g.descriptor a) (g.descriptor b) ip ∧
          ∀ w, g.isWalk (g.descriptor a) (g.descriptor b) w → ip.length ≤ w.length)) := by
  obtain ⟨hinv, hnum⟩ := bfsInv_init g (g.descriptor a) ha
  unfold breadth_first_search bfs_fuel
  exact bfs_loop_spec g (g.descriptor a) (g.descriptor b) g.num_vertices (le_refl _)
    (g.num_vertices + 1) _ [] _ _ _ _ hinv
    (by rw [hnum]; simp only [List.length_nil]; omega)

/-! ## Fuel of breadth_first_search, and one iteration of dijkstra_search -/

/-- More fuel for the reconstruction loop does not change a result of the scan. -/
theorem bfs_scan_fuel_mono (g : Graph) (out rf rf2 curr : ℕ) (hrf : rf ≤ rf2) :
    ∀ (rest Q : List ℕ) (dist : List Dist) (parent : List ℕ),
      (∀ p, bfs_scan g out rf curr rest Q dist parent = Sum.inl (some p) →
        bfs_scan g out rf2 curr rest Q dist parent = Sum.inl (some p)) ∧
      (∀ st, bfs_scan g out rf curr rest Q dist parent = Sum.inr st →
        bfs_scan g out rf2 curr rest Q dist parent = Sum.inr st)
  | [], Q, dist, parent => by
    constructor
    · intro p h; simp [bfs_scan] at h
    · intro st h; simpa [bfs_scan] using h
  | i :: rest, Q, dist, parent => by
    unfold bfs_scan
    by_cases hw : g.weight curr i < 0
    · rw [if_pos hw, if_pos hw]
      exact bfs_scan_fuel_mono g out rf rf2 curr hrf rest Q dist parent
    · rw [if_neg hw, if_neg hw]
      by_cases hnew : dist.getD i ⊤ = ⊤
      · rw [if_pos hnew, if_pos hnew]
        simp only
        by_cases hco : curr = out
        · rw [if_pos hco, if_pos hco]
          constructor
          · intro p h
            rw [Sum.inl.injEq] at h
            rw [reconstruct_fuel_mono g _ rf rf2 _ _ p hrf h]
          · intro st h; simp at h
        · rw [if_neg hco, if_neg hco]
          exact bfs_scan_fuel_mono g out rf rf2 curr hrf rest _ _ _
      · rw [if_neg hnew, if_neg hnew]
        exact bfs_scan_fuel_mono g out rf rf2 curr hrf rest Q dist parent

/-- More fuel does not change a result of the queue loop of `breadth_first_search`. -/
theorem bfs_loop_fuel_mono (g : Graph) (out rf rf2 : ℕ) (hrf : rf ≤ rf2) :
    ∀ (f f2 : ℕ) (Q : List ℕ) (dist : List Dist) (parent : List ℕ) (p : Path), f ≤ f2 →
      bfs_loop g out rf f Q dist parent = some p →
      bfs_loop g out rf2 f2 Q dist parent = some p
  | 0, _, _, _, _, _, _, h => by simp [bfs_loop] at h
  | f + 1, 0, _, _, _, _, hle, _ => by omega
  | f + 1, f2 + 1, [], dist, parent, p, _, h => by
    simpa [bfs_loop] using h
  | f + 1, f2 + 1, curr :: Q, dist, parent, p, hle, h => by
    unfold bfs_loop at h ⊢
    have hm := bfs_scan_fuel_mono g out rf rf2 curr hrf (List.range g.num_vertices) Q dist
      parent
    cases hsc : bfs_scan g out rf curr (List.range g.num_vertices) Q dist parent with
    | inl r =>
      rw [hsc] at h
      simp only at h
      subst h
      rw [hm.1 p hsc]
    | inr st =>
      obtain ⟨Q1, d1, p1⟩ := st
      rw [hsc] at h
      simp only at h
      rw [hm.2 _ hsc]
      simp only
      exact bfs_loop_fuel_mono g out rf rf2 hrf f f2 Q1 d1 p1 p (by omega) h

/-- An iteration of the loop of `dijkstra_search` that selects a vertex and does not
return deletes that vertex, which was not deleted, and no other: the number of deleted
vertices grows by one. -/
theorem dijkstra_iteration_deletes (g : Graph) (dist : List Dist) (parent : List ℕ)
    (hd : dist.length = g.num_vertices) (hp : parent.length = g.num_vertices)
    (hc : select_min g dist ≠ g.num_vertices) :
    ¬ deleted dist (select_min g dist) ∧
    (∀ j < g.num_vertices,
      deleted ((relax g (select_min g dist) dist parent).1.set (select_min g dist)
        ((-1 : ℚ) : Dist)) j ↔ deleted dist j ∨ j = select_min g dist) ∧
    numDeleted g ((relax g (select_min g dist) dist parent).1.set (select_min g dist)
        ((-1 : ℚ) : Dist)) = numDeleted g dist + 1 := by
  obtain ⟨hcn, hcnd, _, _, _⟩ := select_min_some g dist hc
  generalize select_min g dist = c at hcn hcnd ⊢
  have hr := relax_fold_spec g c dist parent g.num_vertices (le_of_eq hd.symm)
    (le_of_eq hp.symm)
  unfold relax
  generalize List.foldl (relax_step g c) (dist, parent) (List.range g.num_vertices) = st
    at hr ⊢
  obtain ⟨d1, p1⟩ := st
  simp only at hr
  obtain ⟨hl1, _, hdd, _⟩ := hr
  have hcnd2 : ¬ deleted dist c := hcnd
  have hc0 : (0 : Dist) ≤ dist.getD c ⊤ := not_lt.mp hcnd
  have hx0 : ∀ j, ¬ g.weight c j < 0 → (0 : Dist) ≤ dist.getD c ⊤ + (g.weight c j : ℚ) :=
    fun j hw => add_nonneg hc0 (by exact_mod_cast not_lt.mp hw)
  have hcl : c < d1.length := by rw [hl1, hd]; exact hcn
  have hdel : ∀ j < g.num_vertices,
      deleted (d1.set c ((-1 : ℚ) : Dist)) j ↔ deleted dist j ∨ j = c := by
    intro j hj
    unfold deleted
    rw [getD_set _ _ _ _ _ hcl]
    by_cases hcj : c = j
    · rw [if_pos hcj]
      exact ⟨fun _ => Or.inr hcj.symm, fun _ => neg_one_lt_zero_dist⟩
    · rw [if_neg hcj, hdd j]
      by_cases hcond : j < g.num_vertices ∧ ¬ g.weight c j < 0 ∧
          dist.getD c ⊤ + (g.weight c j : ℚ) < dist.getD j ⊤
      · rw [if_pos hcond]
        constructor
        · intro hlt; exact absurd hlt (not_lt.mpr (hx0 j hcond.2.1))
        · rintro (hdj | e2)
          · exact absurd (lt_trans hcond.2.2 hdj) (not_lt.mpr (hx0 j hcond.2.1))
          · exact absurd e2.symm hcj
      · rw [if_neg hcond]
        constructor
        · intro hlt; exact Or.inl hlt
        · rintro (hdj | e2)
          · exact hdj
          · exact absurd e2.symm hcj
  refine ⟨hcnd2, hdel, ?_⟩
  unfold numDeleted
  have hset : (Finset.range g.num_vertices).filter
      (fun i => deleted (d1.set c ((-1 : ℚ) : Dist)) i) =
      insert c ((Finset.range g.num_vertices).filter (fun i => deleted dist i)) := by
    ext j
    simp only [Finset.mem_filter, Finset.mem_range, Finset.mem_insert]
    constructor
    · rintro ⟨hj, hdj⟩
      rcases (hdel j hj).mp hdj with h1 | h1
      · exact Or.inr ⟨hj, h1⟩
      · exact Or.inl h1
    · rintro (h1 | ⟨hj, h1⟩)
      · subst h1; exact ⟨hcn, (hdel j hcn).mpr (Or.inr rfl)⟩
      · exact ⟨hj, (hdel j hj).mpr (Or.inl h1)⟩
  rw [hset, Finset.card_insert_of_not_mem]
  simp only [Finset.mem_filter, Finset.mem_range, not_and]
  exact fun _ => hcnd2

/-! ## Facts about the test graphs -/

/-- In `twoApart` vertex 1 cannot be reached from vertex 0. -/
theorem twoApart_unreachable : ¬ twoApart.reachable 0 1 := by
  rintro ⟨p, hp⟩
  have h := walk_induction twoApart (fun x => x = 0)
    (by
      intro u v _ _ he hu
      by_cases huv : u = v
      · rw [← huv]; exact hu
      · have : ¬ twoApart.edge u v := by
          simp [Graph.edge, twoApart, huv]
        exact absurd he this)
    p 0 1 hp.1 hp.2 rfl
  exact absurd h (by decide)

/-! ## The claims -/

/-- C1. Optimality of `dijkstra_search`: for valid descriptors of start and goal (whatever
the weights, each of which is negative or non-negative), a non-empty path returned by
`dijkstra_search` is the sequence of points of a walk from the start vertex to the goal
vertex whose sum of edge weights is at most that of every walk from the start vertex to
the goal vertex. -/
theorem C1_dijkstra_optimal (g : Graph) (a b : Point)
    (ha : g.descriptor a < g.num_vertices) (hb : g.descriptor b < g.num_vertices)
    (p : Path) (hres : dijkstra_search g a b = some p) (hne : p ≠ []) :
    ∃ ip : List ℕ, p = ip.map g.vertex ∧ g.isWalk (g.descriptor a) (g.descriptor b) ip ∧
      ∀ w, g.isWalk (g.descriptor a) (g.descriptor b) w →
        g.walkWeight ip ≤ g.walkWeight w := by
  obtain ⟨q, hq, hor⟩ := dijkstra_search_spec g a b ha hb
  rw [hres, Option.some.injEq] at hq
  subst hq
  rcases hor with ⟨he, _⟩ | ⟨ip, hp, hwalk, _, hmin⟩
  · exact absurd he hne
  · exact ⟨ip, hp, hwalk, hmin⟩

/-- C1 on the graph `kite`, from `(0,0)` to `(2,0)`: the path through `(1,0)`. -/
theorem C1_dijkstra_optimal_witness :
    kite.descriptor (0, 0) < kite.num_vertices ∧ kite.descriptor (2, 0) < kite.num_vertices ∧
    dijkstra_search kite (0, 0) (2, 0) = some [(0, 0), (1, 0), (2, 0)] ∧
    ∃ ip : List ℕ, [(0, 0), (1, 0), (2, 0)] = ip.map kite.vertex ∧
      kite.isWalk (kite.descriptor (0, 0)) (kite.descriptor (2, 0)) ip ∧
      ∀ w, kite.isWalk (kite.descriptor (0, 0)) (kite.descriptor (2, 0)) w →
        kite.walkWeight ip ≤ kite.walkWeight w :=
  ⟨by decide, by decide, by decide!,
    C1_dijkstra_optimal kite (0, 0) (2, 0) (by decide) (by decide) [(0, 0), (1, 0), (2, 0)]
      (by decide!) (by decide)⟩

/-- C3, at the failing input. On the graph of two vertices joined by one edge, with the
start at vertex 0 and the goal at vertex 1, the goal is reachable and
`breadth_first_search` returns the empty path: the test `curr == out` is made on the
vertex being expanded, so a goal that discovers no new neighbour is never reported. -/
theorem C3_bfs_misses_reachable_goal :
    twoLine.descriptor (0, 0) < twoLine.num_vertices ∧
    twoLine.descriptor (1, 0) < twoLine.num_vertices ∧
    twoLine.reachable (twoLine.descriptor (0, 0)) (twoLine.descriptor (1, 0)) ∧
    breadth_first_search twoLine (0, 0) (1, 0) = some [] :=
  ⟨by decide, by decide, ⟨[0, 1], by decide⟩, by decide⟩

/-- C6, at the failing input. On the graph of two vertices joined by one edge of weight 1,
with the start at vertex 0 and the goal at vertex 1 (reachable), `dijkstra_search`
returns the path of weight 1 and `breadth_first_search` returns the empty path, of
weight 0: the weight of the former is not at most the weight of the latter. -/
theorem C6_dijkstra_not_le_bfs :
    twoLine.reachable (twoLine.descriptor (0, 0)) (twoLine.descriptor (1, 0)) ∧
    dijkstra_search twoLine (0, 0) (1, 0) = some [(0, 0), (1, 0)] ∧
    breadth_first_search twoLine (0, 0) (1, 0) = some [] ∧
    twoLine.pathWeight [(0, 0), (1, 0)] = 1 ∧ twoLine.pathWeight [] = 0 ∧
    ¬ twoLine.pathWeight [(0, 0), (1, 0)] ≤ twoLine.pathWeight [] :=
  ⟨⟨[0, 1], by decide⟩, by decide!, by decide, by decide!, by decide!, by decide!⟩

/-- C7. The no-op search returns exactly the two-point path `[a, b]` for every graph and
every pair of points (an empty graph and `a = b` included), and its result does not depend
on the graph. -/
theorem C7_default_search (g : Graph) (a b : Point) :
    default_search g a b = [a, b] ∧ ∀ g2 : Graph, default_search g2 a b = default_search g a b :=
  ⟨rfl, fun _ => rfl⟩

/-- C8. Constructing `a_star_search` or `depth_first_search` always raises
`UnimplementedException`: neither constructor ever yields a value of the variant. -/
theorem C8_unimplemented_constructors :
    a_star_search.ctor = Except.error MpelException.UnimplementedException ∧
    depth_first_search.ctor = Except.error MpelException.UnimplementedException ∧
    (∀ v : a_star_search, a_star_search.ctor ≠ Except.ok v) ∧
    (∀ v : depth_first_search, depth_first_search.ctor ≠ Except.ok v) := by
  refine ⟨rfl, rfl, ?_, ?_⟩
  · intro v h; simp [a_star_search.ctor] at h
  · intro v h; simp [depth_first_search.ctor] at h

/-- C9. Termination of `dijkstra_search` for valid descriptors: `num_vertices + 1`
iterations of the outer loop and `num_vertices` evaluations of the condition of the
reconstruction loop are enough for the function to return, and allowing more of either
does not change the result. Every iteration of the outer loop that selects a vertex and
does not return deletes that vertex, which was not deleted before: the number of deleted
vertices grows by one. -/
theorem C9_dijkstra_terminates (g : Graph) (a b : Point)
    (ha : g.descriptor a < g.num_vertices) (hb : g.descriptor b < g.num_vertices) :
    (∃ p : Path, dijkstra_fuel (g.num_vertices + 1) g.num_vertices g a b = some p) ∧
    (∀ lfuel rfuel, g.num_vertices + 1 ≤ lfuel → g.num_vertices ≤ rfuel →
      dijkstra_fuel lfuel rfuel g a b =
        dijkstra_fuel (g.num_vertices + 1) g.num_vertices g a b) ∧
    (∀ (dist : List Dist) (parent : List ℕ), dist.length = g.num_vertices →
      parent.length = g.num_vertices → select_min g dist ≠ g.num_vertices →
      ¬ deleted dist (select_min g dist) ∧
      numDeleted g ((relax g (select_min g dist) dist parent).1.set (select_min g dist)
        ((-1 : ℚ) : Dist)) = numDeleted g dist + 1) := by
  obtain ⟨q, hq, _⟩ := dijkstra_search_spec g a b ha hb
  unfold dijkstra_search at hq
  refine ⟨⟨q, hq⟩, fun lfuel rfuel hl hr => ?_, fun dist parent hd hp hc => ?_⟩
  · rw [hq]
    unfold dijkstra_fuel at hq ⊢
    exact dijkstra_loop_fuel_mono g _ _ _ hr _ _ _ _ q hl hq
  · obtain ⟨h1, _, h3⟩ := dijkstra_iteration_deletes g dist parent hd hp hc
    exact ⟨h1, h3⟩

/-- C9 on the graph `kite`, from `(0,0)` to `(3,0)`. -/
theorem C9_dijkstra_terminates_witness :
    kite.descriptor (0, 0) < kite.num_vertices ∧ kite.descriptor (3, 0) < kite.num_vertices ∧
    (∃ p : Path, dijkstra_fuel (kite.num_vertices + 1) kite.num_vertices kite (0, 0) (3, 0)
      = some p) ∧
    (∀ lfuel rfuel, kite.num_vertices + 1 ≤ lfuel → kite.num_vertices ≤ rfuel →
      dijkstra_fuel lfuel rfuel kite (0, 0) (3, 0) =
        dijkstra_fuel (kite.num_vertices + 1) kite.num_vertices kite (0, 0) (3, 0)) ∧
    (∀ (dist : List Dist) (parent : List ℕ), dist.length = kite.num_vertices →
      parent.length = kite.num_vertices → select_min kite dist ≠ kite.num_vertices →
      ¬ deleted dist (select_min kite dist) ∧
      numDeleted kite ((relax kite (select_min kite dist) dist parent).1.set
        (select_min kite dist) ((-1 : ℚ) : Dist)) = numDeleted kite dist + 1) :=
  ⟨by decide, by decide, C9_dijkstra_terminates kite (0, 0) (3, 0) (by decide) (by decide)⟩

/-- C10. The selection step of `dijkstra_search` is a function of `dist` with a fixed
tie-break. It yields `num_vertices` exactly when every vertex that is not deleted still
has the initial distance; otherwise it yields a vertex that is not deleted, has a finite
distance, has the least distance among the vertices that are not deleted, and no vertex
of smaller index that is not deleted has a distance as small. -/
theorem C10_selection (g : Graph) (dist : List Dist) :
    (select_min g dist = g.num_vertices ↔
      ∀ i < g.num_vertices, ¬ dist.getD i ⊤ < 0 → dist.getD i ⊤ = ⊤) ∧
    (select_min g dist ≠ g.num_vertices →
      select_min g dist < g.num_vertices ∧
      ¬ dist.getD (select_min g dist) ⊤ < 0 ∧
      dist.getD (select_min g dist) ⊤ < ⊤ ∧
      (∀ i < g.num_vertices, ¬ dist.getD i ⊤ < 0 →
        dist.getD (select_min g dist) ⊤ ≤ dist.getD i ⊤) ∧
      (∀ i < select_min g dist, ¬ dist.getD i ⊤ < 0 →
        dist.getD (select_min g dist) ⊤ < dist.getD i ⊤)) :=
  ⟨select_min_none_iff g dist, select_min_some g dist⟩

/-! ## Start equal to goal, and paths without repetition -/

theorem walkFrom_mem_lt (g : Graph) :
    ∀ (p : List ℕ) (s : ℕ), g.walkFrom s p → ∀ x ∈ p, x < g.num_vertices
  | [], _, h, _, _ => absurd h (by simp [Graph.walkFrom])
  | [u], _, h, x, hx => by
    rw [List.mem_singleton] at hx
    rw [hx]; exact h.2
  | u :: v :: rest, s, h, x, hx => by
    obtain ⟨_, h2, _, h4⟩ := (walkFrom_cons_cons g s u v rest).mp h
    rw [List.mem_cons] at hx
    rcases hx with e | hx
    · rw [e]; exact h2
    · exact walkFrom_mem_lt g (v :: rest) v h4 x hx

/-- A list of vertex indices below `n` without repetition has at most `n` elements. -/
theorem nodup_length_le (n : ℕ) (l : List ℕ) (hnd : l.Nodup) (hlt : ∀ x ∈ l, x < n) :
    l.length ≤ n := by
  have hsub : l ⊆ List.range n := fun x hx => List.mem_range.mpr (hlt x hx)
  have := (hnd.subperm hsub).length_le
  simpa using this

/-- A walk without repetition from a vertex to itself is the one-vertex walk. -/
theorem isWalk_self_nodup (g : Graph) (s : ℕ) :
    ∀ (p : List ℕ), g.isWalk s s p → p.Nodup → p = [s]
  | [], h, _ => absurd h.1 (by simp [Graph.walkFrom])
  | [u], h, _ => by rw [h.1.1]
  | u :: v :: rest, h, hnd => by
    obtain ⟨h1, _, _, _⟩ := (walkFrom_cons_cons g s u v rest).mp h.1
    have hl : (v :: rest).getLast? = some s := by
      have := h.2
      rw [List.getLast?_cons_cons] at this; exact this
    have hmem : s ∈ v :: rest := List.mem_of_getLast?_eq_some hl
    rw [h1] at hnd
    exact absurd hmem (List.nodup_cons.mp hnd).1

/-- With a descriptor that is not a vertex index `dijkstra_search`, as embedded, never
returns a non-empty path from the loop: the selected vertex is always a vertex index. -/
theorem dijkstra_loop_out_invalid (g : Graph) (out rfuel : ℕ) (hout : ¬ out < g.num_vertices) :
    ∀ (f : ℕ) (dist : List Dist) (parent : List ℕ) (p : Path),
      dijkstra_loop g out rfuel f dist parent = some p → p = []
  | 0, _, _, _, h => by simp [dijkstra_loop] at h
  | f + 1, dist, parent, p, h => by
    unfold dijkstra_loop at h
    simp only at h
    by_cases hc : select_min g dist = g.num_vertices
    · rw [if_pos hc] at h
      exact (Option.some.inj h).symm
    · rw [if_neg hc] at h
      have hlt := (select_min_some g dist hc).1
      have hco : select_min g dist ≠ out := fun e => hout (e ▸ hlt)
      rw [if_neg hco] at h
      exact dijkstra_loop_out_invalid g out rfuel hout f _ _ p h

theorem dijkstra_search_src_invalid (g : Graph) (a b : Point)
    (ha : ¬ g.descriptor a < g.num_vertices) (p : Path)
    (h : dijkstra_search g a b = some p) : p = [] := by
  unfold dijkstra_search dijkstra_fuel at h
  simp only at h
  have hset : (List.replicate g.num_vertices (⊤ : Dist)).set (g.descriptor a) 0 =
      List.replicate g.num_vertices (⊤ : Dist) := by
    apply List.set_eq_of_length_le
    simp only [List.length_replicate]
    exact not_lt.mp ha
  rw [hset] at h
  unfold dijkstra_loop at h
  simp only at h
  have hnone : select_min g (List.replicate g.num_vertices (⊤ : Dist)) = g.num_vertices :=
    (select_min_none_iff g _).mpr (fun i _ _ => getD_replicate _ _ _)
  rw [if_pos hnone] at h
  exact (Option.some.inj h).symm

/-! ## The claims, continued -/

/-- C11. For every graph and every point `a` with a valid descriptor, `dijkstra_search`
from `a` to `a` returns the one-point path of the vertex of `a`, whatever the edges. -/
theorem C11_dijkstra_start_is_goal (g : Graph) (a : Point)
    (ha : g.descriptor a < g.num_vertices) :
    dijkstra_search g a a = some [g.vertex (g.descriptor a)] := by
  obtain ⟨q, hq, hor⟩ := dijkstra_search_spec g a a ha ha
  rcases hor with ⟨_, hno⟩ | ⟨ip, hp, hwalk, hnodup, _⟩
  · exact absurd ⟨[g.descriptor a], isWalk_single g _ ha⟩ hno
  · rw [hq, hp, isWalk_self_nodup g _ ip hwalk hnodup]
    rfl

/-- C11 on the graph `kite` at `(2,0)`, a vertex with three neighbours. -/
theorem C11_dijkstra_start_is_goal_witness :
    kite.descriptor (2, 0) < kite.num_vertices ∧
    dijkstra_search kite (2, 0) (2, 0) = some [kite.vertex (kite.descriptor (2, 0))] :=
  ⟨by decide, C11_dijkstra_start_is_goal kite (2, 0) (by decide)⟩

/-- C13. Every non-empty path returned by `dijkstra_search` is the sequence of points of
the vertex indices followed through the parent pointers from the goal back to the start,
a walk from the start to the goal in which no vertex index is repeated; hence the path
has at most `num_vertices` points. -/
theorem C13_dijkstra_path_no_repetition (g : Graph) (a b : Point) (p : Path)
    (hres : dijkstra_search g a b = some p) (hne : p ≠ []) :
    ∃ ip : List ℕ, p = ip.map g.vertex ∧ g.isWalk (g.descriptor a) (g.descriptor b) ip ∧
      ip.Nodup ∧ (∀ x ∈ ip, x < g.num_vertices) ∧ p.length ≤ g.num_vertices := by
  by_cases ha : g.descriptor a < g.num_vertices
  · by_cases hb : g.descriptor b < g.num_vertices
    · obtain ⟨q, hq, hor⟩ := dijkstra_search_spec g a b ha hb
      rw [hres, Option.some.injEq] at hq
      subst hq
      rcases hor with ⟨he, _⟩ | ⟨ip, hp, hwalk, hnodup, _⟩
      · exact absurd he hne
      · have hlt := walkFrom_mem_lt g ip _ hwalk.1
        refine ⟨ip, hp, hwalk, hnodup, hlt, ?_⟩
        rw [hp, List.length_map]
        exact nodup_length_le _ ip hnodup hlt
    · unfold dijkstra_search dijkstra_fuel at hres
      exact absurd (dijkstra_loop_out_invalid g _ _ hb _ _ _ p hres) hne
  · exact absurd (dijkstra_search_src_invalid g a b ha p hres) hne

/-- C13 on the graph `kite`, from `(0,0)` to `(3,0)`: the path through all four
vertices. -/
theorem C13_dijkstra_path_no_repetition_witness :
    dijkstra_search kite (0, 0) (3, 0) = some [(0, 0), (1, 0), (2, 0), (3, 0)] ∧
    ∃ ip : List ℕ, [(0, 0), (1, 0), (2, 0), (3, 0)] = ip.map kite.vertex ∧
      kite.isWalk (kite.descriptor (0, 0)) (kite.descriptor (3, 0)) ip ∧
      ip.Nodup ∧ (∀ x ∈ ip, x < kite.num_vertices) ∧
      ([(0, 0), (1, 0), (2, 0), (3, 0)] : Path).length ≤ kite.num_vertices :=
  ⟨by decide!,
    C13_dijkstra_path_no_repetition kite (0, 0) (3, 0) [(0, 0), (1, 0), (2, 0), (3, 0)]
      (by decide!) (by decide)⟩

/-! ## breadth_first_search with the start as the goal -/

theorem init_dist_getD (n s : ℕ) (hs : s < n) (i : ℕ) :
    ((List.replicate n (⊤ : Dist)).set s 0).getD i ⊤ = if i = s then 0 else ⊤ := by
  have hlen : s < (List.replicate n (⊤ : Dist)).length := by simpa using hs
  rw [getD_set _ _ _ _ _ hlen, getD_replicate]
  by_cases h : s = i
  · subst h; simp
  · have h2 : ¬ i = s := fun e => h e.symm
    simp [h, h2]

/-- The scan of the neighbours of the start vertex when it is also the goal, from a
state in which only the start is discovered: it returns the one-point path at the
first neighbour other than the start, and changes nothing when there is none. -/
theorem bfs_scan_self (g : Graph) (s rfuel : ℕ) (hrf : 1 ≤ rfuel) (dist : List Dist)
    (parent : List ℕ) (hdist : ∀ i, dist.getD i ⊤ = ⊤ ↔ i ≠ s)
    (hpar : parent.getD s 0 = s) :
    ∀ (rest : List ℕ),
      ((∃ i ∈ rest, i ≠ s ∧ 0 ≤ g.weight s i) →
        bfs_scan g s rfuel s rest [] dist parent = Sum.inl (some [g.vertex s])) ∧
      ((¬ ∃ i ∈ rest, i ≠ s ∧ 0 ≤ g.weight s i) →
        bfs_scan g s rfuel s rest [] dist parent = Sum.inr ([], dist, parent))
  | [] => by
    constructor
    · rintro ⟨i, hi, _⟩; exact absurd hi (List.not_mem_nil i)
    · intro _; rfl
  | i :: rest => by
    have ih := bfs_scan_self g s rfuel hrf dist parent hdist hpar rest
    unfold bfs_scan
    by_cases hw : g.weight s i < 0
    · rw [if_pos hw]
      have hiff : (∃ j ∈ i :: rest, j ≠ s ∧ 0 ≤ g.weight s j) ↔
          (∃ j ∈ rest, j ≠ s ∧ 0 ≤ g.weight s j) := by
        constructor
        · rintro ⟨j, hj, hjs, hjw⟩
          rcases List.mem_cons.mp hj with e | hj
          · rw [e] at hjw; exact absurd hw (not_lt.mpr hjw)
          · exact ⟨j, hj, hjs, hjw⟩
        · rintro ⟨j, hj, hjs, hjw⟩
          exact ⟨j, List.mem_cons_of_mem _ hj, hjs, hjw⟩
      rw [hiff]; exact ih
    · rw [if_neg hw]
      by_cases hnew : dist.getD i ⊤ = ⊤
      · rw [if_pos hnew]
        simp only [if_true]
        have his : i ≠ s := (hdist i).mp hnew
        obtain ⟨f, hf⟩ : ∃ f, rfuel = f + 1 := ⟨rfuel - 1, by omega⟩
        subst hf
        have hps : (parent.set i s).getD s 0 = s := by
          rw [getD_set_ne _ _ _ _ _ his]; exact hpar
        constructor
        · intro _
          unfold reconstruct
          rw [if_neg (not_not.mpr hps)]
          rfl
        · intro hno
          exact absurd ⟨i, List.mem_cons_self _ _, his, not_lt.mp hw⟩ hno
      · rw [if_neg hnew]
        have his : i = s := by
          by_contra hne
          exact hnew ((hdist i).mpr hne)
        have hiff : (∃ j ∈ i :: rest, j ≠ s ∧ 0 ≤ g.weight s j) ↔
            (∃ j ∈ rest, j ≠ s ∧ 0 ≤ g.weight s j) := by
          constructor
          · rintro ⟨j, hj, hjs, hjw⟩
            rcases List.mem_cons.mp hj with e | hj
            · exact absurd (e.trans his) hjs
            · exact ⟨j, hj, hjs, hjw⟩
          · rintro ⟨j, hj, hjs, hjw⟩
            exact ⟨j, List.mem_cons_of_mem _ hj, hjs, hjw⟩
        rw [hiff]; exact ih

/-- What `breadth_first_search` returns when the goal is the start. -/
theorem bfs_start_is_goal (g : Graph) (a : Point) (ha : g.descriptor a < g.num_vertices) :
    ((∃ i < g.num_vertices, i ≠ g.descriptor a ∧ 0 ≤ g.weight (g.descriptor a) i) →
      breadth_first_search g a a = some [g.vertex (g.descriptor a)]) ∧
    ((¬ ∃ i < g.num_vertices, i ≠ g.descriptor a ∧ 0 ≤ g.weight (g.descriptor a) i) →
      breadth_first_search g a a = some []) := by
  have hdist : ∀ i, ((List.replicate g.num_vertices (⊤ : Dist)).set (g.descriptor a) 0).getD
      i ⊤ = ⊤ ↔ i ≠ g.descriptor a := by
    intro i
    rw [init_dist_getD _ _ ha]
    by_cases h : i = g.descriptor a
    · simp [h]
    · simp [h]
  have hpar : ((List.replicate g.num_vertices 0).set (g.descriptor a) (g.descriptor a)).getD
      (g.descriptor a) 0 = g.descriptor a :=
    getD_set_eq _ _ _ _ (by simpa using ha)
  have hscan := bfs_scan_self g (g.descriptor a) g.num_vertices (by omega) _ _ hdist hpar
    (List.range g.num_vertices)
  have hiff : (∃ i ∈ List.range g.num_vertices,
        i ≠ g.descriptor a ∧ 0 ≤ g.weight (g.descriptor a) i) ↔
      (∃ i < g.num_vertices, i ≠ g.descriptor a ∧ 0 ≤ g.weight (g.descriptor a) i) := by
    simp only [List.mem_range]
  rw [hiff] at hscan
  obtain ⟨m, hm⟩ : ∃ m, g.num_vertices = m + 1 := ⟨g.num_vertices - 1, by omega⟩
  constructor
  · intro hex
    unfold breadth_first_search bfs_fuel
    simp only
    unfold bfs_loop
    rw [hscan.1 hex]
  · intro hno
    unfold breadth_first_search bfs_fuel
    simp only
    unfold bfs_loop
    rw [hscan.2 hno]
    simp only
    rw [hm]
    unfold bfs_loop
    rfl

/-- C12. For every graph and every point `a` with a valid descriptor `s`,
`breadth_first_search` from `a` to `a` returns the one-point path of vertex `s` if and
only if some vertex `i` other than `s` has `weight(s, i) >= 0`; when the start vertex has
no neighbour other than itself it returns the empty path. -/
theorem C12_bfs_start_is_goal (g : Graph) (a : Point)
    (ha : g.descriptor a < g.num_vertices) :
    (breadth_first_search g a a = some [g.vertex (g.descriptor a)] ↔
      ∃ i < g.num_vertices, i ≠ g.descriptor a ∧ 0 ≤ g.weight (g.descriptor a) i) ∧
    ((¬ ∃ i < g.num_vertices, i ≠ g.descriptor a ∧ 0 ≤ g.weight (g.descriptor a) i) →
      breadth_first_search g a a = some []) := by
  obtain ⟨h1, h2⟩ := bfs_start_is_goal g a ha
  refine ⟨⟨fun hres => ?_, h1⟩, h2⟩
  by_contra hno
  rw [h2 hno] at hres
  simp at hres

/-- C12 on the graph `kite` at `(0,0)`, which has neighbours, and on the graph `twoApart`
at `(0,0)`, which has none. -/
theorem C12_bfs_start_is_goal_witness :
    (kite.descriptor (0, 0) < kite.num_vertices ∧
      breadth_first_search kite (0, 0) (0, 0) = some [kite.vertex (kite.descriptor (0, 0))]) ∧
    (twoApart.descriptor (0, 0) < twoApart.num_vertices ∧
      breadth_first_search twoApart (0, 0) (0, 0) = some []) :=
  ⟨⟨by decide, (C12_bfs_start_is_goal kite (0, 0) (by decide)).1.mpr
      ⟨1, by decide, by decide, by decide⟩⟩,
    ⟨by decide, (C12_bfs_start_is_goal twoApart (0, 0) (by decide)).2 (by decide)⟩⟩

/-! ## View::add_layer(PathRef) -/

theorem size_t_sub_one (k : ℕ) (h1 : 1 ≤ k) (h2 : k < 2 ^ 64) : size_t_sub k 1 = k - 1 := by
  unfold size_t_sub
  have hM2 : 2 ≤ (2 : ℕ) ^ 64 := by norm_num
  generalize (2 : ℕ) ^ 64 = M at h2 hM2 ⊢
  have h1M : 1 % M = 1 := Nat.mod_eq_of_lt (by omega)
  have e : k + (M - 1 % M) = (k - 1) + M := by
    rw [h1M]; omega
  rw [e, Nat.add_mod_right]
  exact Nat.mod_eq_of_lt (by omega)

/-- The drawing calls of the first `m` iterations of the loop of `add_layer`: what was
drawn before is kept, and the line segments added are those from `path[i]` to
`path[i + 1]` for `i < m`, in order. -/
theorem add_layer_fold (path : Path) (img : List DrawOp) (m : ℕ) :
    ∃ new : List DrawOp,
      (List.range m).foldl (add_layer_step path) img = img ++ new ∧
      segments new =
        (List.range m).map (fun i => (path.getD i (0, 0), path.getD (i + 1) (0, 0))) := by
  induction m with
  | zero => exact ⟨[], by simp, by simp [segments]⟩
  | succ m ih =>
    obtain ⟨new, h1, h2⟩ := ih
    refine ⟨new ++ [DrawOp.line (path.getD m (0, 0)) (path.getD (m + 1) (0, 0))
        Color.COLOR_GREEN 2, DrawOp.circle (path.getD m (0, 0)) 2 Color.COLOR_DARK_GREEN (-1)],
      ?_, ?_⟩
    · rw [List.range_succ, List.foldl_append, h1]
      simp [add_layer_step]
    · rw [List.range_succ, List.map_append, ← h2]
      simp [segments]

/-- C16. `View::add_layer(Path)` returns at once on the empty path: nothing is drawn,
`update()` is not called and `path.size() - 1` is not evaluated. On a path of `k >= 1`
points the subtraction `path.size() - 1` does not wrap around, what was drawn before is
kept, and exactly `k - 1` line segments are added, the `i`-th from `path[i]` to
`path[i + 1]`, in order. -/
theorem C16_add_layer_path (v : View) (path : Path) (hsize : path.length < 2 ^ 64) :
    (path = [] → v.add_layer path = v) ∧
    (path ≠ [] →
      size_t_sub path.length 1 = path.length - 1 ∧
      ∃ new : List DrawOp, (v.add_layer path).img = v.img ++ new ∧
        segments new = (List.range (path.length - 1)).map
          (fun i => (path.getD i (0, 0), path.getD (i + 1) (0, 0))) ∧
        (segments new).length = path.length - 1) := by
  constructor
  · intro h
    subst h
    rfl
  · intro hne
    have hpos : 1 ≤ path.length := List.length_pos.mpr hne
    have hsub := size_t_sub_one path.length hpos hsize
    refine ⟨hsub, ?_⟩
    obtain ⟨new, h1, h2⟩ := add_layer_fold path v.img (path.length - 1)
    refine ⟨new, ?_, h2, ?_⟩
    · unfold View.add_layer
      rw [if_neg (by omega), hsub]
      exact h1
    · rw [h2, List.length_map, List.length_range]

/-- C16 on a path of three points drawn on an empty image: two line segments. -/
theorem C16_add_layer_path_witness :
    ([(0, 0), (1, 0), (2, 5)] : Path).length < 2 ^ 64 ∧
    (View.mk [] 0).add_layer [(0, 0), (1, 0), (2, 5)] =
      View.mk [DrawOp.line (0, 0) (1, 0) Color.COLOR_GREEN 2,
        DrawOp.circle (0, 0) 2 Color.COLOR_DARK_GREEN (-1),
        DrawOp.line (1, 0) (2, 5) Color.COLOR_GREEN 2,
        DrawOp.circle (1, 0) 2 Color.COLOR_DARK_GREEN (-1)] 1 ∧
    (([] : Path) = [] → (View.mk [] 0).add_layer [] = View.mk [] 0) ∧
    (([(0, 0), (1, 0), (2, 5)] : Path) ≠ [] →
      size_t_sub ([(0, 0), (1, 0), (2, 5)] : Path).length 1 =
        ([(0, 0), (1, 0), (2, 5)] : Path).length - 1 ∧
      ∃ new : List DrawOp,
        ((View.mk [] 0).add_layer [(0, 0), (1, 0), (2, 5)]).img = (View.mk [] 0).img ++ new ∧
        segments new = (List.range (([(0, 0), (1, 0), (2, 5)] : Path).length - 1)).map
          (fun i => (([(0, 0), (1, 0), (2, 5)] : Path).getD i (0, 0),
            ([(0, 0), (1, 0), (2, 5)] : Path).getD (i + 1) (0, 0))) ∧
        (segments new).length = ([(0, 0), (1, 0), (2, 5)] : Path).length - 1) :=
  ⟨by decide, by decide, (C16_add_layer_path (View.mk [] 0) [] (by decide)).1,
    (C16_add_layer_path (View.mk [] 0) [(0, 0), (1, 0), (2, 5)] (by decide)).2⟩

/-! ## The queue operations of breadth_first_search -/

/-- The record of the pushes does not change what the scan computes. -/
theorem bfs_scan_log_fst (g : Graph) (out rfuel curr : ℕ) :
    ∀ (rest Q : List ℕ) (dist : List Dist) (parent pushed : List ℕ),
      (bfs_scan_log g out rfuel curr rest Q dist parent pushed).1 =
        bfs_scan g out rfuel curr rest Q dist parent
  | [], _, _, _, _ => rfl
  | i :: rest, Q, dist, parent, pushed => by
    unfold bfs_scan_log bfs_scan
    by_cases hw : g.weight curr i < 0
    · rw [if_pos hw, if_pos hw]
      exact bfs_scan_log_fst g out rfuel curr rest Q dist parent pushed
    · rw [if_neg hw, if_neg hw]
      by_cases hnew : dist.getD i ⊤ = ⊤
      · rw [if_pos hnew, if_pos hnew]
        simp only
        by_cases hco : curr = out
        · rw [if_pos hco, if_pos hco]
        · rw [if_neg hco, if_neg hco]
          exact bfs_scan_log_fst g out rfuel curr rest _ _ _ _
      · rw [if_neg hnew, if_neg hnew]
        exact bfs_scan_log_fst g out rfuel curr rest Q dist parent pushed

/-- The records of the queue operations do not change what the loop computes. -/
theorem bfs_loop_log_fst (g : Graph) (out rfuel : ℕ) :
    ∀ (f : ℕ) (Q : List ℕ) (dist : List Dist) (parent pushed popped : List ℕ),
      (bfs_loop_log g out rfuel f Q dist parent pushed popped).1 =
        bfs_loop g out rfuel f Q dist parent
  | 0, _, _, _, _, _ => rfl
  | _ + 1, [], _, _, _, _ => rfl
  | f + 1, curr :: Q, dist, parent, pushed, popped => by
    unfold bfs_loop_log bfs_loop
    simp only
    have hfst := bfs_scan_log_fst g out rfuel curr (List.range g.num_vertices) Q dist parent
      pushed
    rw [← hfst]
    cases h : (bfs_scan_log g out rfuel curr (List.range g.num_vertices) Q dist parent
        pushed).1 with
    | inl r => rfl
    | inr st =>
      obtain ⟨Q1, d1, p1⟩ := st
      simp only
      exact bfs_loop_log_fst g out rfuel f Q1 d1 p1 _ _

/-- During the scan of the neighbours of a discovered vertex `curr`, if no vertex was
pushed twice and every pushed vertex is a discovered vertex of the graph, this stays so:
a vertex is pushed only when it is not yet discovered, and it is discovered from then
on. The pushed vertices are the `front` ones followed by the queue. -/
theorem bfs_scan_log_spec (g : Graph) (out rfuel curr : ℕ) (front : List ℕ) :
    ∀ (rest Q : List ℕ) (dist : List Dist) (parent pushed : List ℕ),
      (∀ i ∈ rest, i < g.num_vertices) → dist.length = g.num_vertices →
      discovered dist curr → pushed.Nodup →
      (∀ x ∈ pushed, x < g.num_vertices ∧ discovered dist x) → pushed = front ++ Q →
      (bfs_scan_log g out rfuel curr rest Q dist parent pushed).2.Nodup ∧
      (∀ x ∈ (bfs_scan_log g out rfuel curr rest Q dist parent pushed).2,
        x < g.num_vertices) ∧
      (∃ t, (bfs_scan_log g out rfuel curr rest Q dist parent pushed).2 = pushed ++ t) ∧
      (∀ Q1 d1 p1,
        (bfs_scan_log g out rfuel curr rest Q dist parent pushed).1 = Sum.inr (Q1, d1, p1) →
        d1.length = g.num_vertices ∧
        (∀ x ∈ (bfs_scan_log g out rfuel curr rest Q dist parent pushed).2,
          discovered d1 x) ∧
        (bfs_scan_log g out rfuel curr rest Q dist parent pushed).2 = front ++ Q1)
  | [], Q, dist, parent, pushed, _, hlen, _, hnd, hall, hpq => by
    unfold bfs_scan_log
    refine ⟨hnd, fun x hx => (hall x hx).1, ⟨[], by simp⟩, ?_⟩
    intro Q1 d1 p1 h
    simp only [Sum.inr.injEq, Prod.mk.injEq] at h
    obtain ⟨e1, e2, _⟩ := h
    subst e1; subst e2
    exact ⟨hlen, fun x hx => (hall x hx).2, hpq⟩
  | i :: rest, Q, dist, parent, pushed, hrest, hlen, hdc, hnd, hall, hpq => by
    have hi : i < g.num_vertices := hrest i (List.mem_cons_self _ _)
    have hrest2 : ∀ j ∈ rest, j < g.num_vertices :=
      fun j hj => hrest j (List.mem_cons_of_mem _ hj)
    unfold bfs_scan_log
    by_cases hw : g.weight curr i < 0
    · rw [if_pos hw]
      exact bfs_scan_log_spec g out rfuel curr front rest Q dist parent pushed hrest2 hlen hdc
        hnd hall hpq
    · rw [if_neg hw]
      by_cases hnew : dist.getD i ⊤ = ⊤
      · rw [if_pos hnew]
        simp only
        have hil : i < dist.length := by rw [hlen]; exact hi
        have hnotin : i ∉ pushed := fun hx => (hall i hx).2 hnew
        have hx : dist.getD curr ⊤ + ((g.weight curr i : ℚ) : Dist) ≠ ⊤ :=
          ne_of_lt (WithTop.add_lt_top.mpr ⟨lt_top_iff_ne_top.mpr hdc, WithTop.coe_lt_top _⟩)
        have hdisc : ∀ j, discovered dist j ∨ j = i →
            discovered (dist.set i (dist.getD curr ⊤ + (g.weight curr i : ℚ))) j := by
          intro j hj
          unfold discovered
          rw [getD_set _ _ _ _ _ hil]
          by_cases hij : i = j
          · rw [if_pos hij]; exact hx
          · rw [if_neg hij]
            exact hj.resolve_right (fun e => hij e.symm)
        have hnd1 : (pushed ++ [i]).Nodup := by
          rw [List.nodup_append]
          refine ⟨hnd, List.nodup_singleton i, ?_⟩
          intro x hx1 hx2
          rw [List.mem_singleton] at hx2
          exact hnotin (hx2 ▸ hx1)
        have hall1 : ∀ x ∈ pushed ++ [i], x < g.num_vertices ∧
            discovered (dist.set i (dist.getD curr ⊤ + (g.weight curr i : ℚ))) x := by
          intro x hx
          rw [List.mem_append, List.mem_singleton] at hx
          rcases hx with hx | e
          · exact ⟨(hall x hx).1, hdisc x (Or.inl (hall x hx).2)⟩
          · rw [e]; exact ⟨hi, hdisc i (Or.inr rfl)⟩
        by_cases hco : curr = out
        · rw [if_pos hco]
          refine ⟨hnd1, fun x hx => (hall1 x hx).1, ⟨[i], rfl⟩, ?_⟩
          intro Q1 d1 p1 h
          simp at h
        · rw [if_neg hco]
          have ih := bfs_scan_log_spec g out rfuel curr front rest (Q ++ [i])
            (dist.set i (dist.getD curr ⊤ + (g.weight curr i : ℚ))) (parent.set i curr)
            (pushed ++ [i]) hrest2 (by simp [hlen]) (hdisc curr (Or.inl hdc)) hnd1 hall1
            (by rw [hpq, List.append_assoc])
          obtain ⟨h1, h2, ⟨t, h3⟩, h4⟩ := ih
          exact ⟨h1, h2, ⟨i :: t, by rw [h3]; simp⟩, h4⟩
      · rw [if_neg hnew]
        exact bfs_scan_log_spec g out rfuel curr front rest Q dist parent pushed hrest2 hlen
          hdc hnd hall hpq

/-- From a state of the queue loop in which no vertex was pushed twice, every pushed
vertex is a discovered vertex of the graph and the pushed vertices are the popped ones
followed by the queue, the loop ends with records in which no vertex was pushed twice,
every pushed vertex is a vertex of the graph, and the popped vertices are the first of
the pushed ones. -/
theorem bfs_loop_log_spec (g : Graph) (out rfuel : ℕ) :
    ∀ (f : ℕ) (Q : List ℕ) (dist : List Dist) (parent pushed popped : List ℕ)
      (res : Option Path) (pushed1 popped1 : List ℕ),
      dist.length = g.num_vertices → pushed.Nodup →
      (∀ x ∈ pushed, x < g.num_vertices ∧ discovered dist x) → pushed = popped ++ Q →
      bfs_loop_log g out rfuel f Q dist parent pushed popped = (res, pushed1, popped1) →
      pushed1.Nodup ∧ (∀ x ∈ pushed1, x < g.num_vertices) ∧ (∃ t, pushed1 = pushed ++ t) ∧
        popped1 <+: pushed1
  | 0, Q, dist, parent, pushed, popped, res, pushed1, popped1, _, hnd, hall, hpq, h => by
    simp only [bfs_loop_log, Prod.mk.injEq] at h
    obtain ⟨_, e1, e2⟩ := h
    subst e1; subst e2
    exact ⟨hnd, fun x hx => (hall x hx).1, ⟨[], by simp⟩, by rw [hpq]; exact List.prefix_append _ _⟩
  | f + 1, [], dist, parent, pushed, popped, res, pushed1, popped1, _, hnd, hall, hpq, h => by
    simp only [bfs_loop_log, Prod.mk.injEq] at h
    obtain ⟨_, e1, e2⟩ := h
    subst e1; subst e2
    exact ⟨hnd, fun x hx => (hall x hx).1, ⟨[], by simp⟩, by rw [hpq]; exact List.prefix_append _ _⟩
  | f + 1, curr :: Q, dist, parent, pushed, popped, res, pushed1, popped1, hlen, hnd, hall,
      hpq, h => by
    have hcmem : curr ∈ pushed := by rw [hpq]; simp
    have hpq2 : pushed = (popped ++ [curr]) ++ Q := by rw [hpq]; simp
    obtain ⟨s1, s2, ⟨t, s3⟩, s4⟩ := bfs_scan_log_spec g out rfuel curr (popped ++ [curr])
      (List.range g.num_vertices) Q dist parent pushed (fun i hi => List.mem_range.mp hi)
      hlen (hall curr hcmem).2 hnd hall hpq2
    unfold bfs_loop_log at h
    simp only at h
    cases hsc : (bfs_scan_log g out rfuel curr (List.range g.num_vertices) Q dist parent
        pushed).1 with
    | inl r =>
      rw [hsc] at h
      simp only [Prod.mk.injEq] at h
      obtain ⟨_, e1, e2⟩ := h
      rw [← e1, ← e2]
      refine ⟨s1, s2, ⟨t, s3⟩, ?_⟩
      rw [s3, hpq2, List.append_assoc]
      exact List.prefix_append _ _
    | inr st =>
      obtain ⟨Q1, d1, p1⟩ := st
      rw [hsc] at h
      simp only at h
      obtain ⟨k1, k2, k3⟩ := s4 Q1 d1 p1 hsc
      obtain ⟨r1, r2, ⟨t2, r3⟩, r4⟩ := bfs_loop_log_spec g out rfuel f Q1 d1 p1 _ _ res
        pushed1 popped1 k1 s1 (fun x hx => ⟨s2 x hx, k2 x hx⟩) k3 h
      refine ⟨r1, r2, ⟨t ++ t2, ?_⟩, r4⟩
      rw [r3, s3, List.append_assoc]

/-- The queue operations of `breadth_first_search` for a valid descriptor of the start:
the search returns with `num_vertices + 1` evaluations of the loop condition, more fuel
gives the same result, and for every amount of fuel no vertex is pushed twice, the start
is the first vertex pushed, at most `num_vertices` vertices are pushed and at most
`num_vertices` are popped. -/
theorem bfs_queue_spec (g : Graph) (a b : Point) (ha : g.descriptor a < g.num_vertices) :
    (∃ p : Path, bfs_fuel (g.num_vertices + 1) g.num_vertices g a b = some p) ∧
    (∀ lfuel rfuel, g.num_vertices + 1 ≤ lfuel → g.num_vertices ≤ rfuel →
      bfs_fuel lfuel rfuel g a b = bfs_fuel (g.num_vertices + 1) g.num_vertices g a b) ∧
    (∀ lfuel rfuel,
      (bfs_fuel_log lfuel rfuel g a b).1 = bfs_fuel lfuel rfuel g a b ∧
      (bfs_fuel_log lfuel rfuel g a b).2.1.Nodup ∧
      (bfs_fuel_log lfuel rfuel g a b).2.1.head? = some (g.descriptor a) ∧
      (∀ x ∈ (bfs_fuel_log lfuel rfuel g a b).2.1, x < g.num_vertices) ∧
      (bfs_fuel_log lfuel rfuel g a b).2.1.length ≤ g.num_vertices ∧
      (bfs_fuel_log lfuel rfuel g a b).2.2 <+: (bfs_fuel_log lfuel rfuel g a b).2.1 ∧
      (bfs_fuel_log lfuel rfuel g a b).2.2.length ≤ g.num_vertices) := by
  obtain ⟨q, hq, _⟩ := breadth_first_search_spec g a b ha
  unfold breadth_first_search at hq
  refine ⟨⟨q, hq⟩, fun lfuel rfuel hl hr => ?_, fun lfuel rfuel => ?_⟩
  · rw [hq]
    unfold bfs_fuel at hq ⊢
    exact bfs_loop_fuel_mono g _ _ _ hr _ _ _ _ _ q hl hq
  · have hfst : (bfs_fuel_log lfuel rfuel g a b).1 = bfs_fuel lfuel rfuel g a b := by
      unfold bfs_fuel_log bfs_fuel
      exact bfs_loop_log_fst g _ _ _ _ _ _ _ _
    have hall : ∀ x ∈ [g.descriptor a], x < g.num_vertices ∧
        discovered ((List.replicate g.num_vertices (⊤ : Dist)).set (g.descriptor a) 0) x := by
      intro x hx
      rw [List.mem_singleton] at hx
      subst hx
      refine ⟨ha, ?_⟩
      unfold discovered
      rw [init_dist_getD _ _ ha, if_pos rfl]
      simp
    obtain ⟨r1, r2, ⟨t, r3⟩, r4⟩ := bfs_loop_log_spec g (g.descriptor b) rfuel lfuel
      [g.descriptor a] ((List.replicate g.num_vertices (⊤ : Dist)).set (g.descriptor a) 0)
      ((List.replicate g.num_vertices 0).set (g.descriptor a) (g.descriptor a))
      [g.descriptor a] [] (bfs_fuel_log lfuel rfuel g a b).1 (bfs_fuel_log lfuel rfuel g a b).2.1
      (bfs_fuel_log lfuel rfuel g a b).2.2 (by simp) (List.nodup_singleton _) hall rfl rfl
    have hlen := nodup_length_le _ _ r1 r2
    refine ⟨hfst, r1, ?_, r2, hlen, r4, le_trans r4.length_le hlen⟩
    rw [r3]; rfl

/-! ## Index safety of dijkstra_search -/

theorem read_chk_ok {α : Type} (v : List α) (i : ℕ) (d : α) (h : i < v.length) :
    read_chk v i = Except.ok (v.getD i d) := by
  unfold read_chk
  rw [List.getD_eq_getElem?_getD, List.getElem?_eq_getElem h]
  rfl

theorem write_chk_ok {α : Type} (v : List α) (i : ℕ) (x : α) (h : i < v.length) :
    write_chk v i x = Except.ok (v.set i x) := by
  unfold write_chk
  rw [if_pos h]

/-- With every index of the list in range, the checked selection loop is the selection
loop. -/
theorem select_chk_eq (dist : List Dist) :
    ∀ (l : List ℕ) (st : ℕ × Dist), (∀ i ∈ l, i < dist.length) →
      select_chk dist l st = Except.ok (l.foldl (select_step dist) st)
  | [], _, _ => rfl
  | i :: rest, st, hl => by
    have hi := hl i (List.mem_cons_self _ _)
    have hrest : ∀ j ∈ rest, j < dist.length := fun j hj => hl j (List.mem_cons_of_mem _ hj)
    unfold select_chk
    rw [read_chk_ok dist i ⊤ hi, List.foldl_cons]
    simp only
    unfold select_step
    by_cases h1 : dist.getD i ⊤ < 0
    · rw [if_pos h1, if_pos h1]
      exact select_chk_eq dist rest st hrest
    · rw [if_neg h1, if_neg h1]
      by_cases h2 : dist.getD i ⊤ < st.2
      · rw [if_pos h2, if_pos h2]
        exact select_chk_eq dist rest _ hrest
      · rw [if_neg h2, if_neg h2]
        exact select_chk_eq dist rest st hrest

/-- With `curr` and every index of the list in range, the checked relaxation loop does
not fault, computes the distances of the relaxation loop, and has written every entry of
`parent` whose distance is no longer the initial value. -/
theorem relax_chk_spec (g : Graph) (curr : ℕ) (hc : curr < g.num_vertices) :
    ∀ (l : List ℕ) (dist : List Dist) (parent : List ℕ) (parentO : List (Option ℕ)),
      (∀ i ∈ l, i < g.num_vertices) → Written g dist parent parentO →
      ∃ pO1, relax_chk g curr l (dist, parentO) =
          Except.ok ((l.foldl (relax_step g curr) (dist, parent)).1, pO1) ∧
        Written g (l.foldl (relax_step g curr) (dist, parent)).1
          (l.foldl (relax_step g curr) (dist, parent)).2 pO1
  | [], dist, parent, parentO, _, hW => ⟨parentO, rfl, hW⟩
  | i :: rest, dist, parent, parentO, hl, hW => by
    have hi := hl i (List.mem_cons_self _ _)
    have hrest : ∀ j ∈ rest, j < g.num_vertices := fun j hj => hl j (List.mem_cons_of_mem _ hj)
    obtain ⟨w1, w2, w3, w4⟩ := hW
    unfold relax_chk
    rw [List.foldl_cons]
    unfold relax_step
    simp only
    by_cases hw : g.weight curr i < 0
    · rw [if_pos hw, if_pos hw]
      exact relax_chk_spec g curr hc rest dist parent parentO hrest ⟨w1, w2, w3, w4⟩
    · rw [if_neg hw, if_neg hw]
      rw [read_chk_ok dist curr ⊤ (by rw [w1]; exact hc),
        read_chk_ok dist i ⊤ (by rw [w1]; exact hi)]
      simp only
      by_cases hlt : dist.getD curr ⊤ + (g.weight curr i : ℚ) < dist.getD i ⊤
      · rw [if_pos hlt, if_pos hlt]
        rw [write_chk_ok parentO i _ (by rw [w3]; exact hi),
          write_chk_ok dist i _ (by rw [w1]; exact hi)]
        simp only
        apply relax_chk_spec g curr hc rest _ _ _ hrest
        refine ⟨by simp [w1], by simp [w2], by simp [w3], ?_⟩
        intro j hj hdj
        by_cases hij : i = j
        · subst hij
          rw [getD_set_eq _ _ _ _ (by rw [w3]; exact hi),
            getD_set_eq _ _ _ _ (by rw [w2]; exact hi)]
        · rw [getD_set_ne _ _ _ _ _ hij] at hdj
          rw [getD_set_ne _ _ _ _ _ hij, getD_set_ne _ _ _ _ _ hij]
          exact w4 j hj hdj
      · rw [if_neg hlt, if_neg hlt]
        exact relax_chk_spec g curr hc rest dist parent parentO hrest ⟨w1, w2, w3, w4⟩

/-- The relaxation loop leaves the distance of `curr` as it is. -/
theorem relax_curr_unchanged (g : Graph) (curr : ℕ) (dist : List Dist) (parent : List ℕ)
    (hd : dist.length = g.num_vertices) (hp : parent.length = g.num_vertices) :
    (relax g curr dist parent).1.getD curr ⊤ = dist.getD curr ⊤ := by
  have hr := relax_fold_spec g curr dist parent g.num_vertices (le_of_eq hd.symm)
    (le_of_eq hp.symm)
  simp only at hr
  unfold relax
  rw [hr.2.2.1 curr]
  split_ifs with h
  · exact absurd h.2.2 (not_add_lt_self _ _ h.2.1)
  · rfl

/-- Deleting a vertex whose distance is not the initial value keeps `Written`. -/
theorem written_delete (g : Graph) (dist : List Dist) (parent : List ℕ)
    (parentO : List (Option ℕ)) (curr : ℕ) (hW : Written g dist parent parentO)
    (hfin : dist.getD curr ⊤ ≠ ⊤) :
    Written g (dist.set curr ((-1 : ℚ) : Dist)) parent parentO := by
  obtain ⟨w1, w2, w3, w4⟩ := hW
  refine ⟨by simp [w1], w2, w3, ?_⟩
  intro j hj hdj
  by_cases hcj : curr = j
  · subst hcj; exact w4 curr hj hfin
  · rw [getD_set_ne _ _ _ _ _ hcj] at hdj
    exact w4 j hj hdj

theorem DijkstraInv.dist_ne_top {g : Graph} {s : ℕ} {dist : List Dist} {parent : List ℕ}
    {L : ℕ → Dist} {rank : ℕ → ℕ} (h : DijkstraInv g s dist parent L rank)
    {i : ℕ} (hi : i < g.num_vertices) (hfin : L i ≠ ⊤) : dist.getD i ⊤ ≠ ⊤ := by
  rcases h.lab i hi with h1 | h1
  · rw [h1.1]; exact WithTop.coe_ne_top
  · rw [h1]; exact hfin

/-- Under the invariant, from a vertex of finite label the checked reconstruction loop
returns what the reconstruction loop returns: every vertex on the way is a vertex of the
graph whose entry of `parent` has been written. -/
theorem reconstruct_chk_agree {g : Graph} {s : ℕ} {dist : List Dist} {parent : List ℕ}
    {L : ℕ → Dist} {rank : ℕ → ℕ} (h : DijkstraInv g s dist parent L rank)
    (parentO : List (Option ℕ)) (hW : Written g dist parent parentO) :
    ∀ (f v : ℕ) (acc p : Path), v < g.num_vertices → L v ≠ ⊤ →
      reconstruct g parent f v acc = some p → reconstruct_chk g parentO f v acc = Except.ok p
  | 0, _, _, _, _, _, hr => by simp [reconstruct] at hr
  | f + 1, v, acc, p, hv, hfin, hr => by
    unfold reconstruct at hr
    unfold reconstruct_chk
    have hwr := hW.2.2.2 v hv (h.dist_ne_top hv hfin)
    rw [read_chk_ok parentO v none (by rw [hW.2.2.1]; exact hv), hwr]
    simp only
    unfold Graph.vertex_chk
    rw [if_pos hv]
    simp only
    by_cases hne : parent.getD v 0 ≠ v
    · rw [if_pos hne] at hr ⊢
      have hvs : v ≠ s := fun e => hne (e ▸ h.psrc)
      obtain ⟨hu, hdu, _, _⟩ := h.par v hv hvs hfin
      exact reconstruct_chk_agree h parentO hW f _ _ p hu ((h.deleted_iff hu).mp hdu).2 hr
    · rw [if_neg hne] at hr ⊢
      rw [Option.some.inj hr]

/-- Under the invariant, the loop of `dijkstra_search` with checked indices returns what
the loop returns: no index is out of range and no unwritten entry of `parent` is
followed. -/
theorem dijkstra_loop_chk_agree (g : Graph) (s out rfuel : ℕ) :
    ∀ (f : ℕ) (dist : List Dist) (parent : List ℕ) (parentO : List (Option ℕ))
      (L : ℕ → Dist) (rank : ℕ → ℕ) (p : Path),
      DijkstraInv g s dist parent L rank → Written g dist parent parentO →
      dijkstra_loop g out rfuel f dist parent = some p →
      dijkstra_loop_chk g out rfuel f dist parentO = Except.ok p
  | 0, _, _, _, _, _, _, _, _, hr => by simp [dijkstra_loop] at hr
  | f + 1, dist, parent, parentO, L, rank, p, h, hW, hr => by
    unfold dijkstra_loop at hr
    simp only at hr
    unfold dijkstra_loop_chk
    rw [select_chk_eq dist (List.range g.num_vertices) _
      (fun i hi => by rw [h.dlen]; exact List.mem_range.mp hi)]
    simp only
    have hsel : (List.foldl (select_step dist) (g.num_vertices, ⊤)
        (List.range g.num_vertices)).1 = select_min g dist := rfl
    rw [hsel]
    by_cases hc : select_min g dist = g.num_vertices
    · rw [if_pos hc] at hr ⊢
      rw [Option.some.inj hr]
    · rw [if_neg hc] at hr ⊢
      obtain ⟨hcn, hcnd, hcfin, _, _⟩ := select_min_some g dist hc
      have hcnd2 : ¬ deleted dist (select_min g dist) := hcnd
      by_cases hco : select_min g dist = out
      · rw [if_pos hco] at hr ⊢
        have hfin : L (select_min g dist) ≠ ⊤ := by
          rw [← h.label_of_not_deleted hcn hcnd2]; exact ne_of_lt hcfin
        exact reconstruct_chk_agree h parentO hW rfuel _ _ p hcn hfin hr
      · rw [if_neg hco] at hr ⊢
        obtain ⟨pO1, hrel, hW1⟩ := relax_chk_spec g (select_min g dist) hcn
          (List.range g.num_vertices) dist parent parentO
          (fun i hi => List.mem_range.mp hi) hW
        have hrelax : List.foldl (relax_step g (select_min g dist)) (dist, parent)
            (List.range g.num_vertices) = relax g (select_min g dist) dist parent := rfl
        rw [hrelax] at hrel hW1
        rw [hrel]
        simp only
        rw [write_chk_ok _ _ _ (by rw [hW1.1]; exact hcn)]
        simp only
        obtain ⟨L1, rank1, hinv, _, _⟩ := dijkstraInv_step h hc
        have hcur := relax_curr_unchanged g (select_min g dist) dist parent h.dlen h.plen
        have hW2 := written_delete g _ _ pO1 (select_min g dist) hW1
          (by rw [hcur]; exact ne_of_lt hcfin)
        exact dijkstra_loop_chk_agree g s out rfuel f _ _ pO1 L1 rank1 p hinv hW2 hr

/-- For valid descriptors `dijkstra_search` with checked indices returns the path that
`dijkstra_search` returns. -/
theorem dijkstra_checked_spec (g : Graph) (a b : Point)
    (ha : g.descriptor a < g.num_vertices) (hb : g.descriptor b < g.num_vertices) :
    ∃ p : Path, dijkstra_search g a b = some p ∧ dijkstra_checked g a b = Except.ok p := by
  obtain ⟨q, hq, _⟩ := dijkstra_search_spec g a b ha hb
  refine ⟨q, hq, ?_⟩
  obtain ⟨hinv, _⟩ := dijkstraInv_init g (g.descriptor a) ha
  unfold dijkstra_search dijkstra_fuel at hq
  unfold dijkstra_checked
  simp only
  rw [write_chk_ok _ _ _ (by simpa using ha), write_chk_ok _ _ _ (by simpa using ha)]
  simp only
  refine dijkstra_loop_chk_agree g (g.descriptor a) (g.descriptor b) g.num_vertices
    (g.num_vertices + 1) _ _ _ _ _ q hinv ?_ hq
  refine ⟨by simp, by simp, by simp, ?_⟩
  intro i hi hdi
  rw [init_dist_getD _ _ ha] at hdi
  by_cases his : i = g.descriptor a
  · subst his
    rw [getD_set_eq _ _ _ _ (by simpa using ha), getD_set_eq _ _ _ _ (by simpa using ha)]
  · rw [if_neg his] at hdi
    exact absurd rfl hdi

/-- The checks of `dijkstra_checked` are real: a start descriptor that is not a vertex
index is a fault at the first write, and following an entry of `parent` that was never
written is a fault. -/
theorem dijkstra_checked_faults :
    dijkstra_checked twoLine (5, 0) (0, 0) = Except.error Fault.outOfBounds ∧
    reconstruct_chk twoLine [some 0, none] 2 1 [] = Except.error Fault.uninitialised ∧
    reconstruct_chk twoLine [some 0, some 7] 2 1 [] = Except.error Fault.outOfBounds :=
  ⟨by decide, by decide, by decide⟩

/-- C15. Index safety of `dijkstra_search`: for valid descriptors of start and goal, the
run in which every read and write of `dist` and `parent` and every call of `vertex` is
checked against `num_vertices`, and in which following an entry of `parent` that was
never written (by the initialisation of the start or by a relaxation) is a fault, ends
without a fault and returns the path that `dijkstra_search` returns. -/
theorem C15_dijkstra_index_safety (g : Graph) (a b : Point)
    (ha : g.descriptor a < g.num_vertices) (hb : g.descriptor b < g.num_vertices) :
    ∃ p : Path, dijkstra_search g a b = some p ∧ dijkstra_checked g a b = Except.ok p :=
  dijkstra_checked_spec g a b ha hb

/-- C15 on the graph `kite`, from `(0,0)` to `(3,0)`. -/
theorem C15_dijkstra_index_safety_witness :
    kite.descriptor (0, 0) < kite.num_vertices ∧ kite.descriptor (3, 0) < kite.num_vertices ∧
    dijkstra_checked kite (0, 0) (3, 0) = Except.ok [(0, 0), (1, 0), (2, 0), (3, 0)] ∧
    ∃ p : Path, dijkstra_search kite (0, 0) (3, 0) = some p ∧
      dijkstra_checked kite (0, 0) (3, 0) = Except.ok p :=
  ⟨by decide, by decide, by decide!,
    C15_dijkstra_index_safety kite (0, 0) (3, 0) (by decide) (by decide)⟩

/-! ## The largest double as a value: reading distances -/

theorem max_double_pos : (0 : ℚ) < max_double := by
  norm_num [max_double]

theorem max_dist_pos : (0 : Dist) < max_dist := by
  unfold max_dist
  exact_mod_cast max_double_pos

theorem max_dist_ne_top : max_dist ≠ ⊤ := WithTop.coe_ne_top

theorem enc_top : enc ⊤ = max_dist := by
  unfold enc; rw [if_pos rfl]

theorem enc_of_ne_top {x : Dist} (h : x ≠ ⊤) : enc x = x := by
  unfold enc; rw [if_neg h]

theorem enc_coe (q : ℚ) : enc ((q : ℚ) : Dist) = ((q : ℚ) : Dist) :=
  enc_of_ne_top WithTop.coe_ne_top

theorem belowMax_coe {q : ℚ} (h : q < max_double) : belowMax ((q : ℚ) : Dist) := by
  right; unfold max_dist; exact_mod_cast h

theorem belowMax_neg_one : belowMax (((-1 : ℚ) : Dist)) :=
  belowMax_coe (lt_trans (by norm_num) max_double_pos)

theorem enc_lt_enc {x y : Dist} (hx : belowMax x) (hy : belowMax y) :
    enc x < enc y ↔ x < y := by
  rcases hx with hx | hx
  · subst hx
    rw [enc_top]
    rcases hy with hy | hy
    · subst hy; rw [enc_top]; simp
    · rw [enc_of_ne_top (ne_of_lt (lt_of_lt_of_le hy le_top))]
      constructor
      · intro h; exact absurd h (not_lt.mpr (le_of_lt hy))
      · intro h; exact absurd h (not_lt.mpr le_top)
  · have hxt : x ≠ ⊤ := ne_of_lt (lt_of_lt_of_le hx le_top)
    rw [enc_of_ne_top hxt]
    rcases hy with hy | hy
    · subst hy
      rw [enc_top]
      exact ⟨fun _ => lt_top_iff_ne_top.mpr hxt, fun _ => hx⟩
    · rw [enc_of_ne_top (ne_of_lt (lt_of_lt_of_le hy le_top))]

theorem enc_lt_zero {x : Dist} (hx : belowMax x) : enc x < 0 ↔ x < 0 := by
  rcases hx with hx | hx
  · subst hx
    rw [enc_top]
    constructor
    · intro h; exact absurd h (not_lt.mpr (le_of_lt max_dist_pos))
    · intro h; exact absurd h (not_lt.mpr le_top)
  · rw [enc_of_ne_top (ne_of_lt (lt_of_lt_of_le hx le_top))]

theorem enc_eq_max {x : Dist} (hx : belowMax x) : enc x = max_dist ↔ x = ⊤ := by
  rcases hx with hx | hx
  · subst hx; rw [enc_top]; simp
  · have hxt : x ≠ ⊤ := ne_of_lt (lt_of_lt_of_le hx le_top)
    rw [enc_of_ne_top hxt]
    exact ⟨fun h => absurd h (ne_of_lt hx), fun h => absurd h hxt⟩

/-- A sum of doubles that stays below the largest double is the exact sum. -/
theorem dbl_add_of_lt (q w : ℚ) (h : q + w < max_double) :
    dbl_add ((q : ℚ) : Dist) w = (((q + w : ℚ)) : Dist) := by
  unfold dbl_add
  have hlt : ¬ max_dist < ((q : ℚ) : Dist) + ((w : ℚ) : Dist) := by
    unfold max_dist
    rw [← WithTop.coe_add]
    exact not_lt.mpr (by exact_mod_cast le_of_lt h)
  rw [if_neg hlt, WithTop.coe_add]

/-- A sum of doubles is the exact sum or `+infinity`, and it is `+infinity` only when
the exact sum is above the largest double. -/
theorem dbl_add_cases (q w : ℚ) :
    (max_double < q + w ∧ dbl_add ((q : ℚ) : Dist) w = ⊤) ∨
    (q + w ≤ max_double ∧ dbl_add ((q : ℚ) : Dist) w = (((q + w : ℚ)) : Dist)) := by
  unfold dbl_add
  by_cases h : max_double < q + w
  · left
    refine ⟨h, ?_⟩
    rw [if_pos]
    unfold max_dist
    rw [← WithTop.coe_add]
    exact_mod_cast h
  · right
    refine ⟨not_lt.mp h, ?_⟩
    rw [if_neg, WithTop.coe_add]
    unfold max_dist
    rw [← WithTop.coe_add]
    exact not_lt.mpr (by exact_mod_cast not_lt.mp h)

theorem sim_getD {g : Graph} {dist1 dist2 : List Dist} (h : Sim g dist1 dist2) {i : ℕ}
    (hi : i < g.num_vertices) : dist2.getD i ⊤ = enc (dist1.getD i ⊤) := (h.2.2 i hi).2

theorem sim_below {g : Graph} {dist1 dist2 : List Dist} (h : Sim g dist1 dist2) {i : ℕ}
    (hi : i < g.num_vertices) : belowMax (dist1.getD i ⊤) := (h.2.2 i hi).1

/-- Writing a value below the largest double at the same index of both vectors keeps
`Sim`. -/
theorem sim_set {g : Graph} {dist1 dist2 : List Dist} (h : Sim g dist1 dist2) (i : ℕ)
    (x : Dist) (hx : belowMax x) (hxt : x ≠ ⊤) :
    Sim g (dist1.set i x) (dist2.set i x) := by
  obtain ⟨h1, h2, h3⟩ := h
  refine ⟨by simp [h1], by simp [h2], ?_⟩
  intro j hj
  by_cases hij : i = j
  · subst hij
    rw [getD_set_eq _ _ _ _ (by rw [h1]; exact hj), getD_set_eq _ _ _ _ (by rw [h2]; exact hj)]
    exact ⟨hx, (enc_of_ne_top hxt).symm⟩
  · rw [getD_set_ne _ _ _ _ _ hij, getD_set_ne _ _ _ _ _ hij]
    exact h3 j hj

/-- The two initial vectors of distances are related by `Sim`. -/
theorem sim_init (g : Graph) (s : ℕ) (hs : s < g.num_vertices) :
    Sim g ((List.replicate g.num_vertices (⊤ : Dist)).set s 0)
      ((List.replicate g.num_vertices max_dist).set s 0) := by
  refine ⟨by simp, by simp, ?_⟩
  intro i hi
  rw [init_dist_getD _ _ hs]
  have hlen : s < (List.replicate g.num_vertices max_dist).length := by simpa using hs
  rw [getD_set _ _ _ _ _ hlen]
  by_cases h : s = i
  · subst h
    rw [if_pos rfl, if_pos rfl]
    refine ⟨Or.inr max_dist_pos, ?_⟩
    exact (enc_of_ne_top (by simp)).symm
  · have h2 : ¬ i = s := fun e => h e.symm
    rw [if_neg h2, if_neg h]
    refine ⟨Or.inl rfl, ?_⟩
    rw [enc_top, List.getD_eq_getElem?_getD, List.getElem?_replicate]
    simp [hi]

/-! ## dijkstra_search with the largest double as a value: agreement -/

/-- On related vectors the two selection loops select the same vertex. -/
theorem select_fold_agree {g : Graph} {dist1 dist2 : List Dist} (h : Sim g dist1 dist2) :
    ∀ (l : List ℕ) (c : ℕ) (m : Dist), (∀ i ∈ l, i < g.num_vertices) → belowMax m →
      l.foldl (select_step dist2) (c, enc m) =
        ((l.foldl (select_step dist1) (c, m)).1, enc (l.foldl (select_step dist1) (c, m)).2) ∧
      belowMax (l.foldl (select_step dist1) (c, m)).2
  | [], _, _, _, hm => ⟨rfl, hm⟩
  | i :: rest, c, m, hl, hm => by
    have hi := hl i (List.mem_cons_self _ _)
    have hrest : ∀ j ∈ rest, j < g.num_vertices := fun j hj => hl j (List.mem_cons_of_mem _ hj)
    have hx := sim_below h hi
    have h2 := sim_getD h hi
    rw [List.foldl_cons, List.foldl_cons]
    have hstep : select_step dist2 (c, enc m) i =
        ((select_step dist1 (c, m) i).1, enc (select_step dist1 (c, m) i).2) ∧
        belowMax (select_step dist1 (c, m) i).2 := by
      unfold select_step
      rw [h2]
      simp only
      by_cases hneg : dist1.getD i ⊤ < 0
      · rw [if_pos hneg, if_pos ((enc_lt_zero hx).mpr hneg)]
        exact ⟨rfl, hm⟩
      · rw [if_neg hneg, if_neg (fun hh => hneg ((enc_lt_zero hx).mp hh))]
        by_cases hlt : dist1.getD i ⊤ < m
        · rw [if_pos hlt, if_pos ((enc_lt_enc hx hm).mpr hlt)]
          exact ⟨rfl, hx⟩
        · rw [if_neg hlt, if_neg (fun hh => hlt ((enc_lt_enc hx hm).mp hh))]
          exact ⟨rfl, hm⟩
    rw [hstep.1]
    exact select_fold_agree h rest _ _ hrest hstep.2

theorem select_min_agree {g : Graph} {dist1 dist2 : List Dist} (h : Sim g dist1 dist2) :
    select_min_dbl g dist2 = select_min g dist1 := by
  unfold select_min_dbl select_min
  have := (select_fold_agree h (List.range g.num_vertices) g.num_vertices ⊤
    (fun i hi => List.mem_range.mp hi) (Or.inl rfl)).1
  rw [enc_top] at this
  rw [this]

/-- On related vectors, when the distance `q` of `curr` is finite and every sum that
labels an unlabelled vertex stays below the largest double, the two relaxation loops
write the same parents and related distances. -/
theorem relax_fold_agree (g : Graph) (curr : ℕ) (hc : curr < g.num_vertices) (q : ℚ) :
    ∀ (l : List ℕ) (dist1 dist2 : List Dist) (parent : List ℕ),
      (∀ i ∈ l, i < g.num_vertices) → Sim g dist1 dist2 → dist1.getD curr ⊤ = ((q : ℚ) : Dist) →
      (∀ i < g.num_vertices, ¬ g.weight curr i < 0 → dist1.getD i ⊤ = ⊤ →
        q + g.weight curr i < max_double) →
      (l.foldl (relax_step_dbl g curr) (dist2, parent)).2 =
        (l.foldl (relax_step g curr) (dist1, parent)).2 ∧
      Sim g (l.foldl (relax_step g curr) (dist1, parent)).1
        (l.foldl (relax_step_dbl g curr) (dist2, parent)).1
  | [], _, _, _, _, hS, _, _ => ⟨rfl, hS⟩
  | i :: rest, dist1, dist2, parent, hl, hS, hq, hside => by
    have hi := hl i (List.mem_cons_self _ _)
    have hrest : ∀ j ∈ rest, j < g.num_vertices := fun j hj => hl j (List.mem_cons_of_mem _ hj)
    have hx := sim_below hS hi
    have h2i := sim_getD hS hi
    have h2c : dist2.getD curr ⊤ = ((q : ℚ) : Dist) := by
      rw [sim_getD hS hc, hq, enc_coe]
    rw [List.foldl_cons, List.foldl_cons]
    unfold relax_step relax_step_dbl
    simp only
    by_cases hw : g.weight curr i < 0
    · rw [if_pos hw, if_pos hw]
      exact relax_fold_agree g curr hc q rest dist1 dist2 parent hrest hS hq hside
    · rw [if_neg hw, if_neg hw, hq, h2c, h2i]
      have hsum : ((q : ℚ) : Dist) + ((g.weight curr i : ℚ) : Dist) =
          (((q + g.weight curr i : ℚ)) : Dist) := (WithTop.coe_add _ _).symm
      rw [hsum]
      by_cases hlt : (((q + g.weight curr i : ℚ)) : Dist) < dist1.getD i ⊤
      · -- the exact search writes: the sum is below the largest double
        have hbelow : q + g.weight curr i < max_double := by
          rcases hx with hx | hx
          · exact hside i hi hw hx
          · have := lt_trans hlt hx
            unfold max_dist at this
            exact_mod_cast this
        have hd := dbl_add_of_lt q (g.weight curr i) hbelow
        have hlt2 : dbl_add ((q : ℚ) : Dist) (g.weight curr i) < enc (dist1.getD i ⊤) := by
          rw [hd, ← enc_coe (q + g.weight curr i)]
          exact (enc_lt_enc (belowMax_coe hbelow) hx).mpr hlt
        rw [if_pos hlt, if_pos hlt2]
        rw [hd]
        have hic : i ≠ curr := by
          intro e
          have hlt0 := hlt
          rw [e, hq] at hlt0
          have hlt' : q + g.weight curr curr < q := by exact_mod_cast hlt0
          have hw0 := hw
          rw [e] at hw0
          linarith [not_lt.mp hw0]
        apply relax_fold_agree g curr hc q rest _ _ _ hrest
          (sim_set hS i _ (belowMax_coe hbelow) WithTop.coe_ne_top)
        · rw [getD_set_ne _ _ _ _ _ hic]; exact hq
        · intro j hj hwj hjt
          by_cases hij : i = j
          · subst hij
            rw [getD_set_eq _ _ _ _ (by rw [hS.1]; exact hj)] at hjt
            exact absurd hjt WithTop.coe_ne_top
          · rw [getD_set_ne _ _ _ _ _ hij] at hjt
            exact hside j hj hwj hjt
      · have hlt2 : ¬ dbl_add ((q : ℚ) : Dist) (g.weight curr i) < enc (dist1.getD i ⊤) := by
          rcases dbl_add_cases q (g.weight curr i) with ⟨_, e⟩ | ⟨hle, e⟩
          · rw [e]; exact not_lt.mpr le_top
          · rw [e]
            intro hh
            rcases hx with hx | hx
            · rw [hx] at hlt
              exact hlt (WithTop.coe_lt_top _)
            · rw [enc_of_ne_top (ne_of_lt (lt_of_lt_of_le hx le_top))] at hh
              exact hlt hh
        rw [if_neg hlt, if_neg hlt2]
        exact relax_fold_agree g curr hc q rest dist1 dist2 parent hrest hS hq hside

/-- Under the invariant every vertex of finite label is the end of a walk from the start
that repeats no vertex, runs through vertices of finite label, and whose weight is the
label. -/
theorem dijkstra_chain {g : Graph} {s : ℕ} {dist : List Dist} {parent : List ℕ}
    {L : ℕ → Dist} {rank : ℕ → ℕ} (h : DijkstraInv g s dist parent L rank)
    (v : ℕ) (hv : v < g.num_vertices) (hfin : L v ≠ ⊤) :
    ∃ ip : List ℕ, g.isWalk s v ip ∧ L v = ((g.walkWeight ip : ℚ) : Dist) ∧ ip.Nodup ∧
      ∀ x ∈ ip, L x ≠ ⊤ := by
  have hLs : L s ≠ ⊤ := by rw [h.src0]; simp
  have hmemfin : ∀ (u : ℕ) (ip : List ℕ), g.isWalk s u ip →
      (∀ x ∈ ip, x = s ∨ (deleted dist x ∧ rank x ≤ rank u)) → ∀ x ∈ ip, L x ≠ ⊤ := by
    intro u ip hwalk hmem x hx
    rcases hmem x hx with e | ⟨hdx, _⟩
    · rw [e]; exact hLs
    · exact ((h.deleted_iff (walkFrom_mem_lt g ip s hwalk.1 x hx)).mp hdx).2
  by_cases hvs : v = s
  · subst hvs
    refine ⟨[v], isWalk_single g v hv, ?_, List.nodup_singleton v, ?_⟩
    · rw [h.src0]; simp [Graph.walkWeight]
    · intro x hx
      rw [List.mem_singleton.mp hx]; exact hLs
  · by_cases hdv : deleted dist v
    · obtain ⟨ip, _, hwalk, hLip, hnodup, hmem⟩ :=
        reconstruct_deleted h (rank v + 1) v [] hv (Or.inr hdv) (fun _ => Nat.lt_succ_self _)
          (Nat.succ_pos _)
      exact ⟨ip, hwalk, hLip, hnodup, hmemfin v ip hwalk hmem⟩
    · obtain ⟨hu, hdu, heu, hLu⟩ := h.par v hv hvs hfin
      obtain ⟨ip, _, hwalk, hLip, hnodup, hmem⟩ :=
        reconstruct_deleted h (rank (parent.getD v 0) + 1) (parent.getD v 0) [] hu
          (Or.inr hdu) (fun _ => Nat.lt_succ_self _) (Nat.succ_pos _)
      refine ⟨ip ++ [v], isWalk_snoc g s _ v ip hwalk heu hv, ?_, ?_, ?_⟩
      · rw [walkWeight_snoc g v ip _ hwalk.2, ← hLu, hLip]
        push_cast; rfl
      · rw [List.nodup_append]
        refine ⟨hnodup, List.nodup_singleton v, ?_⟩
        intro x hx1 hx2
        rw [List.mem_singleton] at hx2
        subst hx2
        rcases hmem x hx1 with e | ⟨hdx, _⟩
        · exact hvs e
        · exact hdv hdx
      · intro x hx
        rw [List.mem_append, List.mem_singleton] at hx
        rcases hx with hx | e
        · exact hmemfin _ ip hwalk hmem x hx
        · rw [e]; exact hfin

/-- When every walk from the start that repeats no vertex has a weight below the largest
double, the loop of `dijkstra_search` with the largest double as a value computes what
the loop with an infinite initial distance computes. -/
theorem dijkstra_loop_agree (g : Graph) (s out rfuel : ℕ) (hsmall : g.walksBelowMax s) :
    ∀ (f : ℕ) (dist1 dist2 : List Dist) (parent : List ℕ) (L : ℕ → Dist) (rank : ℕ → ℕ),
      DijkstraInv g s dist1 parent L rank → Sim g dist1 dist2 →
      dijkstra_loop_dbl g out rfuel f dist2 parent = dijkstra_loop g out rfuel f dist1 parent
  | 0, _, _, _, _, _, _, _ => rfl
  | f + 1, dist1, dist2, parent, L, rank, h, hS => by
    unfold dijkstra_loop_dbl dijkstra_loop
    simp only
    rw [select_min_agree hS]
    by_cases hc : select_min g dist1 = g.num_vertices
    · rw [if_pos hc, if_pos hc]
    · rw [if_neg hc, if_neg hc]
      by_cases hco : select_min g dist1 = out
      · rw [if_pos hco, if_pos hco]
      · rw [if_neg hco, if_neg hco]
        obtain ⟨hcn, hcnd, hcfin, _, _⟩ := select_min_some g dist1 hc
        have hcnd2 : ¬ deleted dist1 (select_min g dist1) := hcnd
        have hLc := h.label_of_not_deleted hcn hcnd2
        obtain ⟨q, hq⟩ := WithTop.ne_top_iff_exists.mp (ne_of_lt hcfin)
        have hfin : L (select_min g dist1) ≠ ⊤ := by
          rw [← hLc]; exact ne_of_lt hcfin
        obtain ⟨ip, hwalk, hLip, hnodup, hmem⟩ := dijkstra_chain h _ hcn hfin
        have hqw : g.walkWeight ip = q := by
          have : ((g.walkWeight ip : ℚ) : Dist) = ((q : ℚ) : Dist) := by
            rw [← hLip, ← hLc, ← hq]
          exact_mod_cast this
        have hside : ∀ i < g.num_vertices, ¬ g.weight (select_min g dist1) i < 0 →
            dist1.getD i ⊤ = ⊤ → q + g.weight (select_min g dist1) i < max_double := by
          intro i hi hw hit
          have hnotin : i ∉ ip := by
            intro hx
            exact h.dist_ne_top hi (hmem i hx) hit
          have hwalk2 := isWalk_snoc g s _ i ip hwalk (not_lt.mp hw) hi
          have hnd2 : (ip ++ [i]).Nodup := by
            rw [List.nodup_append]
            refine ⟨hnodup, List.nodup_singleton i, ?_⟩
            intro x hx1 hx2
            rw [List.mem_singleton] at hx2
            exact hnotin (hx2 ▸ hx1)
          have := hsmall (ip ++ [i]) hwalk2.1 hnd2
          rw [walkWeight_snoc g i ip _ hwalk.2, hqw] at this
          exact this
        obtain ⟨hpar, hS1⟩ := relax_fold_agree g (select_min g dist1) hcn q
          (List.range g.num_vertices) dist1 dist2 parent (fun i hi => List.mem_range.mp hi) hS
          hq.symm hside
        obtain ⟨L1, rank1, hinv, _, _⟩ := dijkstraInv_step h hc
        unfold relax_dbl
        unfold relax at hinv ⊢
        rw [hpar]
        exact dijkstra_loop_agree g s out rfuel hsmall f _ _ _ L1 rank1 hinv
          (sim_set hS1 _ _ belowMax_neg_one WithTop.coe_ne_top)

/-- When every walk from the start that repeats no vertex has a weight below the largest
double, `dijkstra_search` with the largest double as a value returns what
`dijkstra_search` with an infinite initial distance returns, for every fuel. -/
theorem dijkstra_fuel_agree (g : Graph) (a b : Point) (lfuel rfuel : ℕ)
    (ha : g.descriptor a < g.num_vertices) (hsmall : g.walksBelowMax (g.descriptor a)) :
    dijkstra_fuel_dbl lfuel rfuel g a b = dijkstra_fuel lfuel rfuel g a b := by
  obtain ⟨hinv, _⟩ := dijkstraInv_init g (g.descriptor a) ha
  unfold dijkstra_fuel_dbl dijkstra_fuel
  exact dijkstra_loop_agree g (g.descriptor a) (g.descriptor b) rfuel hsmall lfuel _ _ _ _ _
    hinv (sim_init g _ ha)

/-! ## breadth_first_search with the largest double as a value: agreement -/

theorem bfsDist_init (g : Graph) (s : ℕ) (hs : s < g.num_vertices) :
    BfsDist g s ((List.replicate g.num_vertices (⊤ : Dist)).set s 0)
      ((List.replicate g.num_vertices 0).set s s) := by
  constructor
  · rw [init_dist_getD _ _ hs, if_pos rfl]
  · intro i _ his hd
    unfold discovered at hd
    rw [init_dist_getD _ _ hs, if_neg his] at hd
    exact absurd rfl hd

/-- Discovering a new neighbour `i` of `curr` keeps `BfsDist`. -/
theorem bfsDist_discover {g : Graph} {s curr i : ℕ} {rest Q : List ℕ} {dist : List Dist}
    {parent : List ℕ} {lev rank : ℕ → ℕ}
    (h : BfsInv g s curr (i :: rest) Q dist parent lev rank) (hD : BfsDist g s dist parent)
    (hi : i < g.num_vertices) (hnew : dist.getD i ⊤ = ⊤) :
    BfsDist g s (dist.set i (dist.getD curr ⊤ + (g.weight curr i : ℚ))) (parent.set i curr) := by
  have hil : i < dist.length := by rw [h.dlen]; exact hi
  have hil2 : i < parent.length := by rw [h.plen]; exact hi
  have hnd : ¬ discovered dist i := fun hh => hh hnew
  have hold : ∀ j, discovered dist j → i ≠ j := fun j hd e => hnd (e ▸ hd)
  constructor
  · rw [getD_set_ne _ _ _ _ _ (hold s h.dsrc)]; exact hD.1
  · intro j hj hjs hdj
    by_cases hij : i = j
    · subst hij
      rw [getD_set_eq _ _ _ _ hil, getD_set_eq _ _ _ _ hil2,
        getD_set_ne _ _ _ _ _ (hold curr h.dcurr)]
    · have hdj0 : discovered dist j := by
        unfold discovered at hdj ⊢
        rw [getD_set_ne _ _ _ _ _ hij] at hdj
        exact hdj
      obtain ⟨_, hdu, _, _, _⟩ := h.par j hj hjs hdj0
      rw [getD_set_ne _ _ _ _ _ hij, getD_set_ne _ _ _ _ _ hij,
        getD_set_ne _ _ _ _ _ (hold _ hdu)]
      exact hD.2 j hj hjs hdj0

/-- Under the invariant every discovered vertex is the end of a walk from the start that
repeats no vertex, runs through discovered vertices, and whose weight is the distance
of the vertex. -/
theorem bfs_chain {g : Graph} {s curr : ℕ} {rest Q : List ℕ} {dist : List Dist}
    {parent : List ℕ} {lev rank : ℕ → ℕ} (h : BfsInv g s curr rest Q dist parent lev rank)
    (hD : BfsDist g s dist parent) :
    ∀ (f v : ℕ), v < g.num_vertices → discovered dist v → rank v < f →
      ∃ ip : List ℕ, g.isWalk s v ip ∧ dist.getD v ⊤ = ((g.walkWeight ip : ℚ) : Dist) ∧
        ip.Nodup ∧ ∀ x ∈ ip, discovered dist x ∧ rank x ≤ rank v
  | 0, _, _, _, hf => absurd hf (Nat.not_lt_zero _)
  | f + 1, v, hv, hd, hrk => by
    by_cases hvs : v = s
    · subst hvs
      refine ⟨[v], isWalk_single g v hv, ?_, List.nodup_singleton v, ?_⟩
      · rw [hD.1]; simp [Graph.walkWeight]
      · intro x hx
        rw [List.mem_singleton.mp hx]; exact ⟨hd, le_refl _⟩
    · obtain ⟨hu, hdu, heu, _, hrku⟩ := h.par v hv hvs hd
      obtain ⟨ip, hwalk, hw, hnodup, hmem⟩ := bfs_chain h hD f (parent.getD v 0) hu hdu
        (by omega)
      refine ⟨ip ++ [v], isWalk_snoc g s _ v ip hwalk heu hv, ?_, ?_, ?_⟩
      · rw [walkWeight_snoc g v ip _ hwalk.2, hD.2 v hv hvs hd, hw]
        push_cast; rfl
      · rw [List.nodup_append]
        refine ⟨hnodup, List.nodup_singleton v, ?_⟩
        intro x hx1 hx2
        rw [List.mem_singleton] at hx2
        subst hx2
        have := (hmem x hx1).2
        omega
      · intro x hx
        rw [List.mem_append, List.mem_singleton] at hx
        rcases hx with hx | e
        · exact ⟨(hmem x hx).1, by have := (hmem x hx).2; omega⟩
        · rw [e]; exact ⟨hd, le_refl _⟩

/-- When every walk from the start that repeats no vertex has a weight below the largest
double, the scan with the largest double as a value makes the pushes of the scan with an
infinite initial distance, and either both return the same result or both run to their
end with the same queue and parents and related distances. -/
theorem bfs_scan_agree (g : Graph) (s out rfuel curr : ℕ) (hsmall : g.walksBelowMax s) :
    ∀ (rest Q : List ℕ) (dist1 dist2 : List Dist) (parent pushed : List ℕ)
      (lev rank : ℕ → ℕ),
      (∀ i ∈ rest, i < g.num_vertices) → BfsInv g s curr rest Q dist1 parent lev rank →
      BfsDist g s dist1 parent → Sim g dist1 dist2 →
      (bfs_scan_dbl g out rfuel curr rest Q dist2 parent pushed).2 =
        (bfs_scan_log g out rfuel curr rest Q dist1 parent pushed).2 ∧
      ((∃ r, (bfs_scan_log g out rfuel curr rest Q dist1 parent pushed).1 = Sum.inl r ∧
          (bfs_scan_dbl g out rfuel curr rest Q dist2 parent pushed).1 = Sum.inl r) ∨
       (∃ Q1 d1 d2 p1 lev1 rank1,
          (bfs_scan_log g out rfuel curr rest Q dist1 parent pushed).1 = Sum.inr (Q1, d1, p1) ∧
          (bfs_scan_dbl g out rfuel curr rest Q dist2 parent pushed).1 = Sum.inr (Q1, d2, p1) ∧
          BfsInv g s curr [] Q1 d1 p1 lev1 rank1 ∧ BfsDist g s d1 p1 ∧ Sim g d1 d2))
  | [], Q, dist1, dist2, parent, pushed, lev, rank, _, h, hD, hS =>
    ⟨rfl, Or.inr ⟨Q, dist1, dist2, parent, lev, rank, rfl, rfl, h, hD, hS⟩⟩
  | i :: rest, Q, dist1, dist2, parent, pushed, lev, rank, hrest, h, hD, hS => by
    have hi : i < g.num_vertices := hrest i (List.mem_cons_self _ _)
    have hrest2 : ∀ j ∈ rest, j < g.num_vertices :=
      fun j hj => hrest j (List.mem_cons_of_mem _ hj)
    have hx := sim_below hS hi
    have h2i := sim_getD hS hi
    unfold bfs_scan_dbl bfs_scan_log
    by_cases hw : g.weight curr i < 0
    · rw [if_pos hw, if_pos hw]
      exact bfs_scan_agree g s out rfuel curr hsmall rest Q dist1 dist2 parent pushed lev rank
        hrest2 (bfsInv_skip h hi (Or.inl hw)) hD hS
    · rw [if_neg hw, if_neg hw]
      by_cases hnew : dist1.getD i ⊤ = ⊤
      · have hnew2 : dist2.getD i ⊤ = max_dist := by
          rw [h2i]; exact (enc_eq_max hx).mpr hnew
        rw [if_pos hnew, if_pos hnew2]
        simp only
        -- the sum that labels `i` is below the largest double
        obtain ⟨q, hq⟩ := WithTop.ne_top_iff_exists.mp h.dcurr
        obtain ⟨ip, hwalk, hwt, hnodup, hmem⟩ :=
          bfs_chain h hD (rank curr + 1) curr h.hcurr h.dcurr (Nat.lt_succ_self _)
        have hqw : g.walkWeight ip = q := by
          have : ((g.walkWeight ip : ℚ) : Dist) = ((q : ℚ) : Dist) := by
            rw [← hwt, ← hq]
          exact_mod_cast this
        have hnotin : i ∉ ip := fun hxm => (hmem i hxm).1 hnew
        have hbelow : q + g.weight curr i < max_double := by
          have hwalk2 := isWalk_snoc g s _ i ip hwalk (not_lt.mp hw) hi
          have hnd2 : (ip ++ [i]).Nodup := by
            rw [List.nodup_append]
            refine ⟨hnodup, List.nodup_singleton i, ?_⟩
            intro x hx1 hx2
            rw [List.mem_singleton] at hx2
            exact hnotin (hx2 ▸ hx1)
          have := hsmall (ip ++ [i]) hwalk2.1 hnd2
          rw [walkWeight_snoc g i ip _ hwalk.2, hqw] at this
          exact this
        have hsum : dist1.getD curr ⊤ + ((g.weight curr i : ℚ) : Dist) =
            (((q + g.weight curr i : ℚ)) : Dist) := by
          rw [← hq, WithTop.coe_add]
        have hd2 : dbl_add (dist2.getD curr ⊤) (g.weight curr i) =
            dist1.getD curr ⊤ + ((g.weight curr i : ℚ) : Dist) := by
          rw [sim_getD hS h.hcurr, ← hq, enc_coe, dbl_add_of_lt q _ hbelow, WithTop.coe_add]
        rw [hd2]
        obtain ⟨lev1, rank1, h1, _⟩ := bfsInv_discover h hi hw hnew
        have hD1 := bfsDist_discover h hD hi hnew
        have hS1 : Sim g (dist1.set i (dist1.getD curr ⊤ + (g.weight curr i : ℚ)))
            (dist2.set i (dist1.getD curr ⊤ + (g.weight curr i : ℚ))) := by
          apply sim_set hS
          · rw [hsum]; exact belowMax_coe hbelow
          · rw [hsum]; exact WithTop.coe_ne_top
        by_cases hco : curr = out
        · rw [if_pos hco, if_pos hco]
          exact ⟨rfl, Or.inl ⟨_, rfl, rfl⟩⟩
        · rw [if_neg hco, if_neg hco]
          exact bfs_scan_agree g s out rfuel curr hsmall rest _ _ _ _ _ lev1 rank1 hrest2 h1
            hD1 hS1
      · have hnew2 : ¬ dist2.getD i ⊤ = max_dist := by
          rw [h2i]; exact fun hh => hnew ((enc_eq_max hx).mp hh)
        rw [if_neg hnew, if_neg hnew2]
        exact bfs_scan_agree g s out rfuel curr hsmall rest Q dist1 dist2 parent pushed lev rank
          hrest2 (bfsInv_skip h hi (Or.inr hnew)) hD hS

/-- When every walk from the start that repeats no vertex has a weight below the largest
double, the queue loop with the largest double as a value returns the result and the
records of the queue loop with an infinite initial distance. -/
theorem bfs_loop_agree (g : Graph) (s out rfuel : ℕ) (hsmall : g.walksBelowMax s) :
    ∀ (f curr : ℕ) (Q : List ℕ) (dist1 dist2 : List Dist) (parent pushed popped : List ℕ)
      (lev rank : ℕ → ℕ),
      BfsInv g s curr (List.range g.num_vertices) Q dist1 parent lev rank →
      BfsDist g s dist1 parent → Sim g dist1 dist2 →
      bfs_loop_dbl g out rfuel f (curr :: Q) dist2 parent pushed popped =
        bfs_loop_log g out rfuel f (curr :: Q) dist1 parent pushed popped
  | 0, _, _, _, _, _, _, _, _, _, _, _, _ => rfl
  | f + 1, curr, Q, dist1, dist2, parent, pushed, popped, lev, rank, h, hD, hS => by
    unfold bfs_loop_dbl bfs_loop_log
    simp only
    obtain ⟨hsnd, hor⟩ := bfs_scan_agree g s out rfuel curr hsmall (List.range g.num_vertices)
      Q dist1 dist2 parent pushed lev rank (fun i hi => List.mem_range.mp hi) h hD hS
    rw [hsnd]
    rcases hor with ⟨r, e1, e2⟩ | ⟨Q1, d1, d2, p1, lev1, rank1, e1, e2, h1, hD1, hS1⟩
    · rw [e1, e2]
    · rw [e1, e2]
      simp only
      match Q1, h1 with
      | [], _ => cases f <;> rfl
      | c2 :: Q2, h1 =>
        exact bfs_loop_agree g s out rfuel hsmall f c2 Q2 d1 d2 p1 _ _ lev1 rank1
          (bfsInv_next h1) hD1 hS1

/-- When every walk from the start that repeats no vertex has a weight below the largest
double, `breadth_first_search` with the largest double as a value returns the result and
the records of `breadth_first_search` with an infinite initial distance, for every
fuel. -/
theorem bfs_fuel_agree (g : Graph) (a b : Point) (lfuel rfuel : ℕ)
    (ha : g.descriptor a < g.num_vertices) (hsmall : g.walksBelowMax (g.descriptor a)) :
    bfs_fuel_dbl lfuel rfuel g a b = bfs_fuel_log lfuel rfuel g a b := by
  obtain ⟨hinv, _⟩ := bfsInv_init g (g.descriptor a) ha
  unfold bfs_fuel_dbl bfs_fuel_log
  exact bfs_loop_agree g (g.descriptor a) (g.descriptor b) rfuel hsmall lfuel _ [] _ _ _ _ _
    _ _ hinv (bfsDist_init g _ ha) (sim_init g _ ha)

/-! ## dijkstra_search with the largest double as a value: an unreachable goal -/

/-- The state of the selection loop after the first `k` vertices, started from
`(c0, m0)`: the start state, or a vertex that is not deleted and whose distance is
below `m0`. -/
theorem select_fold_below (dist : List Dist) (c0 : ℕ) (m0 : Dist) (k : ℕ) :
    ((List.range k).foldl (select_step dist) (c0, m0)).1 = c0 ∨
    (((List.range k).foldl (select_step dist) (c0, m0)).1 < k ∧
      ¬ dist.getD ((List.range k).foldl (select_step dist) (c0, m0)).1 ⊤ < 0 ∧
      dist.getD ((List.range k).foldl (select_step dist) (c0, m0)).1 ⊤ < m0) := by
  have key : ∀ k, ((List.range k).foldl (select_step dist) (c0, m0)).2 ≤ m0 ∧
      (((List.range k).foldl (select_step dist) (c0, m0)).1 = c0 ∨
      (((List.range k).foldl (select_step dist) (c0, m0)).1 < k ∧
        ¬ dist.getD ((List.range k).foldl (select_step dist) (c0, m0)).1 ⊤ < 0 ∧
        dist.getD ((List.range k).foldl (select_step dist) (c0, m0)).1 ⊤ < m0)) := by
    intro k
    induction k with
    | zero => exact ⟨le_refl _, Or.inl rfl⟩
    | succ k ih =>
      rw [List.range_succ, List.foldl_append, List.foldl_cons, List.foldl_nil]
      generalize (List.range k).foldl (select_step dist) (c0, m0) = st at ih ⊢
      obtain ⟨hle, hor⟩ := ih
      unfold select_step
      by_cases hneg : dist.getD k ⊤ < 0
      · rw [if_pos hneg]
        refine ⟨hle, hor.imp id (fun hh => ⟨Nat.lt_succ_of_lt hh.1, hh.2⟩)⟩
      · rw [if_neg hneg]
        by_cases hlt : dist.getD k ⊤ < st.2
        · rw [if_pos hlt]
          exact ⟨le_trans (le_of_lt hlt) hle,
            Or.inr ⟨Nat.lt_succ_self k, hneg, lt_of_lt_of_le hlt hle⟩⟩
        · rw [if_neg hlt]
          refine ⟨hle, hor.imp id (fun hh => ⟨Nat.lt_succ_of_lt hh.1, hh.2⟩)⟩
  exact (key k).2

theorem select_min_dbl_cases (g : Graph) (dist : List Dist) :
    select_min_dbl g dist = g.num_vertices ∨
    (select_min_dbl g dist < g.num_vertices ∧ ¬ dist.getD (select_min_dbl g dist) ⊤ < 0 ∧
      dist.getD (select_min_dbl g dist) ⊤ < max_dist) :=
  select_fold_below dist g.num_vertices max_dist g.num_vertices

theorem dbl_add_nonneg (x : Dist) (w : ℚ) (hx : 0 ≤ x) (hw : ¬ w < 0) : 0 ≤ dbl_add x w := by
  unfold dbl_add
  split_ifs
  · exact le_top
  · exact add_nonneg hx (by exact_mod_cast not_lt.mp hw)

/-- The relaxation loop with the largest double as a value leaves an entry of `dist` as
it is or lowers it to a value that is not negative, and lowers only entries of
neighbours of `curr`. -/
theorem relax_dbl_fold_spec (g : Graph) (curr : ℕ) (dist : List Dist)
    (hc0 : 0 ≤ dist.getD curr ⊤) :
    ∀ (l : List ℕ) (d : List Dist) (p : List ℕ), (∀ i ∈ l, i < d.length) →
      (d.length = dist.length ∧ ∀ j, d.getD j ⊤ = dist.getD j ⊤ ∨
        (g.edge curr j ∧ 0 ≤ d.getD j ⊤ ∧ d.getD j ⊤ < dist.getD j ⊤)) →
      ((l.foldl (relax_step_dbl g curr) (d, p)).1.length = dist.length ∧
        ∀ j, (l.foldl (relax_step_dbl g curr) (d, p)).1.getD j ⊤ = dist.getD j ⊤ ∨
          (g.edge curr j ∧ 0 ≤ (l.foldl (relax_step_dbl g curr) (d, p)).1.getD j ⊤ ∧
            (l.foldl (relax_step_dbl g curr) (d, p)).1.getD j ⊤ < dist.getD j ⊤))
  | [], _, _, _, h => h
  | i :: rest, d, p, hl, h => by
    have hi := hl i (List.mem_cons_self _ _)
    rw [List.foldl_cons]
    unfold relax_step_dbl
    simp only
    by_cases hw : g.weight curr i < 0
    · rw [if_pos hw]
      exact relax_dbl_fold_spec g curr dist hc0 rest d p
        (fun j hj => hl j (List.mem_cons_of_mem _ hj)) h
    · rw [if_neg hw]
      by_cases hlt : dbl_add (d.getD curr ⊤) (g.weight curr i) < d.getD i ⊤
      · rw [if_pos hlt]
        have hdc : 0 ≤ d.getD curr ⊤ := by
          rcases h.2 curr with e | ⟨_, h0, _⟩
          · rw [e]; exact hc0
          · exact h0
        have hx0 := dbl_add_nonneg (d.getD curr ⊤) (g.weight curr i) hdc hw
        apply relax_dbl_fold_spec g curr dist hc0 rest _ _
        · intro j hj
          rw [List.length_set]
          exact hl j (List.mem_cons_of_mem _ hj)
        · refine ⟨by rw [List.length_set]; exact h.1, ?_⟩
          intro j
          by_cases hij : i = j
          · subst hij
            rw [getD_set_eq _ _ _ _ hi]
            right
            refine ⟨not_lt.mp hw, hx0, ?_⟩
            rcases h.2 i with e | ⟨_, _, h1⟩
            · rw [← e]; exact hlt
            · exact lt_trans hlt h1
          · rw [getD_set_ne _ _ _ _ _ hij]
            exact h.2 j
      · rw [if_neg hlt]
        exact relax_dbl_fold_spec g curr dist hc0 rest d p
          (fun j hj => hl j (List.mem_cons_of_mem _ hj)) h

theorem relax_dbl_spec (g : Graph) (curr : ℕ) (dist : List Dist) (parent : List ℕ)
    (hlen : dist.length = g.num_vertices) (hc0 : 0 ≤ dist.getD curr ⊤) :
    (relax_dbl g curr dist parent).1.length = g.num_vertices ∧
    ∀ j, (relax_dbl g curr dist parent).1.getD j ⊤ = dist.getD j ⊤ ∨
      (g.edge curr j ∧ 0 ≤ (relax_dbl g curr dist parent).1.getD j ⊤ ∧
        (relax_dbl g curr dist parent).1.getD j ⊤ < dist.getD j ⊤) := by
  have := relax_dbl_fold_spec g curr dist hc0 (List.range g.num_vertices) dist parent
    (fun i hi => by rw [hlen]; exact List.mem_range.mp hi) ⟨rfl, fun j => Or.inl rfl⟩
  unfold relax_dbl
  exact ⟨this.1.trans hlen, this.2⟩

theorem numDeleted_le (g : Graph) (dist : List Dist) : numDeleted g dist ≤ g.num_vertices := by
  unfold numDeleted
  simpa using Finset.card_filter_le (Finset.range g.num_vertices) (fun i => deleted dist i)

/-- With the largest double as a value, from a state in which every labelled vertex can
be reached from the start, the loop of `dijkstra_search` returns the empty path when the
goal cannot be reached, whatever the weights. -/
theorem dijkstra_loop_dbl_unreachable (g : Graph) (s out rfuel : ℕ)
    (hno : ¬ g.reachable s out) :
    ∀ (f : ℕ) (dist : List Dist) (parent : List ℕ), dist.length = g.num_vertices →
      (∀ i < g.num_vertices, dist.getD i ⊤ ≠ max_dist → g.reachable s i) →
      g.num_vertices + 1 ≤ f + numDeleted g dist →
      dijkstra_loop_dbl g out rfuel f dist parent = some []
  | 0, dist, _, _, _, hfuel => by
    have := numDeleted_le g dist
    omega
  | f + 1, dist, parent, hlen, hreach, hfuel => by
    unfold dijkstra_loop_dbl
    simp only
    rcases select_min_dbl_cases g dist with hc | ⟨hcn, hcnd, hclt⟩
    · rw [if_pos hc]
    · rw [if_neg (ne_of_lt hcn)]
      have hrc : g.reachable s (select_min_dbl g dist) :=
        hreach _ hcn (ne_of_lt hclt)
      have hco : select_min_dbl g dist ≠ out := fun e => hno (e ▸ hrc)
      rw [if_neg hco]
      generalize select_min_dbl g dist = c at hcn hcnd hclt hrc hco ⊢
      obtain ⟨hl1, hsp⟩ := relax_dbl_spec g c dist parent hlen (not_lt.mp hcnd)
      have hcl : c < (relax_dbl g c dist parent).1.length := by rw [hl1]; exact hcn
      have hdel : ∀ j < g.num_vertices,
          deleted ((relax_dbl g c dist parent).1.set c ((-1 : ℚ) : Dist)) j ↔
            deleted dist j ∨ j = c := by
        intro j _
        unfold deleted
        rw [getD_set _ _ _ _ _ hcl]
        by_cases hcj : c = j
        · rw [if_pos hcj]
          exact ⟨fun _ => Or.inr hcj.symm, fun _ => neg_one_lt_zero_dist⟩
        · rw [if_neg hcj]
          rcases hsp j with e | ⟨_, h0, h1⟩
          · rw [e]
            exact ⟨fun hh => Or.inl hh, fun hh => hh.resolve_right (fun e2 => hcj e2.symm)⟩
          · constructor
            · intro hh; exact absurd hh (not_lt.mpr h0)
            · rintro (hh | e2)
              · exact absurd (lt_trans h1 hh) (not_lt.mpr h0)
              · exact absurd e2.symm hcj
      have hcount : numDeleted g ((relax_dbl g c dist parent).1.set c ((-1 : ℚ) : Dist)) =
          numDeleted g dist + 1 := by
        unfold numDeleted
        have hset : (Finset.range g.num_vertices).filter
            (fun i => deleted ((relax_dbl g c dist parent).1.set c ((-1 : ℚ) : Dist)) i) =
            insert c ((Finset.range g.num_vertices).filter (fun i => deleted dist i)) := by
          ext j
          simp only [Finset.mem_filter, Finset.mem_range, Finset.mem_insert]
          constructor
          · rintro ⟨hj, hdj⟩
            rcases (hdel j hj).mp hdj with h1 | h1
            · exact Or.inr ⟨hj, h1⟩
            · exact Or.inl h1
          · rintro (h1 | ⟨hj, h1⟩)
            · subst h1; exact ⟨hcn, (hdel j hcn).mpr (Or.inr rfl)⟩
            · exact ⟨hj, (hdel j hj).mpr (Or.inl h1)⟩
        rw [hset, Finset.card_insert_of_not_mem]
        simp only [Finset.mem_filter, Finset.mem_range, not_and]
        exact fun _ => hcnd
      apply dijkstra_loop_dbl_unreachable g s out rfuel hno f _ _ (by simp [hl1])
      · intro j hj hne
        rw [getD_set _ _ _ _ _ hcl] at hne
        by_cases hcj : c = j
        · rw [← hcj]; exact hrc
        · rw [if_neg hcj] at hne
          rcases hsp j with e | ⟨he, _, _⟩
          · rw [e] at hne; exact hreach j hj hne
          · obtain ⟨p, hp⟩ := hrc
            exact ⟨p ++ [j], isWalk_snoc g s c j p hp he hj⟩
      · rw [hcount]; omega

/-- With the largest double as a value and whatever the weights, `dijkstra_search`
returns the empty path when the goal cannot be reached from the start. -/
theorem dijkstra_dbl_unreachable (g : Graph) (a b : Point)
    (ha : g.descriptor a < g.num_vertices)
    (hno : ¬ g.reachable (g.descriptor a) (g.descriptor b)) :
    dijkstra_search_dbl g a b = some [] := by
  unfold dijkstra_search_dbl dijkstra_fuel_dbl
  have hlen : g.descriptor a < (List.replicate g.num_vertices max_dist).length := by
    simpa using ha
  apply dijkstra_loop_dbl_unreachable g (g.descriptor a) (g.descriptor b) _ hno _ _ _
    (by simp)
  · intro i hi hne
    rw [getD_set _ _ _ _ _ hlen] at hne
    by_cases h : g.descriptor a = i
    · rw [← h]; exact ⟨[g.descriptor a], isWalk_single g _ ha⟩
    · rw [if_neg h, List.getD_eq_getElem?_getD, List.getElem?_replicate] at hne
      simp [hi] at hne
  · omega

/-! ## Graphs whose walks stay below the largest double -/

theorem walkWeight_le_length (g : Graph) (B : ℚ) (h0 : 0 ≤ B) (hB : ∀ u v, g.weight u v ≤ B) :
    ∀ p : List ℕ, g.walkWeight p ≤ (p.length : ℚ) * B
  | [] => by simp [Graph.walkWeight]
  | [_] => by simpa [Graph.walkWeight] using h0
  | u :: v :: rest => by
    have ih := walkWeight_le_length g B h0 hB (v :: rest)
    have hw := hB u v
    simp only [Graph.walkWeight, List.length_cons] at ih ⊢
    push_cast at ih ⊢
    linarith

/-- When no weight is above `B` and `num_vertices * B` is below the largest double, every
walk that repeats no vertex has a weight below the largest double. -/
theorem walksBelowMax_of_bound (g : Graph) (s : ℕ) (B : ℚ) (h0 : 0 ≤ B)
    (hB : ∀ u v, g.weight u v ≤ B) (hn : (g.num_vertices : ℚ) * B < max_double) :
    g.walksBelowMax s := by
  intro p hp hnd
  have hlen : p.length ≤ g.num_vertices :=
    nodup_length_le _ p hnd (walkFrom_mem_lt g p s hp)
  have h1 := walkWeight_le_length g B h0 hB p
  have h2 : (p.length : ℚ) * B ≤ (g.num_vertices : ℚ) * B :=
    mul_le_mul_of_nonneg_right (by exact_mod_cast hlen) h0
  linarith

theorem kite_walksBelowMax (s : ℕ) : kite.walksBelowMax s := by
  apply walksBelowMax_of_bound kite s 5 (by norm_num)
  · intro u v
    unfold kite
    simp only
    split_ifs <;> norm_num
  · norm_num [kite, max_double]

theorem twoApart_walksBelowMax (s : ℕ) : twoApart.walksBelowMax s := by
  apply walksBelowMax_of_bound twoApart s 0 (le_refl _)
  · intro u v
    unfold twoApart
    simp only
    split_ifs <;> norm_num
  · simpa using max_double_pos

/-- In `maxEdgeApart` vertex 2 cannot be reached from vertex 0. -/
theorem maxEdgeApart_unreachable : ¬ maxEdgeApart.reachable 0 2 := by
  rintro ⟨p, hp⟩
  have h := walk_induction maxEdgeApart (fun x => x < 2)
    (by
      intro u v _ _ he hu
      by_contra hv
      have hlt : maxEdgeApart.weight u v < 0 := by
        have huv : u ≠ v := by omega
        simp [maxEdgeApart, huv, hv]
      exact absurd he (not_le.mpr hlt))
    p 0 2 hp.1 hp.2 (by norm_num)
  exact absurd h (by decide)

/-! ## A search that does not return -/

/-- While a vertex other than the goal is expanded, what the scan computes depends
neither on the fuel of the reconstruction loop nor on the record of the pushes. -/
theorem bfs_scan_dbl_fst (g : Graph) (out rf rf2 curr : ℕ) (hco : curr ≠ out) :
    ∀ (rest Q : List ℕ) (dist : List Dist) (parent pushed pushed2 : List ℕ),
      (bfs_scan_dbl g out rf curr rest Q dist parent pushed).1 =
        (bfs_scan_dbl g out rf2 curr rest Q dist parent pushed2).1
  | [], _, _, _, _, _ => rfl
  | i :: rest, Q, dist, parent, pushed, pushed2 => by
    unfold bfs_scan_dbl
    by_cases hw : g.weight curr i < 0
    · rw [if_pos hw, if_pos hw]
      exact bfs_scan_dbl_fst g out rf rf2 curr hco rest Q dist parent pushed pushed2
    · rw [if_neg hw, if_neg hw]
      by_cases hnew : dist.getD i ⊤ = max_dist
      · rw [if_pos hnew, if_pos hnew]
        simp only
        rw [if_neg hco, if_neg hco]
        exact bfs_scan_dbl_fst g out rf rf2 curr hco rest _ _ _ _ _
      · rw [if_neg hnew, if_neg hnew]
        exact bfs_scan_dbl_fst g out rf rf2 curr hco rest Q dist parent pushed pushed2

/-- In `maxEdgeApart`, with the goal at vertex 2, the expansion of vertex 1 discovers
vertex 1 again (its distance is still the largest double) and leaves the state as it
is: the queue loop runs out of any fuel. -/
theorem maxEdgeApart_stuck (rf : ℕ) :
    ∀ (f : ℕ) (pushed popped : List ℕ),
      (bfs_loop_dbl maxEdgeApart 2 rf f [1] [0, max_dist, max_dist] [0, 1, 0] pushed popped).1
        = none
  | 0, _, _ => rfl
  | f + 1, pushed, popped => by
    unfold bfs_loop_dbl
    simp only
    have hscan : (bfs_scan_dbl maxEdgeApart 2 rf 1 (List.range maxEdgeApart.num_vertices) []
        [0, max_dist, max_dist] [0, 1, 0] pushed).1 =
        Sum.inr ([1], [0, max_dist, max_dist], [0, 1, 0]) := by
      rw [bfs_scan_dbl_fst maxEdgeApart 2 rf 0 1 (by decide) _ _ _ _ pushed []]
      decide!
    rw [hscan]
    exact maxEdgeApart_stuck rf f _ _

/-- In `maxEdgeApart`, from `(0,0)` to `(2,0)`, `breadth_first_search` with the largest
double as a value returns nothing, whatever the fuel. -/
theorem maxEdgeApart_never_returns (lfuel rfuel : ℕ) :
    (bfs_fuel_dbl lfuel rfuel maxEdgeApart (0, 0) (2, 0)).1 = none := by
  unfold bfs_fuel_dbl
  simp only
  have hd : maxEdgeApart.descriptor (2, 0) = 2 := rfl
  have hs : maxEdgeApart.descriptor (0, 0) = 0 := rfl
  rw [hd, hs]
  match lfuel with
  | 0 => rfl
  | 1 =>
    unfold bfs_loop_dbl
    simp only
    have hscan : (bfs_scan_dbl maxEdgeApart 2 rfuel 0 (List.range maxEdgeApart.num_vertices) []
        ((List.replicate maxEdgeApart.num_vertices max_dist).set 0 0)
        ((List.replicate maxEdgeApart.num_vertices 0).set 0 0) [0]).1 =
        Sum.inr ([1], [0, max_dist, max_dist], [0, 0, 0]) := by
      rw [bfs_scan_dbl_fst maxEdgeApart 2 rfuel 0 0 (by decide) _ _ _ _ [0] []]
      decide!
    rw [hscan]
    rfl
  | f + 2 =>
    unfold bfs_loop_dbl
    simp only
    have hscan : (bfs_scan_dbl maxEdgeApart 2 rfuel 0 (List.range maxEdgeApart.num_vertices) []
        ((List.replicate maxEdgeApart.num_vertices max_dist).set 0 0)
        ((List.replicate maxEdgeApart.num_vertices 0).set 0 0) [0]).1 =
        Sum.inr ([1], [0, max_dist, max_dist], [0, 0, 0]) := by
      rw [bfs_scan_dbl_fst maxEdgeApart 2 rfuel 0 0 (by decide) _ _ _ _ [0] []]
      decide!
    rw [hscan]
    simp only
    unfold bfs_loop_dbl
    simp only
    have hscan2 : (bfs_scan_dbl maxEdgeApart 2 rfuel 1 (List.range maxEdgeApart.num_vertices) []
        [0, max_dist, max_dist] [0, 0, 0]
        (bfs_scan_dbl maxEdgeApart 2 rfuel 0 (List.range maxEdgeApart.num_vertices) []
          ((List.replicate maxEdgeApart.num_vertices max_dist).set 0 0)
          ((List.replicate maxEdgeApart.num_vertices 0).set 0 0) [0]).2).1 =
        Sum.inr ([1], [0, max_dist, max_dist], [0, 1, 0]) := by
      rw [bfs_scan_dbl_fst maxEdgeApart 2 rfuel 0 1 (by decide) _ _ _ _ _ []]
      decide!
    rw [hscan2]
    exact maxEdgeApart_stuck rfuel f _ _

/-! ## The searches with the largest double as a value, on graphs whose walks stay below it -/

/-- On a graph whose walks from the start stay below the largest double,
`dijkstra_search` with the largest double as a value computes what `dijkstra_search`
with an infinite initial distance computes. -/
theorem dijkstra_search_dbl_agree (g : Graph) (a b : Point)
    (ha : g.descriptor a < g.num_vertices) (hsmall : g.walksBelowMax (g.descriptor a)) :
    dijkstra_search_dbl g a b = dijkstra_search g a b := by
  unfold dijkstra_search_dbl dijkstra_search
  exact dijkstra_fuel_agree g a b _ _ ha hsmall

/-- On a graph whose walks from the start stay below the largest double, the result of
`breadth_first_search` with the largest double as a value is the result of
`breadth_first_search` with an infinite initial distance. -/
theorem bfs_fuel_dbl_fst (g : Graph) (a b : Point) (lfuel rfuel : ℕ)
    (ha : g.descriptor a < g.num_vertices) (hsmall : g.walksBelowMax (g.descriptor a)) :
    (bfs_fuel_dbl lfuel rfuel g a b).1 = bfs_fuel lfuel rfuel g a b := by
  rw [bfs_fuel_agree g a b lfuel rfuel ha hsmall]
  exact ((bfs_queue_spec g a b ha).2.2 lfuel rfuel).1

theorem breadth_first_search_dbl_agree (g : Graph) (a b : Point)
    (ha : g.descriptor a < g.num_vertices) (hsmall : g.walksBelowMax (g.descriptor a)) :
    breadth_first_search_dbl g a b = breadth_first_search g a b := by
  unfold breadth_first_search_dbl breadth_first_search
  exact bfs_fuel_dbl_fst g a b _ _ ha hsmall

/-! ## The claims on the searches with the largest double as a value -/

end mpel
